import Mathlib

/-!
Verification of the order-book core of the `coinbase` crate.

The Rust source (`src/lib.rs` and friends) is shallowly embedded here:

* `rust_decimal::Decimal` values are exact scaled decimals; the book never
  multiplies or divides them, so every value in play is an integral multiple
  of the exchange's minimal increment and is modelled as that integer (`ℤ`).
  The checked arithmetic of the source fails outside `[-decMAX, decMAX]`,
  where `decMAX` stands for the representability bound `Decimal::MAX =
  2^96 - 1`.
* `u64` sequence numbers are `ℕ` with wrap-around arithmetic made explicit
  (`u64Succ`), matching release-mode `+ 1` on `u64`.
* `uuid::Uuid` order ids are modelled as `ℕ` (only equality is used).
* `time::OffsetDateTime` timestamps are modelled as `ℤ` (only stored/copied).
* `BTreeMap` is modelled as a strictly-key-sorted association list (`OMap`),
  `HashMap` as the same canonical representation over `ℕ` keys (only
  lookup / overwriting insert / remove are used, and Rust `HashMap` equality
  is extensional, which the canonical sorted form realises).
* `&mut self` methods that can fail after mutating are modelled by returning
  the (possibly partially mutated) state next to the `Except` result.
-/

set_option maxHeartbeats 1000000

set_option maxRecDepth 100000

deriving instance DecidableEq for Except

namespace Coinbase

/-- `Decimal::MAX` of `rust_decimal`: `2^96 - 1`. -/
def decMAX : ℤ := 2 ^ 96 - 1

/-- `Decimal::checked_add`: fails when the result is not representable. -/
def checkedAdd (a b : ℤ) : Option ℤ :=
  if -decMAX ≤ a + b ∧ a + b ≤ decMAX then some (a + b) else none

/-- `Decimal::checked_sub`: fails when the result is not representable. -/
def checkedSub (a b : ℤ) : Option ℤ :=
  if -decMAX ≤ a - b ∧ a - b ≤ decMAX then some (a - b) else none

/-- Wrapping `u64` increment, as computed by `self.sequence + 1` in release mode. -/
def u64Succ (n : ℕ) : ℕ := (n + 1) % 2 ^ 64

/-- `level_three::Side`. -/
inductive Side where
  | buy
  | sell
deriving DecidableEq, Repr, Fintype

/-- The error kind of `exchange::common::Error`; payloads that only carry
diagnostic strings or boxed sources are kept as the static description. -/
inductive Error where
  | api (endpoint : String) (message : String)
  | impossible
  | channelClosed
  | priceDoesNotExist (side : Side)
  | orderAlreadyExists
  | orderDoesNotExist
  | outOfSequence
  | insufficientCacheDelay
  | unavailable (name : String)
  | math (description : String)
  | dependency (description : String)
deriving DecidableEq, Repr

/-- `Order { id: Uuid, size: Decimal }`. -/
structure Order where
  id : ℕ
  size : ℤ
deriving DecidableEq, Repr

/-- `Orders { total_size: Decimal, queue: VecDeque<Order> }` (a price level). -/
structure Orders where
  total_size : ℤ
  queue : List Order
deriving DecidableEq, Repr

/-- `Orders::from(order)`: a one-element level. -/
def Orders.ofOrder (o : Order) : Orders := ⟨o.size, [o]⟩

/-- Sorted association list standing for `BTreeMap` / (canonicalised) `HashMap`. -/
abbrev OMap (κ ν : Type) : Type := List (κ × ν)

section OMapOps

variable {κ ν : Type} [LinearOrder κ]

/-- `BTreeMap::get` / `HashMap::get`: value at the first matching key. -/
def mfind? (k : κ) : OMap κ ν → Option ν
  | [] => none
  | (q, v) :: t => if k = q then some v else mfind? k t

/-- `BTreeMap::insert` / `HashMap::insert`: order-preserving upsert. -/
def minsert (k : κ) (v : ν) : OMap κ ν → OMap κ ν
  | [] => [(k, v)]
  | (q, w) :: t =>
    if k < q then (k, v) :: (q, w) :: t
    else if k = q then (k, v) :: t
    else (q, w) :: minsert k v t

/-- `BTreeMap::remove` / `HashMap::remove`: drop the first matching key. -/
def merase (k : κ) : OMap κ ν → OMap κ ν
  | [] => []
  | (q, w) :: t => if k = q then t else (q, w) :: merase k t

/-- The key list of a map. -/
def mkeys (l : OMap κ ν) : List κ := l.map Prod.fst

/-- Canonical well-formedness: keys strictly increase. -/
def MSorted (l : OMap κ ν) : Prop := (mkeys l).Pairwise (· < ·)

/-- `BTreeMap::first_key_value().map(|kv| kv.0)`. -/
def firstKey? (l : OMap κ ν) : Option κ := l.head?.map Prod.fst

/-- `BTreeMap::last_key_value().map(|kv| kv.0)`. -/
def lastKey? (l : OMap κ ν) : Option κ := l.getLast?.map Prod.fst

/-- The minimum of the keys, independent of list order. -/
def minKey? : OMap κ ν → Option κ
  | [] => none
  | (k, _) :: t =>
    match minKey? t with
    | none => some k
    | some m => some (min k m)

/-- The maximum of the keys, independent of list order. -/
def maxKey? : OMap κ ν → Option κ
  | [] => none
  | (k, _) :: t =>
    match maxKey? t with
    | none => some k
    | some m => some (max k m)

end OMapOps

/-- `queue.iter().enumerate().find(...)` on an order id: index and size of the
first order carrying the id. -/
def queueFind (oid : ℕ) : List Order → Option (ℕ × ℤ)
  | [] => none
  | o :: t =>
    if o.id = oid then some (0, o.size)
    else (queueFind oid t).map fun p => (p.1 + 1, p.2)

/-- `Orders::insert`: grow `total_size` (checked), then append to the queue. -/
def Orders.insert (os : Orders) (o : Order) : Except Error Orders :=
  match checkedAdd os.total_size o.size with
  | none => .error (.math "size overflows total size")
  | some total => .ok ⟨total, os.queue ++ [o]⟩

/-- `Orders::reduce_or_delete`: subtract `size` from the order and the level
total; delete the order when its residual is zero. Returns the new level and
whether the order was deleted. All mutations happen after the checked
subtractions, so the error paths leave the level unchanged. -/
def Orders.reduce_or_delete (os : Orders) (oid : ℕ) (size : ℤ) :
    Except Error (Orders × Bool) :=
  match queueFind oid os.queue with
  | none => .error .orderDoesNotExist
  | some (i, _) =>
    match os.queue.get? i with
    | none => .error .impossible
    | some o =>
      match checkedSub o.size size with
      | none => .error (.math "size exceeds order size")
      | some osize =>
        match checkedSub os.total_size size with
        | none => .error (.math "size exceeds total size")
        | some total =>
          let q := os.queue.set i { o with size := osize }
          if osize = 0 then .ok (⟨total, q.eraseIdx i⟩, true)
          else .ok (⟨total, q⟩, false)

/-- `Orders::delete`: remove the first order with the id and shrink the total.
The queue is popped before the checked subtraction, so the overflow error
leaves a level with the order already removed (mirroring the `&mut` staging). -/
def Orders.delete (os : Orders) (oid : ℕ) : Orders × Except Error Unit :=
  match queueFind oid os.queue with
  | none => (os, .error .orderDoesNotExist)
  | some (i, _) =>
    match os.queue.get? i with
    | none => (os, .error .impossible)
    | some o =>
      let q := os.queue.eraseIdx i
      match checkedSub os.total_size o.size with
      | none => ({ os with queue := q }, .error (.math "order size exceeds total size"))
      | some total => (⟨total, q⟩, .ok ())

/-- `rest::products::Product` metadata: opaque for the book logic (cloned and
compared only), modelled by an identifier. -/
structure Product where
  id : ℕ
deriving DecidableEq, Repr

/-- `OrderBook`. -/
structure OrderBook where
  product : Product
  best_ask : ℤ
  best_bid : ℤ
  asks : OMap ℤ Orders
  bids : OMap ℤ Orders
  sequence : ℕ
  updated_at : ℤ
  index : OMap ℕ (Side × ℤ)
deriving DecidableEq, Repr

/-- The half-book of a side. -/
def OrderBook.getSide (b : OrderBook) : Side → OMap ℤ Orders
  | .buy => b.bids
  | .sell => b.asks

/-- Replace the half-book of a side. -/
def OrderBook.setSide (b : OrderBook) : Side → OMap ℤ Orders → OrderBook
  | .buy, hb => { b with bids := hb }
  | .sell, hb => { b with asks := hb }

/-- The best-price refresh performed after a level removal: `last_key_value`
with the `Decimal::ZERO` fallback for bids, `first_key_value` with the
`Decimal::MAX` fallback for asks. -/
def OrderBook.refreshBest (b : OrderBook) : Side → OrderBook
  | .buy => { b with best_bid := (lastKey? b.bids).getD 0 }
  | .sell => { b with best_ask := (firstKey? b.asks).getD decMAX }

/-- `OrderBook::insert`. Note that the index entry is written (overwriting any
previous entry for the id) before the duplicate check fires, so the
`OrderAlreadyExists` error leaves the index mutated. -/
def OrderBook.insert (b : OrderBook) (side : Side) (price : ℤ) (order : Order) :
    OrderBook × Except Error Unit :=
  let previous := mfind? order.id b.index
  let b := { b with index := minsert order.id (side, price) b.index }
  if previous.isSome then (b, .error .orderAlreadyExists)
  else
    match side with
    | .buy =>
      match mfind? price b.bids with
      | some os =>
        match os.insert order with
        | .error e => (b, .error e)
        | .ok os' =>
          let b := { b with bids := minsert price os' b.bids }
          ({ b with best_bid := if price > b.best_bid then price else b.best_bid }, .ok ())
      | none =>
        let b := { b with bids := minsert price (Orders.ofOrder order) b.bids }
        ({ b with best_bid := if price > b.best_bid then price else b.best_bid }, .ok ())
    | .sell =>
      match mfind? price b.asks with
      | some os =>
        match os.insert order with
        | .error e => (b, .error e)
        | .ok os' =>
          let b := { b with asks := minsert price os' b.asks }
          ({ b with best_ask := if price < b.best_ask then price else b.best_ask }, .ok ())
      | none =>
        let b := { b with asks := minsert price (Orders.ofOrder order) b.asks }
        ({ b with best_ask := if price < b.best_ask then price else b.best_ask }, .ok ())

/-- `OrderBook::delete`: drop the index entry, remove the order from its level,
remove the level if it became empty and refresh the side's best price. -/
def OrderBook.delete (b : OrderBook) (oid : ℕ) : OrderBook × Except Error Side :=
  match mfind? oid b.index with
  | none => (b, .error .orderDoesNotExist)
  | some (side, price) =>
    let b := { b with index := merase oid b.index }
    match mfind? price (b.getSide side) with
    | none => (b, .error (.priceDoesNotExist side))
    | some os =>
      match os.delete oid with
      | (os', .error e) => (b.setSide side (minsert price os' (b.getSide side)), .error e)
      | (os', .ok ()) =>
        let b := b.setSide side (minsert price os' (b.getSide side))
        if os'.queue.isEmpty then
          let b := b.setSide side (merase price (b.getSide side))
          (b.refreshBest side, .ok side)
        else (b, .ok side)

/-- `websocket::channels::level_three::Message` (the wire event). -/
inductive LevelThreeMessage where
  | Open (product_id : ℕ) (sequence : ℕ) (order_id : ℕ) (side : Side)
      (price : ℤ) (size : ℤ) (time : ℤ)
  | Change (product_id : ℕ) (sequence : ℕ) (order_id : ℕ)
      (price : ℤ) (size : ℤ) (time : ℤ)
  | Match (product_id : ℕ) (sequence : ℕ) (maker_order_id : ℕ)
      (taker_order_id : ℕ) (price : ℤ) (size : ℤ) (time : ℤ)
  | Noop (product_id : ℕ) (sequence : ℕ) (time : ℤ)
  | Done (product_id : ℕ) (sequence : ℕ) (order_id : ℕ) (time : ℤ)
deriving DecidableEq, Repr

/-- `level_three::Message::sequence()`. -/
def LevelThreeMessage.sequence : LevelThreeMessage → ℕ
  | .Open _ s _ _ _ _ _ => s
  | .Change _ s _ _ _ _ => s
  | .Match _ s _ _ _ _ _ => s
  | .Noop _ s _ => s
  | .Done _ s _ _ => s

/-- The crate-level normalized `Message` returned by `update_with` (carries the
resolved maker side for `Match`). -/
inductive Message where
  | Open (sequence : ℕ) (time : ℤ) (order_id : ℕ) (side : Side)
      (price : ℤ) (size : ℤ)
  | Change (sequence : ℕ) (time : ℤ) (order_id : ℕ) (price : ℤ) (size : ℤ)
  | Match (sequence : ℕ) (time : ℤ) (maker_order_id : ℕ) (taker_order_id : ℕ)
      (side : Side) (price : ℤ) (size : ℤ)
  | Noop (sequence : ℕ) (time : ℤ)
  | Done (sequence : ℕ) (time : ℤ) (order_id : ℕ)
deriving DecidableEq, Repr

/-- `OrderBook::update_with`. Each arm validates the sequence first
(rejection leaves the book untouched), then commits `sequence`/`updated_at`
before the variant-specific mutation, so later errors surface on a book whose
scalar fields have already advanced — exactly as the `&mut self` source. -/
def OrderBook.update_with (b : OrderBook) :
    LevelThreeMessage → OrderBook × Except Error Message
  | .Open _ seq oid side price size time =>
    if seq ≠ u64Succ b.sequence then (b, .error .outOfSequence)
    else
      let b := { b with sequence := u64Succ b.sequence, updated_at := time }
      match b.insert side price ⟨oid, size⟩ with
      | (b', .error e) => (b', .error e)
      | (b', .ok ()) => (b', .ok (.Open seq time oid side price size))
  | .Change _ seq oid price size time =>
    if seq ≠ u64Succ b.sequence then (b, .error .outOfSequence)
    else
      let b := { b with sequence := u64Succ b.sequence, updated_at := time }
      let msg : Message := .Change seq time oid price size
      match mfind? oid b.index with
      | none => (b, .ok msg)
      | some (old_side, old_price) =>
        match mfind? old_price (b.getSide old_side) with
        | none => (b, .error (.priceDoesNotExist old_side))
        | some os =>
          match queueFind oid os.queue with
          | none => (b, .error .orderDoesNotExist)
          | some (old_index, old_size) =>
            if old_price ≠ price ∨ old_size < size then
              -- the price changed or the size increased: delete then reinsert
              if (mfind? oid b.index).isNone then (b, .error .impossible)
              else
                let b := { b with index := merase oid b.index }
                match mfind? old_price (b.getSide old_side) with
                | none => (b, .error .impossible)
                | some os₁ =>
                  match os₁.queue.get? old_index with
                  | none => (b, .error .impossible)
                  | some _ =>
                    let q := os₁.queue.eraseIdx old_index
                    let b := b.setSide old_side
                      (minsert old_price ⟨os₁.total_size, q⟩ (b.getSide old_side))
                    match checkedSub os₁.total_size old_size with
                    | none => (b, .error (.math "order size exceeds total size"))
                    | some total =>
                      let b := b.setSide old_side
                        (minsert old_price ⟨total, q⟩ (b.getSide old_side))
                      let b :=
                        if q.isEmpty then
                          (b.setSide old_side
                            (merase old_price (b.getSide old_side))).refreshBest old_side
                        else b
                      match b.insert old_side price ⟨oid, size⟩ with
                      | (b', .error e) => (b', .error e)
                      | (b', .ok ()) => (b', .ok msg)
            else
              -- only the size decreased: modify the order in place
              match mfind? old_price (b.getSide old_side) with
              | none => (b, .error .impossible)
              | some os₁ =>
                match os₁.queue.get? old_index with
                | none => (b, .error .impossible)
                | some o =>
                  match checkedSub os₁.total_size old_size with
                  | none => (b, .error (.math "old size exceeds total size"))
                  | some t₁ =>
                    match checkedAdd t₁ size with
                    | none => (b, .error (.math "new size causes overflow"))
                    | some t₂ =>
                      (b.setSide old_side
                        (minsert old_price ⟨t₂, os₁.queue.set old_index { o with size := size }⟩
                          (b.getSide old_side)), .ok msg)
  | .Match _ seq maker taker price size time =>
    if seq ≠ u64Succ b.sequence then (b, .error .outOfSequence)
    else
      let b := { b with sequence := u64Succ b.sequence, updated_at := time }
      match mfind? maker b.index with
      | none => (b, .error .orderDoesNotExist)
      | some (side, _) =>
        let msg : Message := .Match seq time maker taker side price size
        match mfind? price (b.getSide side) with
        | none => (b, .error (.priceDoesNotExist side))
        | some os =>
          match os.reduce_or_delete maker size with
          | .error e => (b, .error e)
          | .ok (os', deleted) =>
            let b := if deleted then { b with index := merase maker b.index } else b
            let b := b.setSide side (minsert price os' (b.getSide side))
            if os'.queue.isEmpty then
              ((b.setSide side (merase price (b.getSide side))).refreshBest side, .ok msg)
            else (b, .ok msg)
  | .Noop _ seq time =>
    if seq ≠ u64Succ b.sequence then (b, .error .outOfSequence)
    else
      ({ b with sequence := u64Succ b.sequence, updated_at := time }, .ok (.Noop seq time))
  | .Done _ seq oid time =>
    if seq ≠ u64Succ b.sequence then (b, .error .outOfSequence)
    else
      let b := { b with sequence := u64Succ b.sequence, updated_at := time }
      let msg : Message := .Done seq time oid
      match b.delete oid with
      | (b', .ok _) => (b', .ok msg)
      | (b', .error .orderDoesNotExist) => (b', .ok msg)
      | (b', .error e) => (b', .error e)

/-! ## Snapshot construction (`OrderBookBuilder::build`, book-building part) -/

/-- `rest::products::ProductBook`: the level-3 REST snapshot,
entries are `(price, size, id)`. -/
structure ProductBook where
  asks : List (ℤ × ℤ × ℕ)
  bids : List (ℤ × ℤ × ℕ)
  sequence : ℕ
  time : ℤ
deriving DecidableEq, Repr

/-- The per-side snapshot loop of `OrderBookBuilder::build`: fold the entries
into a half-book and add each id to the shared index. -/
def loadEntries (side : Side) :
    List (ℤ × ℤ × ℕ) → OMap ℤ Orders → OMap ℕ (Side × ℤ) →
    Except Error (OMap ℤ Orders × OMap ℕ (Side × ℤ))
  | [], hb, index => .ok (hb, index)
  | (price, size, id) :: t, hb, index =>
    let order : Order := ⟨id, size⟩
    match mfind? price hb with
    | some os =>
      match os.insert order with
      | .error e => .error e
      | .ok os' => loadEntries side t (minsert price os' hb) (minsert id (side, price) index)
    | none =>
      loadEntries side t (minsert price (Orders.ofOrder order) hb)
        (minsert id (side, price) index)

/-- The order-book construction of `OrderBookBuilder::build` (bids loop, asks
loop, then the struct literal). Note the source's
`best_ask: *asks.keys().next().unwrap_or(&Decimal::ZERO)`: the fallback for an
empty ask side is `Decimal::ZERO`, not `Decimal::MAX`. -/
def buildSnapshotBook (product : Product) (pb : ProductBook) : Except Error OrderBook :=
  match loadEntries .buy pb.bids [] [] with
  | .error e => .error e
  | .ok (bids, index) =>
    match loadEntries .sell pb.asks [] index with
    | .error e => .error e
    | .ok (asks, index) =>
      .ok { product := product
            best_ask := (firstKey? asks).getD 0
            best_bid := (lastKey? bids).getD 0
            asks := asks
            bids := bids
            sequence := pb.sequence
            updated_at := pb.time
            index := index }

/-! ## Cached replay (`OrderBookBuilder::build`, tail after `join`) -/

/-- The replay loop over the drained cache: `Ok` advances, `OutOfSequence` is
silently skipped, any other error is fatal. -/
def replayLoop (b : OrderBook) : List LevelThreeMessage → Except Error OrderBook
  | [] => .ok b
  | m :: t =>
    match b.update_with m with
    | (b', .ok _) => replayLoop b' t
    | (_, .error .outOfSequence) => replayLoop b t
    | (_, .error e) => .error e

/-- The tail of `OrderBookBuilder::build` once the snapshot book `b` exists and
the caching channel was joined: check `last_cached` against the snapshot
sequence, then replay the drained cache. -/
def buildReplay (b : OrderBook) (lastCached : Option LevelThreeMessage)
    (cached : List LevelThreeMessage) : Except Error OrderBook :=
  match lastCached with
  | none => .error .insufficientCacheDelay
  | some m =>
    if m.sequence < b.sequence then .error .insufficientCacheDelay
    else replayLoop b cached

/-! ## Compact projection (`ConnectedOrderBook::to_compact`,
`TryFrom<CompactOrderBook> for OrderBook`) -/

/-- `CompactOrderBook`. `CompactOrder` and `CompactOrders` are in-memory
value-isomorphic to `Order` and to the bare queue (`total_size` is dropped),
so the levels are modelled as `(price, queue)` pairs. -/
structure CompactOrderBook where
  product : Product
  asks : List (ℤ × List Order)
  bids : List (ℤ × List Order)
  sequence : ℕ
  updated_at : ℤ
deriving DecidableEq, Repr

/-- `ConnectedOrderBook::to_compact` (reads only the inner `OrderBook`). -/
def OrderBook.to_compact (b : OrderBook) : CompactOrderBook :=
  { product := b.product
    asks := b.asks.map fun pv => (pv.1, pv.2.queue)
    bids := b.bids.map fun pv => (pv.1, pv.2.queue)
    sequence := b.sequence
    updated_at := b.updated_at }

/-- The inner `for` loop of `TryFrom<CompactOrderBook>`: insert the orders of
one level, propagating errors. -/
def tryFromLevel (side : Side) (price : ℤ) :
    OrderBook → List Order → OrderBook × Except Error Unit
  | b, [] => (b, .ok ())
  | b, o :: t =>
    match b.insert side price o with
    | (b', .ok ()) => tryFromLevel side price b' t
    | (b', .error e) => (b', .error e)

/-- The outer `for` loop of `TryFrom<CompactOrderBook>` over one side's levels. -/
def tryFromSide (side : Side) : OrderBook → List (ℤ × List Order) → Except Error OrderBook
  | b, [] => .ok b
  | b, (price, orders) :: t =>
    match tryFromLevel side price b orders with
    | (b', .ok ()) => tryFromSide side b' t
    | (_, .error e) => .error e

/-- `OrderBook::try_from(compact)`: fresh sentinels and empty maps, then the
asks loop followed by the bids loop. -/
def OrderBook.try_from (c : CompactOrderBook) : Except Error OrderBook :=
  let b : OrderBook :=
    { product := c.product
      best_ask := decMAX
      best_bid := 0
      asks := []
      bids := []
      sequence := c.sequence
      updated_at := c.updated_at
      index := [] }
  match tryFromSide .sell b c.asks with
  | .error e => .error e
  | .ok b =>
    match tryFromSide .buy b c.bids with
    | .error e => .error e
    | .ok b => .ok b

/-! ## The channel read loop (`Channel::next`) -/

/-- The decode cascade of `Channel::next` over the incoming frame payloads,
abstracted over the two `serde_json::from_slice` attempts (`T`, then the
heartbeat). Returns the first successfully decoded `T` together with the
remaining frames. An exhausted frame list stands for the 10-second timeout
(`Error::dependency`), the only remaining outcome of the real read loop; a
frame decoding as neither `T` nor heartbeat fails with the `From<serde_json::Error>`
dependency error after logging. -/
def channelNext {Frame T HB : Type} (decodeT : Frame → Option T)
    (decodeHB : Frame → Option HB) : List Frame → Except Error (T × List Frame)
  | [] => .error (.dependency "Websocket timed out")
  | f :: t =>
    match decodeT f with
    | some v => .ok (v, t)
    | none =>
      match decodeHB f with
      | some _ => channelNext decodeT decodeHB t
      | none => .error (.dependency "Json error")

/-! ## Data-model invariants (§3 of the specification) -/

/-- Number of orders in a queue carrying the id. -/
def countId (oid : ℕ) (q : List Order) : ℕ := q.countP fun o => o.id == oid

/-- Sum of the order sizes in a queue. -/
def sumSizes (q : List Order) : ℤ := (q.map Order.size).sum

/-- Invariant 1: every index entry `(id → (side, p))` has a level at `p` in
the side's half-book whose queue contains the id exactly once. -/
def Coherent1 (b : OrderBook) : Prop :=
  ∀ e ∈ b.index,
    ∃ os, mfind? e.2.2 (b.getSide e.2.1) = some os ∧ countId e.1 os.queue = 1

/-- Invariant 2 (strengthened to full coherence): every order in every queue
is indexed at exactly its own side and price. -/
def Coherent2 (b : OrderBook) : Prop :=
  ∀ side : Side, ∀ pv ∈ b.getSide side, ∀ o ∈ pv.2.queue,
    mfind? o.id b.index = some (side, pv.1)

/-- Invariant 3: the best prices are the key extrema of the half-books, with
the `0` / `Decimal::MAX` sentinels on empty sides. -/
def BestPrices (b : OrderBook) : Prop :=
  b.best_bid = (maxKey? b.bids).getD 0 ∧ b.best_ask = (minKey? b.asks).getD decMAX

/-- Invariant 4: the book is not crossed whenever both sides are populated. -/
def NotCrossed (b : OrderBook) : Prop :=
  b.bids ≠ [] → b.asks ≠ [] → b.best_bid < b.best_ask

/-- Auxiliary structural facts carried through the induction: canonical
sortedness of the three maps, price-key bounds, and the per-level facts of §3
(non-empty queue, `total_size` consistency and bounds, non-negative sizes). -/
def WellFormedBook (b : OrderBook) : Prop :=
  MSorted b.asks ∧ MSorted b.bids ∧ MSorted b.index ∧
  (∀ side : Side, ∀ pv ∈ b.getSide side,
    0 < pv.1 ∧ pv.1 < decMAX ∧
    pv.2.queue ≠ [] ∧ pv.2.total_size = sumSizes pv.2.queue ∧
    pv.2.total_size ≤ decMAX ∧ ∀ o ∈ pv.2.queue, 0 ≤ o.size)

/-- The full inductive invariant. -/
def Inv (b : OrderBook) : Prop :=
  WellFormedBook b ∧ Coherent1 b ∧ Coherent2 b ∧ BestPrices b ∧ NotCrossed b

instance decidableLevelOnce (hb : OMap ℤ Orders) (p : ℤ) (oid : ℕ) :
    Decidable (∃ os, mfind? p hb = some os ∧ countId oid os.queue = 1) :=
  match mfind? p hb with
  | some os =>
    decidable_of_iff (countId oid os.queue = 1)
      ⟨fun hc => ⟨os, rfl, hc⟩, fun ⟨_, hos', hc⟩ => by
        cases Option.some.inj hos'; exact hc⟩
  | none => isFalse fun ⟨os', hos', _⟩ => by cases hos'

instance decidableMSorted {κ ν : Type} [LinearOrder κ] (l : OMap κ ν) :
    Decidable (MSorted l) :=
  inferInstanceAs (Decidable (List.Pairwise _ _))

instance decidableCoherent1 (b : OrderBook) : Decidable (Coherent1 b) :=
  inferInstanceAs (Decidable (∀ e ∈ b.index, _))

instance decidableCoherent2 (b : OrderBook) : Decidable (Coherent2 b) :=
  inferInstanceAs (Decidable (∀ side : Side, ∀ pv ∈ b.getSide side, ∀ o ∈ pv.2.queue, _ = _))

instance decidableBestPrices (b : OrderBook) : Decidable (BestPrices b) :=
  inferInstanceAs (Decidable (_ = _ ∧ _ = _))

instance decidableNotCrossed (b : OrderBook) : Decidable (NotCrossed b) :=
  inferInstanceAs (Decidable (_ ≠ _ → _ ≠ _ → _ < _))

instance decidableWellFormedBook (b : OrderBook) : Decidable (WellFormedBook b) :=
  inferInstanceAs (Decidable (_ ∧ _ ∧ _ ∧ ∀ side : Side, ∀ pv ∈ b.getSide side,
    _ < _ ∧ _ < _ ∧ _ ≠ _ ∧ _ = _ ∧ _ ≤ _ ∧ ∀ o ∈ pv.2.queue, _ ≤ _))

instance decidableInv (b : OrderBook) : Decidable (Inv b) :=
  inferInstanceAs (Decidable (_ ∧ _ ∧ _ ∧ _ ∧ _))

/-- Well-formedness of a single event relative to the current book, following
§3/§8 of the specification (positive in-range prices, non-negative sizes, a
fresh id for `Open`, non-crossing placements, and a `Match` that does not
exceed the maker's resting size). The sequencing and success conditions are
tracked separately by `chainWF`. -/
def msgWFb (b : OrderBook) : LevelThreeMessage → Bool
  | .Open _ _ oid side price size _ =>
    (mfind? oid b.index).isNone && (0 < price : Bool) && (price < decMAX : Bool) &&
      (0 ≤ size : Bool) && (size ≤ decMAX : Bool) &&
      (match side with
       | .buy => (price < b.best_ask : Bool)
       | .sell => (b.best_bid < price : Bool))
  | .Change _ _ oid price size _ =>
    match mfind? oid b.index with
    | none => true
    | some (side, _) =>
      (0 < price : Bool) && (price < decMAX : Bool) && (0 ≤ size : Bool) &&
        (size ≤ decMAX : Bool) &&
        (match side with
         | .buy => (price < b.best_ask : Bool)
         | .sell => (b.best_bid < price : Bool))
  | .Match _ _ maker _ _ size _ =>
    (0 ≤ size : Bool) &&
      (match mfind? maker b.index with
       | none => true
       | some (side, p) =>
         match mfind? p (b.getSide side) with
         | none => true
         | some os =>
           match queueFind maker os.queue with
           | none => true
           | some (_, s) => (size ≤ s : Bool))
  | .Noop _ _ _ => true
  | .Done _ _ _ _ => true

/-- A chain of events that are each well-formed for the book they hit and are
each accepted by `update_with`. -/
def chainWF (b : OrderBook) : List LevelThreeMessage → Bool
  | [] => true
  | m :: t =>
    msgWFb b m &&
      match b.update_with m with
      | (b', .ok _) => chainWF b' t
      | (_, .error _) => false

/-- Apply a list of events, requiring every application to be accepted. -/
def applyChain (b : OrderBook) : List LevelThreeMessage → Option OrderBook
  | [] => some b
  | m :: t =>
    match b.update_with m with
    | (b', .ok _) => applyChain b' t
    | (_, .error _) => none

/-- The empty book (cf. the `make_empty_order_book` test helper): sentinel
best prices, empty maps. -/
def emptyBook (product : Product) (s0 : ℕ) (t0 : ℤ) : OrderBook :=
  { product := product
    best_ask := decMAX
    best_bid := 0
    asks := []
    bids := []
    sequence := s0
    updated_at := t0
    index := [] }

/-! ## Lemmas about the sorted association maps -/

section OMapLemmas

variable {κ ν : Type} [LinearOrder κ] {k k' q : κ} {v w : ν} {l t : OMap κ ν} {x : κ × ν}

theorem minsert_cons_lt (hlt : k < q) :
    minsert k v ((q, w) :: t) = (k, v) :: (q, w) :: t := by
  simp [minsert, hlt]

theorem minsert_cons_eq :
    minsert k v ((k, w) :: t) = (k, v) :: t := by
  simp [minsert]

theorem minsert_cons_gt (hgt : q < k) :
    minsert k v ((q, w) :: t) = (q, w) :: minsert k v t := by
  simp [minsert, not_lt_of_gt hgt, ne_of_gt hgt]

theorem merase_cons_eq : merase k ((k, w) :: t) = t := by
  simp [merase]

theorem merase_cons_ne (h : k ≠ q) :
    merase k ((q, w) :: t) = (q, w) :: merase k t := by
  simp [merase, h]

theorem mfind?_cons_eq : mfind? k ((k, w) :: t) = some w := by
  simp [mfind?]

theorem mfind?_cons_ne (h : k ≠ q) : mfind? k ((q, w) :: t) = mfind? k t := by
  simp [mfind?, h]

theorem mfind?_minsert_self (k : κ) (v : ν) (l : OMap κ ν) :
    mfind? k (minsert k v l) = some v := by
  induction l with
  | nil => simp [minsert, mfind?]
  | cons hd t ih =>
    obtain ⟨q, w⟩ := hd
    rcases lt_trichotomy k q with hlt | heq | hgt
    · rw [minsert_cons_lt hlt, mfind?_cons_eq]
    · subst heq
      rw [minsert_cons_eq, mfind?_cons_eq]
    · rw [minsert_cons_gt hgt, mfind?_cons_ne (ne_of_gt hgt), ih]

theorem mfind?_minsert_ne (v : ν) (l : OMap κ ν) (h : k' ≠ k) :
    mfind? k' (minsert k v l) = mfind? k' l := by
  induction l with
  | nil => simp [minsert, mfind?, h]
  | cons hd t ih =>
    obtain ⟨q, w⟩ := hd
    rcases lt_trichotomy k q with hlt | heq | hgt
    · rw [minsert_cons_lt hlt, mfind?_cons_ne h]
    · subst heq
      rw [minsert_cons_eq, mfind?_cons_ne h, mfind?_cons_ne h]
    · by_cases hq : k' = q
      · subst hq
        rw [minsert_cons_gt hgt, mfind?_cons_eq, mfind?_cons_eq]
      · rw [minsert_cons_gt hgt, mfind?_cons_ne hq, mfind?_cons_ne hq, ih]

theorem mfind?_merase_ne (l : OMap κ ν) (h : k' ≠ k) :
    mfind? k' (merase k l) = mfind? k' l := by
  induction l with
  | nil => simp [merase]
  | cons hd t ih =>
    obtain ⟨q, w⟩ := hd
    by_cases heq : k = q
    · subst heq
      rw [merase_cons_eq, mfind?_cons_ne h]
    · by_cases hq : k' = q
      · subst hq
        rw [merase_cons_ne heq, mfind?_cons_eq, mfind?_cons_eq]
      · rw [merase_cons_ne heq, mfind?_cons_ne hq, mfind?_cons_ne hq, ih]

theorem mem_minsert (h : x ∈ minsert k v l) : x = (k, v) ∨ x ∈ l := by
  induction l with
  | nil => simpa [minsert] using h
  | cons hd t ih =>
    obtain ⟨q, w⟩ := hd
    rcases lt_trichotomy k q with hlt | heq | hgt
    · rw [minsert_cons_lt hlt] at h
      rcases List.mem_cons.mp h with h | h
      · exact Or.inl h
      · exact Or.inr h
    · subst heq
      rw [minsert_cons_eq] at h
      rcases List.mem_cons.mp h with h | h
      · exact Or.inl h
      · exact Or.inr (List.mem_cons_of_mem _ h)
    · rw [minsert_cons_gt hgt] at h
      rcases List.mem_cons.mp h with h | h
      · exact Or.inr (h ▸ List.mem_cons_self _ _)
      · rcases ih h with h | h
        · exact Or.inl h
        · exact Or.inr (List.mem_cons_of_mem _ h)

theorem mem_merase (h : x ∈ merase k l) : x ∈ l := by
  induction l with
  | nil => simpa [merase] using h
  | cons hd t ih =>
    obtain ⟨q, w⟩ := hd
    by_cases heq : k = q
    · subst heq
      rw [merase_cons_eq] at h
      exact List.mem_cons_of_mem _ h
    · rw [merase_cons_ne heq] at h
      rcases List.mem_cons.mp h with h | h
      · exact h ▸ List.mem_cons_self _ _
      · exact List.mem_cons_of_mem _ (ih h)

theorem mfind?_isSome_iff : (mfind? k l).isSome = true ↔ k ∈ mkeys l := by
  induction l with
  | nil => simp [mfind?, mkeys]
  | cons hd t ih =>
    obtain ⟨q, w⟩ := hd
    by_cases heq : k = q
    · subst heq
      simp [mfind?_cons_eq, mkeys]
    · rw [mfind?_cons_ne heq]
      simp only [mkeys, List.map_cons, List.mem_cons]
      simp only [mkeys] at ih
      rw [ih]
      simp [heq]

theorem mem_mkeys_minsert :
    k' ∈ mkeys (minsert k v l) ↔ k' = k ∨ k' ∈ mkeys l := by
  by_cases heq : k' = k
  · subst heq
    simp [← mfind?_isSome_iff, mfind?_minsert_self]
  · rw [← mfind?_isSome_iff, mfind?_minsert_ne v l heq, mfind?_isSome_iff]
    simp [heq]

theorem mem_mkeys_merase (h : k' ∈ mkeys (merase k l)) : k' ∈ mkeys l := by
  induction l with
  | nil => simpa [merase] using h
  | cons hd t ih =>
    obtain ⟨q, w⟩ := hd
    by_cases heq : k = q
    · subst heq
      rw [merase_cons_eq] at h
      simp only [mkeys, List.map_cons, List.mem_cons]
      exact Or.inr h
    · rw [merase_cons_ne heq] at h
      simp only [mkeys, List.map_cons, List.mem_cons] at h ⊢
      tauto

theorem msorted_nil : MSorted ([] : OMap κ ν) := by
  simp [MSorted, mkeys]

theorem msorted_cons :
    MSorted ((q, w) :: t) ↔ (∀ k'' ∈ mkeys t, q < k'') ∧ MSorted t := by
  simp [MSorted, mkeys, List.pairwise_cons]

theorem msorted_minsert (k : κ) (v : ν) (h : MSorted l) :
    MSorted (minsert k v l) := by
  induction l with
  | nil => simp [minsert, MSorted, mkeys]
  | cons hd t ih =>
    obtain ⟨q, w⟩ := hd
    obtain ⟨hq, ht⟩ := msorted_cons.mp h
    rcases lt_trichotomy k q with hlt | heq | hgt
    · rw [minsert_cons_lt hlt, msorted_cons]
      refine ⟨?_, h⟩
      intro x hx
      simp only [mkeys, List.map_cons, List.mem_cons] at hx
      rcases hx with rfl | hx
      · exact hlt
      · exact lt_trans hlt (hq x hx)
    · subst heq
      rw [minsert_cons_eq, msorted_cons]
      exact ⟨hq, ht⟩
    · rw [minsert_cons_gt hgt, msorted_cons]
      refine ⟨?_, ih ht⟩
      intro x hx
      rcases mem_mkeys_minsert.mp hx with rfl | hx
      · exact hgt
      · exact hq x hx

theorem msorted_merase (k : κ) (h : MSorted l) : MSorted (merase k l) := by
  induction l with
  | nil => simpa [merase] using h
  | cons hd t ih =>
    obtain ⟨q, w⟩ := hd
    obtain ⟨hq, ht⟩ := msorted_cons.mp h
    by_cases heq : k = q
    · subst heq
      rw [merase_cons_eq]
      exact ht
    · rw [merase_cons_ne heq, msorted_cons]
      exact ⟨fun x hx => hq x (mem_mkeys_merase hx), ih ht⟩

theorem mfind?_eq_some_mem (h : mfind? k l = some v) : (k, v) ∈ l := by
  induction l with
  | nil => simp [mfind?] at h
  | cons hd t ih =>
    obtain ⟨q, w⟩ := hd
    by_cases heq : k = q
    · subst heq
      rw [mfind?_cons_eq] at h
      cases h
      exact List.mem_cons_self _ _
    · rw [mfind?_cons_ne heq] at h
      exact List.mem_cons_of_mem _ (ih h)

theorem mfind?_eq_none_iff : mfind? k l = none ↔ k ∉ mkeys l := by
  rw [← mfind?_isSome_iff (k := k) (l := l)]
  cases mfind? k l <;> simp

theorem mem_mfind?_sorted (hs : MSorted l) (h : (k, v) ∈ l) :
    mfind? k l = some v := by
  induction l with
  | nil => simp at h
  | cons hd t ih =>
    obtain ⟨q, w⟩ := hd
    obtain ⟨hq, ht⟩ := msorted_cons.mp hs
    rcases List.mem_cons.mp h with hh | hh
    · rw [Prod.mk.injEq] at hh
      obtain ⟨rfl, rfl⟩ := hh
      exact mfind?_cons_eq
    · have hkq : k ≠ q := by
        intro heq2
        subst heq2
        have hmem : k ∈ mkeys t := List.mem_map.mpr ⟨(k, v), hh, rfl⟩
        exact lt_irrefl k (hq k hmem)
      rw [mfind?_cons_ne hkq]
      exact ih ht hh

theorem mfind?_merase_self (k : κ) (hs : MSorted l) :
    mfind? k (merase k l) = none := by
  induction l with
  | nil => simp [merase, mfind?]
  | cons hd t ih =>
    obtain ⟨q, w⟩ := hd
    obtain ⟨hq, ht⟩ := msorted_cons.mp hs
    by_cases heq : k = q
    · subst heq
      rw [merase_cons_eq, mfind?_eq_none_iff]
      intro hmem
      exact lt_irrefl k (hq k hmem)
    · rw [merase_cons_ne heq, mfind?_cons_ne heq]
      exact ih ht

theorem minsert_mfind?_unchanged (hs : MSorted l) (h : mfind? k l = some v) :
    minsert k v l = l := by
  induction l with
  | nil => simp [mfind?] at h
  | cons hd t ih =>
    obtain ⟨q, w⟩ := hd
    obtain ⟨hq, ht⟩ := msorted_cons.mp hs
    by_cases heq : k = q
    · subst heq
      rw [mfind?_cons_eq] at h
      cases h
      exact minsert_cons_eq
    · rw [mfind?_cons_ne heq] at h
      have hmem : k ∈ mkeys t := mfind?_isSome_iff.mp (by simp [h])
      rw [minsert_cons_gt (hq k hmem), ih ht h]

theorem minKey?_cons {l : OMap κ ν} :
    minKey? ((q, w) :: l) = some (min q ((minKey? l).getD q)) := by
  cases h : minKey? l <;> simp [minKey?, h]

theorem maxKey?_cons {l : OMap κ ν} :
    maxKey? ((q, w) :: l) = some (max q ((maxKey? l).getD q)) := by
  cases h : maxKey? l <;> simp [maxKey?, h]

theorem minKey?_eq_none_iff {l : OMap κ ν} : minKey? l = none ↔ l = [] := by
  cases l with
  | nil => simp [minKey?]
  | cons hd t =>
    obtain ⟨q, w⟩ := hd
    simp [minKey?_cons]

theorem maxKey?_eq_none_iff {l : OMap κ ν} : maxKey? l = none ↔ l = [] := by
  cases l with
  | nil => simp [maxKey?]
  | cons hd t =>
    obtain ⟨q, w⟩ := hd
    simp [maxKey?_cons]

theorem minKey?_minsert (k : κ) (v : ν) (l : OMap κ ν) :
    minKey? (minsert k v l) = some (min k ((minKey? l).getD k)) := by
  induction l with
  | nil => simp [minsert, minKey?]
  | cons hd t ih =>
    obtain ⟨q, w⟩ := hd
    rcases lt_trichotomy k q with hlt | heq | hgt
    · rw [minsert_cons_lt hlt, minKey?_cons, minKey?_cons]
    · subst heq
      rw [minsert_cons_eq, minKey?_cons, minKey?_cons]
      cases h : minKey? t <;> simp [h, ← min_assoc]
    · rw [minsert_cons_gt hgt, minKey?_cons, ih, minKey?_cons]
      cases h : minKey? t <;> simp [h, min_left_comm, min_comm]

theorem maxKey?_minsert (k : κ) (v : ν) (l : OMap κ ν) :
    maxKey? (minsert k v l) = some (max k ((maxKey? l).getD k)) := by
  induction l with
  | nil => simp [minsert, maxKey?]
  | cons hd t ih =>
    obtain ⟨q, w⟩ := hd
    rcases lt_trichotomy k q with hlt | heq | hgt
    · rw [minsert_cons_lt hlt, maxKey?_cons, maxKey?_cons]
    · subst heq
      rw [minsert_cons_eq, maxKey?_cons, maxKey?_cons]
      cases h : maxKey? t <;> simp [h, ← max_assoc]
    · rw [minsert_cons_gt hgt, maxKey?_cons, ih, maxKey?_cons]
      cases h : maxKey? t <;> simp [h, max_left_comm, max_comm]

theorem minKey?_mem {l : OMap κ ν} {m : κ} (h : minKey? l = some m) :
    m ∈ mkeys l := by
  induction l generalizing m with
  | nil => simp [minKey?] at h
  | cons hd t ih =>
    obtain ⟨q, w⟩ := hd
    rw [minKey?_cons] at h
    cases h2 : minKey? t with
    | none =>
      rw [h2] at h
      simp at h
      simp [mkeys, h]
    | some m0 =>
      rw [h2] at h
      simp at h
      rcases min_choice q m0 with hc | hc <;> rw [hc] at h
      · simp [mkeys, h]
      · subst h
        simp only [mkeys, List.map_cons, List.mem_cons]
        exact Or.inr (ih h2)

theorem maxKey?_mem {l : OMap κ ν} {m : κ} (h : maxKey? l = some m) :
    m ∈ mkeys l := by
  induction l generalizing m with
  | nil => simp [maxKey?] at h
  | cons hd t ih =>
    obtain ⟨q, w⟩ := hd
    rw [maxKey?_cons] at h
    cases h2 : maxKey? t with
    | none =>
      rw [h2] at h
      simp at h
      simp [mkeys, h]
    | some m0 =>
      rw [h2] at h
      simp at h
      rcases max_choice q m0 with hc | hc <;> rw [hc] at h
      · simp [mkeys, h]
      · subst h
        simp only [mkeys, List.map_cons, List.mem_cons]
        exact Or.inr (ih h2)

theorem minKey?_le {l : OMap κ ν} {m : κ} (hm : minKey? l = some m)
    (hk : k' ∈ mkeys l) : m ≤ k' := by
  induction l generalizing m with
  | nil => simp [mkeys] at hk
  | cons hd t ih =>
    obtain ⟨q, w⟩ := hd
    rw [minKey?_cons] at hm
    cases hm
    simp only [mkeys, List.map_cons, List.mem_cons] at hk
    rcases hk with rfl | hk
    · exact min_le_left _ _
    · cases h2 : minKey? t with
      | none =>
        rw [minKey?_eq_none_iff] at h2
        subst h2
        simp [mkeys] at hk
      | some m0 =>
        simp only [Option.getD_some]
        exact le_trans (min_le_right _ _) (ih h2 hk)

theorem maxKey?_ge {l : OMap κ ν} {m : κ} (hm : maxKey? l = some m)
    (hk : k' ∈ mkeys l) : k' ≤ m := by
  induction l generalizing m with
  | nil => simp [mkeys] at hk
  | cons hd t ih =>
    obtain ⟨q, w⟩ := hd
    rw [maxKey?_cons] at hm
    cases hm
    simp only [mkeys, List.map_cons, List.mem_cons] at hk
    rcases hk with rfl | hk
    · exact le_max_left _ _
    · cases h2 : maxKey? t with
      | none =>
        rw [maxKey?_eq_none_iff] at h2
        subst h2
        simp [mkeys] at hk
      | some m0 =>
        simp only [Option.getD_some]
        exact le_trans (ih h2 hk) (le_max_right _ _)

theorem minKey?_eq_firstKey? {l : OMap κ ν} (hs : MSorted l) :
    minKey? l = firstKey? l := by
  cases l with
  | nil => simp [minKey?, firstKey?]
  | cons hd t =>
    obtain ⟨q, w⟩ := hd
    obtain ⟨hq, _⟩ := msorted_cons.mp hs
    rw [minKey?_cons]
    simp only [firstKey?, List.head?_cons, Option.map_some]
    cases h2 : minKey? t with
    | none => simp
    | some m0 =>
      have : q < m0 := hq m0 (minKey?_mem h2)
      simp [min_eq_left (le_of_lt this)]

theorem maxKey?_eq_lastKey? {l : OMap κ ν} (hs : MSorted l) :
    maxKey? l = lastKey? l := by
  induction l with
  | nil => simp [maxKey?, lastKey?]
  | cons hd t ih =>
    obtain ⟨q, w⟩ := hd
    obtain ⟨hq, ht⟩ := msorted_cons.mp hs
    rw [maxKey?_cons]
    cases t with
    | nil => simp [lastKey?, maxKey?]
    | cons hd2 t2 =>
      have h2 : maxKey? (hd2 :: t2) = lastKey? (hd2 :: t2) := ih ht
      cases h3 : maxKey? (hd2 :: t2) with
      | none =>
        rw [maxKey?_eq_none_iff] at h3
        cases h3
      | some m0 =>
        have hqm : q < m0 := hq m0 (maxKey?_mem h3)
        simp only [Option.getD_some, max_eq_right (le_of_lt hqm)]
        rw [h3] at h2
        rw [lastKey?] at h2 ⊢
        rw [List.getLast?_cons_cons]
        exact h2

theorem mext {l₁ l₂ : OMap κ ν} (h₁ : MSorted l₁) (h₂ : MSorted l₂)
    (h : ∀ k, mfind? k l₁ = mfind? k l₂) : l₁ = l₂ := by
  induction l₁ generalizing l₂ with
  | nil =>
    cases l₂ with
    | nil => rfl
    | cons hd t =>
      obtain ⟨q, w⟩ := hd
      have := h q
      rw [mfind?_cons_eq] at this
      simp [mfind?] at this
  | cons hd t ih =>
    obtain ⟨q, w⟩ := hd
    cases l₂ with
    | nil =>
      have := h q
      rw [mfind?_cons_eq] at this
      simp [mfind?] at this
    | cons hd2 t2 =>
      obtain ⟨q2, w2⟩ := hd2
      obtain ⟨hq, ht⟩ := msorted_cons.mp h₁
      obtain ⟨hq2, ht2⟩ := msorted_cons.mp h₂
      have hqq : q = q2 := by
        by_contra hne
        rcases lt_or_gt_of_ne hne with hlt | hgt
        · have hfind := h q
          rw [mfind?_cons_eq, mfind?_cons_ne hne] at hfind
          have hmem : q ∈ mkeys t2 :=
            mfind?_isSome_iff.mp (by rw [← hfind]; rfl)
          exact absurd (hq2 q hmem) (not_lt.mpr (le_of_lt hlt))
        · have hfind := h q2
          rw [mfind?_cons_eq, mfind?_cons_ne (ne_of_lt hgt)] at hfind
          have hmem : q2 ∈ mkeys t :=
            mfind?_isSome_iff.mp (by rw [hfind]; rfl)
          exact absurd (hq q2 hmem) (not_lt.mpr (le_of_lt hgt))
      subst hqq
      have hww : w = w2 := by
        have := h q
        rw [mfind?_cons_eq, mfind?_cons_eq] at this
        exact Option.some.inj this
      subst hww
      congr 1
      refine ih ht ht2 fun k => ?_
      by_cases hkq : k = q
      · subst hkq
        rw [mfind?_eq_none_iff.mpr, mfind?_eq_none_iff.mpr]
        · intro hmem
          exact lt_irrefl k (hq2 k hmem)
        · intro hmem
          exact lt_irrefl k (hq k hmem)
      · have := h k
        rwa [mfind?_cons_ne hkq, mfind?_cons_ne hkq] at this

end OMapLemmas

/-! ## Lemmas about queues -/

theorem countId_append (oid : ℕ) (q₁ q₂ : List Order) :
    countId oid (q₁ ++ q₂) = countId oid q₁ + countId oid q₂ :=
  List.countP_append _ _ _

theorem countId_cons (oid : ℕ) (o : Order) (q : List Order) :
    countId oid (o :: q) = countId oid q + (if o.id = oid then 1 else 0) := by
  simp [countId, List.countP_cons]

theorem countId_eq_zero_iff {oid : ℕ} {q : List Order} :
    countId oid q = 0 ↔ ∀ o ∈ q, o.id ≠ oid := by
  simp [countId, List.countP_eq_zero]

theorem queueFind_eq_none_iff {oid : ℕ} {q : List Order} :
    queueFind oid q = none ↔ ∀ o ∈ q, o.id ≠ oid := by
  induction q with
  | nil => simp [queueFind]
  | cons o t ih =>
    by_cases h : o.id = oid
    · simp [queueFind, h]
    · simp only [queueFind, h, if_false, List.mem_cons]
      constructor
      · intro hnone x hx
        rcases hx with rfl | hx
        · exact h
        · have h3 : queueFind oid t = none := by
            cases h2 : queueFind oid t
            · rfl
            · rw [h2] at hnone
              simp at hnone
          exact (ih.mp h3) x hx
      · intro hall
        have h3 : queueFind oid t = none := ih.mpr fun x hx => hall x (Or.inr hx)
        simp [h3]

/-- Full decomposition at the index found by `queueFind`: the queue splits as
`q₁ ++ o :: q₂` with no earlier occurrence, and `get?` / `eraseIdx` / `set`
at that index act on `o`. -/
theorem queueFind_spec {oid : ℕ} {q : List Order} {i : ℕ} {s : ℤ}
    (h : queueFind oid q = some (i, s)) :
    ∃ q₁ o q₂, q = q₁ ++ o :: q₂ ∧ i = q₁.length ∧ o.id = oid ∧ o.size = s ∧
      (∀ x ∈ q₁, x.id ≠ oid) ∧ q.get? i = some o ∧ q.eraseIdx i = q₁ ++ q₂ ∧
      ∀ nsz, q.set i { o with size := nsz } = q₁ ++ { o with size := nsz } :: q₂ := by
  induction q generalizing i s with
  | nil => simp [queueFind] at h
  | cons o t ih =>
    by_cases hid : o.id = oid
    · rw [queueFind, if_pos hid] at h
      cases h
      exact ⟨[], o, t, by simp, rfl, hid, rfl, by simp, rfl, rfl, fun _ => rfl⟩
    · rw [queueFind, if_neg hid] at h
      cases h2 : queueFind oid t with
      | none => rw [h2] at h; cases h
      | some p =>
        obtain ⟨i0, s0⟩ := p
        rw [h2, Option.map_some'] at h
        cases h
        obtain ⟨q₁, o1, q₂, hsplit, hlen, hid1, hsz, hnone, hget, herase, hset⟩ := ih h2
        refine ⟨o :: q₁, o1, q₂, by simp [hsplit], by simp [hlen], hid1, hsz, ?_, ?_, ?_, ?_⟩
        · intro x hx
          rcases List.mem_cons.mp hx with rfl | hx
          · exact hid
          · exact hnone x hx
        · simpa using hget
        · simpa [List.eraseIdx] using congrArg (o :: ·) herase
        · intro nsz
          simpa using congrArg (o :: ·) (hset nsz)

/-! ## More map and queue lemmas for the invariant proofs -/

section OMapLemmas2

variable {κ ν : Type} [LinearOrder κ] {k : κ} {v : ν} {l : OMap κ ν}

theorem merase_not_mem (h : k ∉ mkeys l) : merase k l = l := by
  induction l with
  | nil => rfl
  | cons hd t ih =>
    obtain ⟨q, w⟩ := hd
    simp only [mkeys, List.map_cons, List.mem_cons, not_or] at h
    rw [merase_cons_ne h.1, ih h.2]

theorem merase_minsert_self (k : κ) (v : ν) (hs : MSorted l) :
    merase k (minsert k v l) = merase k l := by
  induction l with
  | nil => simp [minsert, merase]
  | cons hd t ih =>
    obtain ⟨q, w⟩ := hd
    obtain ⟨hq, ht⟩ := msorted_cons.mp hs
    rcases lt_trichotomy k q with hlt | heq | hgt
    · rw [minsert_cons_lt hlt, merase_cons_eq, merase_cons_ne (ne_of_lt hlt)]
      rw [merase_not_mem]
      intro hmem
      exact absurd (lt_trans hlt (hq k hmem)) (lt_irrefl k)
    · subst heq
      rw [minsert_cons_eq, merase_cons_eq, merase_cons_eq]
    · rw [minsert_cons_gt hgt, merase_cons_ne (ne_of_gt hgt),
        merase_cons_ne (ne_of_gt hgt), ih ht]

end OMapLemmas2

theorem eraseIdx_at_append (q₁ q₂ : List Order) (x : Order) :
    (q₁ ++ x :: q₂).eraseIdx q₁.length = q₁ ++ q₂ := by
  induction q₁ with
  | nil => rfl
  | cons y t ih => simp [List.eraseIdx, ih]

theorem set_at_append (q₁ q₂ : List Order) (x y : Order) :
    (q₁ ++ x :: q₂).set q₁.length y = q₁ ++ y :: q₂ := by
  induction q₁ with
  | nil => rfl
  | cons z t ih => simp [List.set, ih]

theorem sumSizes_append (q₁ q₂ : List Order) :
    sumSizes (q₁ ++ q₂) = sumSizes q₁ + sumSizes q₂ := by
  simp [sumSizes]

theorem sumSizes_cons (o : Order) (q : List Order) :
    sumSizes (o :: q) = o.size + sumSizes q := by
  simp [sumSizes]

theorem sumSizes_nonneg {q : List Order} (h : ∀ x ∈ q, 0 ≤ x.size) :
    0 ≤ sumSizes q := by
  induction q with
  | nil => simp [sumSizes]
  | cons o t ih =>
    rw [sumSizes_cons]
    have h1 := h o (List.mem_cons_self _ _)
    have h2 := ih fun x hx => h x (List.mem_cons_of_mem _ hx)
    omega

/-! ## Side-indexed best-price helpers -/

/-- The side's best price field. -/
def bestOf (b : OrderBook) : Side → ℤ
  | .buy => b.best_bid
  | .sell => b.best_ask

/-- The side's empty-book sentinel (`Decimal::ZERO` / `Decimal::MAX`). -/
def bestFallback : Side → ℤ
  | .buy => 0
  | .sell => decMAX

/-- The side's key extremum. -/
def bestKey? (s : Side) (hb : OMap ℤ Orders) : Option ℤ :=
  match s with
  | .buy => maxKey? hb
  | .sell => minKey? hb

/-- Does `price` improve on `best` for the side? (the comparison used by
`OrderBook::insert`). -/
def improves (s : Side) (price best : ℤ) : Bool :=
  match s with
  | .buy => best < price
  | .sell => price < best

theorem bestPrices_iff (b : OrderBook) :
    BestPrices b ↔ ∀ s, bestOf b s = (bestKey? s (b.getSide s)).getD (bestFallback s) := by
  constructor
  · intro h s
    cases s
    · exact h.1
    · exact h.2
  · intro h
    exact ⟨h .buy, h .sell⟩

theorem bestKey?_minsert (s : Side) (price : ℤ) (os : Orders) (hb : OMap ℤ Orders) :
    bestKey? s (minsert price os hb) =
      some (match s with
        | Side.buy => max price ((maxKey? hb).getD price)
        | Side.sell => min price ((minKey? hb).getD price)) := by
  cases s
  · exact maxKey?_minsert price os hb
  · exact minKey?_minsert price os hb

/-- After level removal the code refresh (`first_key_value` / `last_key_value`
with sentinel fallbacks) equals the extremum with fallback, on sorted maps. -/
theorem refreshBest_spec (b : OrderBook) (s : Side)
    (hs : MSorted (b.getSide s)) :
    bestOf (b.refreshBest s) s = (bestKey? s (b.getSide s)).getD (bestFallback s) := by
  cases s
  · simp only [OrderBook.refreshBest, bestOf, OrderBook.getSide, bestKey?, bestFallback]
    rw [maxKey?_eq_lastKey? (by exact hs)]
  · simp only [OrderBook.refreshBest, bestOf, OrderBook.getSide, bestKey?, bestFallback]
    rw [minKey?_eq_firstKey? (by exact hs)]

theorem refreshBest_other (b : OrderBook) {s s' : Side} (h : s' ≠ s) :
    bestOf (b.refreshBest s) s' = bestOf b s' := by
  cases s <;> cases s' <;> first | rfl | exact absurd rfl h

theorem refreshBest_getSide (b : OrderBook) (s s' : Side) :
    (b.refreshBest s).getSide s' = b.getSide s' := by
  cases s <;> cases s' <;> rfl

theorem refreshBest_index (b : OrderBook) (s : Side) :
    (b.refreshBest s).index = b.index := by
  cases s <;> rfl

theorem setSide_index (b : OrderBook) (s : Side) (hb : OMap ℤ Orders) :
    (b.setSide s hb).index = b.index := by
  cases s <;> rfl

theorem setSide_bestOf (b : OrderBook) (s : Side) (hb : OMap ℤ Orders) (s' : Side) :
    bestOf (b.setSide s hb) s' = bestOf b s' := by
  cases s <;> cases s' <;> rfl

/-! ## Invariant accessors -/

theorem wf_sorted {b : OrderBook} (h : WellFormedBook b) (s : Side) :
    MSorted (b.getSide s) := by
  cases s
  · exact h.2.1
  · exact h.1

theorem wf_index_sorted {b : OrderBook} (h : WellFormedBook b) : MSorted b.index :=
  h.2.2.1

theorem wf_level {b : OrderBook} (h : WellFormedBook b) {s : Side} {pv : ℤ × Orders}
    (hm : pv ∈ b.getSide s) :
    0 < pv.1 ∧ pv.1 < decMAX ∧ pv.2.queue ≠ [] ∧
      pv.2.total_size = sumSizes pv.2.queue ∧ pv.2.total_size ≤ decMAX ∧
      ∀ o ∈ pv.2.queue, 0 ≤ o.size :=
  h.2.2.2 s pv hm

/-- Under coherence, an unindexed id appears in no queue. -/
theorem fresh_id_not_in_queue {b : OrderBook} (h2 : Coherent2 b) {oid : ℕ}
    (hfresh : mfind? oid b.index = none) {s : Side} {p : ℤ} {os : Orders}
    (hlvl : mfind? p (b.getSide s) = some os) : countId oid os.queue = 0 := by
  rw [countId_eq_zero_iff]
  intro o ho hoid
  subst hoid
  have := h2 s (p, os) (mfind?_eq_some_mem hlvl) o ho
  rw [hfresh] at this
  cases this

/-! ## Helper facts about side projection -/

@[simp]
theorem getSide_seqTime (b : OrderBook) (s : Side) (n : ℕ) (t : ℤ) :
    OrderBook.getSide { b with sequence := n, updated_at := t } s = b.getSide s := by
  cases s <;> rfl

@[simp]
theorem index_seqTime (b : OrderBook) (n : ℕ) (t : ℤ) :
    OrderBook.index { b with sequence := n, updated_at := t } = b.index := rfl

theorem getSide_setSide_same (b : OrderBook) (s : Side) (hb : OMap ℤ Orders) :
    (b.setSide s hb).getSide s = hb := by
  cases s <;> rfl

theorem getSide_setSide_ne (b : OrderBook) {s s' : Side} (hb : OMap ℤ Orders)
    (h : s' ≠ s) : (b.setSide s hb).getSide s' = b.getSide s' := by
  cases s <;> cases s' <;> first | rfl | exact absurd rfl h

/-! ## Errors of `update_with` never include `InsufficientCacheDelay` -/

theorem orders_insert_ne_error_icd (os : Orders) (o : Order) :
    os.insert o ≠ .error .insufficientCacheDelay := by
  unfold Orders.insert
  split <;> simp

theorem Orders.reduce_or_delete_ne_error_icd (os : Orders) (oid : ℕ) (sz : ℤ) :
    os.reduce_or_delete oid sz ≠ .error .insufficientCacheDelay := by
  unfold Orders.reduce_or_delete
  repeat' split
  all_goals simp

theorem orders_delete_ne_error_icd (os : Orders) (oid : ℕ) (os' : Orders) :
    os.delete oid ≠ (os', .error .insufficientCacheDelay) := by
  unfold Orders.delete
  repeat' split
  all_goals simp

theorem OrderBook.insert_ne_error_icd (b : OrderBook) (side : Side) (price : ℤ)
    (o : Order) (b' : OrderBook) :
    b.insert side price o ≠ (b', .error .insufficientCacheDelay) := by
  unfold OrderBook.insert
  dsimp only
  repeat' split
  all_goals intro hcontra
  all_goals simp_all [orders_insert_ne_error_icd]

theorem OrderBook.delete_ne_error_icd (b : OrderBook) (oid : ℕ) (b' : OrderBook) :
    b.delete oid ≠ (b', .error .insufficientCacheDelay) := by
  unfold OrderBook.delete
  dsimp only
  repeat' split
  all_goals intro hcontra
  all_goals simp_all [orders_delete_ne_error_icd]

/-- `update_with` can fail, but never with `InsufficientCacheDelay`. -/
theorem update_with_ne_error_icd (b : OrderBook) (m : LevelThreeMessage)
    (b' : OrderBook) :
    b.update_with m ≠ (b', .error .insufficientCacheDelay) := by
  cases m <;>
    (simp only [OrderBook.update_with]
     try dsimp only
     repeat' split
     all_goals intro hcontra
     all_goals
       simp_all [orders_insert_ne_error_icd, Orders.reduce_or_delete_ne_error_icd,
         orders_delete_ne_error_icd, OrderBook.insert_ne_error_icd,
         OrderBook.delete_ne_error_icd])

theorem replayLoop_ne_icd (l : List LevelThreeMessage) :
    ∀ b : OrderBook, replayLoop b l ≠ .error .insufficientCacheDelay := by
  induction l with
  | nil =>
    intro b
    simp [replayLoop]
  | cons m tl ih =>
    intro b
    simp only [replayLoop]
    rcases hu : b.update_with m with ⟨b', r⟩
    cases r with
    | ok msg => exact ih b'
    | error e =>
      cases e
      case outOfSequence => exact ih b
      case insufficientCacheDelay =>
        exact absurd hu (update_with_ne_error_icd b m b')
      all_goals
        intro hc
        injection hc with hc2
        cases hc2

/-- C7: the cache check and replay tail of `OrderBookBuilder::build`. It
fails with `InsufficientCacheDelay` exactly when the cache holds no message or
the last cached message's sequence is strictly below the snapshot book's
sequence; otherwise it replays the cached events through `update_with`,
skipping `OutOfSequence` results and propagating any other error as fatal. -/
theorem build_replay_cache_check (b : OrderBook) (lc : Option LevelThreeMessage)
    (cached : List LevelThreeMessage) :
    (buildReplay b lc cached = .error .insufficientCacheDelay ↔
      lc = none ∨ ∃ m, lc = some m ∧ m.sequence < b.sequence) ∧
    (∀ m, lc = some m → ¬ m.sequence < b.sequence →
      buildReplay b lc cached = replayLoop b cached) ∧
    (∀ (b₀ : OrderBook) (m : LevelThreeMessage) (t : List LevelThreeMessage) b₁,
      b₀.update_with m = (b₁, .error .outOfSequence) →
      replayLoop b₀ (m :: t) = replayLoop b₀ t) ∧
    (∀ (b₀ : OrderBook) (m : LevelThreeMessage) (t : List LevelThreeMessage) b₁ e,
      b₀.update_with m = (b₁, .error e) → e ≠ .outOfSequence →
      replayLoop b₀ (m :: t) = .error e) ∧
    (∀ (b₀ : OrderBook) (m : LevelThreeMessage) (t : List LevelThreeMessage) b₁ msg,
      b₀.update_with m = (b₁, .ok msg) →
      replayLoop b₀ (m :: t) = replayLoop b₁ t) := by
  refine ⟨⟨?_, ?_⟩, ?_, ?_, ?_, ?_⟩
  · intro h
    cases lc with
    | none => exact Or.inl rfl
    | some m =>
      refine Or.inr ⟨m, rfl, ?_⟩
      by_contra hge
      rw [buildReplay, if_neg hge] at h
      exact replayLoop_ne_icd cached b h
  · intro h
    rcases h with rfl | ⟨m, rfl, hlt⟩
    · rfl
    · rw [buildReplay, if_pos hlt]
  · intro m hm hge
    subst hm
    rw [buildReplay, if_neg hge]
  · intro b₀ m t b₁ hu
    simp only [replayLoop, hu]
  · intro b₀ m t b₁ e hu hne
    simp only [replayLoop, hu]
  · intro b₀ m t b₁ msg hu
    simp only [replayLoop, hu]

/-- Witness for C7: an empty cache fails with `InsufficientCacheDelay`; a
last-cached message at the snapshot sequence proceeds to the replay loop. -/
theorem build_replay_cache_check_witness :
    buildReplay (emptyBook ⟨0⟩ 1000 0) none [] =
      .error .insufficientCacheDelay ∧
    buildReplay (emptyBook ⟨0⟩ 1000 0) (some (.Noop 0 1000 0)) [] =
      replayLoop (emptyBook ⟨0⟩ 1000 0) [] :=
  ⟨(build_replay_cache_check (emptyBook ⟨0⟩ 1000 0) none []).1.mpr (Or.inl rfl),
   (build_replay_cache_check (emptyBook ⟨0⟩ 1000 0) (some (.Noop 0 1000 0)) []).2.1
     (.Noop 0 1000 0) rfl (by decide)⟩

/-! ## Side-generic characterisation of `OrderBook::insert` -/

/-- The best-price improvement step of `OrderBook::insert`, side-generic. -/
def updateBestWith (b : OrderBook) (s : Side) (price : ℤ) : OrderBook :=
  match s with
  | .buy => { b with best_bid := if price > b.best_bid then price else b.best_bid }
  | .sell => { b with best_ask := if price < b.best_ask then price else b.best_ask }

theorem updateBestWith_bestOf_same (b : OrderBook) (s : Side) (price : ℤ) :
    bestOf (updateBestWith b s price) s =
      if improves s price (bestOf b s) then price else bestOf b s := by
  cases s <;> simp [updateBestWith, bestOf, improves]

theorem updateBestWith_bestOf_ne (b : OrderBook) {s s' : Side} (price : ℤ)
    (h : s' ≠ s) : bestOf (updateBestWith b s price) s' = bestOf b s' := by
  cases s <;> cases s' <;> first | rfl | exact absurd rfl h

theorem updateBestWith_getSide (b : OrderBook) (s : Side) (price : ℤ) (s' : Side) :
    (updateBestWith b s price).getSide s' = b.getSide s' := by
  cases s <;> cases s' <;> rfl

theorem updateBestWith_index (b : OrderBook) (s : Side) (price : ℤ) :
    (updateBestWith b s price).index = b.index := by
  cases s <;> rfl

theorem updateBestWith_sequence (b : OrderBook) (s : Side) (price : ℤ) :
    (updateBestWith b s price).sequence = b.sequence := by
  cases s <;> rfl

theorem updateBestWith_updated_at (b : OrderBook) (s : Side) (price : ℤ) :
    (updateBestWith b s price).updated_at = b.updated_at := by
  cases s <;> rfl

theorem updateBestWith_product (b : OrderBook) (s : Side) (price : ℤ) :
    (updateBestWith b s price).product = b.product := by
  cases s <;> rfl

theorem setSide_sequence (b : OrderBook) (s : Side) (hb : OMap ℤ Orders) :
    (b.setSide s hb).sequence = b.sequence := by
  cases s <;> rfl

theorem setSide_updated_at (b : OrderBook) (s : Side) (hb : OMap ℤ Orders) :
    (b.setSide s hb).updated_at = b.updated_at := by
  cases s <;> rfl

theorem setSide_product (b : OrderBook) (s : Side) (hb : OMap ℤ Orders) :
    (b.setSide s hb).product = b.product := by
  cases s <;> rfl

/-- `OrderBook::insert`, rewritten through the side-generic accessors. -/
theorem insert_eq (b : OrderBook) (side : Side) (price : ℤ) (o : Order) :
    b.insert side price o =
      (let previous := mfind? o.id b.index
       let b₁ : OrderBook := { b with index := minsert o.id (side, price) b.index }
       if previous.isSome then (b₁, .error .orderAlreadyExists)
       else
         match mfind? price (b₁.getSide side) with
         | some os =>
           match os.insert o with
           | .error e => (b₁, .error e)
           | .ok os' =>
             (updateBestWith (b₁.setSide side (minsert price os' (b₁.getSide side)))
               side price, .ok ())
         | none =>
           (updateBestWith
             (b₁.setSide side (minsert price (Orders.ofOrder o) (b₁.getSide side)))
             side price, .ok ())) := by
  cases side <;> rfl

/-- Success characterisation of `OrderBook::insert` on a fresh id. -/
theorem insert_ok_spec {b : OrderBook} {side : Side} {price : ℤ} {o : Order}
    {b' : OrderBook} (hfresh : mfind? o.id b.index = none)
    (hok : b.insert side price o = (b', .ok ())) :
    ∃ os' : Orders,
      b'.index = minsert o.id (side, price) b.index ∧
      b'.getSide side = minsert price os' (b.getSide side) ∧
      (∀ s', s' ≠ side → b'.getSide s' = b.getSide s') ∧
      b'.sequence = b.sequence ∧ b'.updated_at = b.updated_at ∧
      b'.product = b.product ∧
      bestOf b' side =
        (if improves side price (bestOf b side) then price else bestOf b side) ∧
      (∀ s', s' ≠ side → bestOf b' s' = bestOf b s') ∧
      ((∃ os, mfind? price (b.getSide side) = some os ∧
          os'.total_size = os.total_size + o.size ∧
          os'.queue = os.queue ++ [o] ∧
          -decMAX ≤ os.total_size + o.size ∧ os.total_size + o.size ≤ decMAX) ∨
        (mfind? price (b.getSide side) = none ∧ os' = Orders.ofOrder o)) := by
  rw [insert_eq] at hok
  simp only [hfresh, Option.isSome_none, Bool.false_eq_true, if_false] at hok
  have hidx1 : (({ b with index := minsert o.id (side, price) b.index } : OrderBook)).getSide side
      = b.getSide side := by
    cases side <;> rfl
  rw [hidx1] at hok
  cases hlv : mfind? price (b.getSide side) with
  | some os =>
    simp only [hlv] at hok
    cases hins : os.insert o with
    | error e =>
      simp only [hins] at hok
      simp at hok
    | ok os' =>
      simp only [hins] at hok
      unfold Orders.insert at hins
      cases hadd : checkedAdd os.total_size o.size with
      | none =>
        rw [hadd] at hins
        cases hins
      | some tot =>
        rw [hadd] at hins
        unfold checkedAdd at hadd
        split at hadd
        case isFalse => cases hadd
        case isTrue hbounds =>
          cases hadd
          cases hins
          obtain ⟨hb', -⟩ := Prod.mk.injEq .. ▸ hok
          refine ⟨⟨os.total_size + o.size, os.queue ++ [o]⟩, ?_, ?_, ?_, ?_, ?_, ?_, ?_, ?_, ?_⟩
          · rw [← hb', updateBestWith_index, setSide_index]
          · rw [← hb', updateBestWith_getSide, getSide_setSide_same]
          · intro s' hs'
            rw [← hb', updateBestWith_getSide, getSide_setSide_ne _ _ hs']
            cases s' <;> cases side <;> first | rfl | exact absurd rfl hs'
          · rw [← hb', updateBestWith_sequence, setSide_sequence]
          · rw [← hb', updateBestWith_updated_at, setSide_updated_at]
          · rw [← hb', updateBestWith_product, setSide_product]
          · rw [← hb', updateBestWith_bestOf_same, setSide_bestOf]
            have : bestOf { b with index := minsert o.id (side, price) b.index } side
                = bestOf b side := by cases side <;> rfl
            rw [this]
          · intro s' hs'
            rw [← hb', updateBestWith_bestOf_ne _ _ hs', setSide_bestOf]
            cases s' <;> cases side <;> first | rfl | exact absurd rfl hs'
          · exact Or.inl ⟨os, rfl, rfl, rfl, hbounds.1, hbounds.2⟩
  | none =>
    simp only [hlv] at hok
    obtain ⟨hb', -⟩ := Prod.mk.injEq .. ▸ hok
    refine ⟨Orders.ofOrder o, ?_, ?_, ?_, ?_, ?_, ?_, ?_, ?_, ?_⟩
    · rw [← hb', updateBestWith_index, setSide_index]
    · rw [← hb', updateBestWith_getSide, getSide_setSide_same]
    · intro s' hs'
      rw [← hb', updateBestWith_getSide, getSide_setSide_ne _ _ hs']
      cases s' <;> cases side <;> first | rfl | exact absurd rfl hs'
    · rw [← hb', updateBestWith_sequence, setSide_sequence]
    · rw [← hb', updateBestWith_updated_at, setSide_updated_at]
    · rw [← hb', updateBestWith_product, setSide_product]
    · rw [← hb', updateBestWith_bestOf_same, setSide_bestOf]
      have : bestOf { b with index := minsert o.id (side, price) b.index } side
          = bestOf b side := by cases side <;> rfl
      rw [this]
    · intro s' hs'
      rw [← hb', updateBestWith_bestOf_ne _ _ hs', setSide_bestOf]
      cases s' <;> cases side <;> first | rfl | exact absurd rfl hs'
    · exact Or.inr ⟨rfl, rfl⟩

/-! ## `insert` preserves the invariant -/

/-- The non-crossing placement condition for a fresh order. -/
def noCross (b : OrderBook) (s : Side) (price : ℤ) : Prop :=
  match s with
  | .buy => price < b.best_ask
  | .sell => b.best_bid < price

theorem bestKey?_eq_none_iff {s : Side} {hb : OMap ℤ Orders} :
    bestKey? s hb = none ↔ hb = [] := by
  cases s
  · exact maxKey?_eq_none_iff
  · exact minKey?_eq_none_iff

theorem wf_key_bounds {b : OrderBook} (hwf : WellFormedBook b) (s : Side) {k : ℤ}
    (hk : k ∈ mkeys (b.getSide s)) : 0 < k ∧ k < decMAX := by
  obtain ⟨pv, hpv, hfst⟩ := List.mem_map.mp hk
  obtain ⟨h1, h2, -⟩ := wf_level hwf hpv
  exact ⟨hfst ▸ h1, hfst ▸ h2⟩

theorem countId_singleton (oid : ℕ) (o : Order) (h : o.id = oid) :
    countId oid [o] = 1 := by
  simp [countId, List.countP_cons, h]

theorem insert_preserves_inv {b : OrderBook} {side : Side} {price : ℤ} {o : Order}
    {b' : OrderBook} (hInv : Inv b)
    (hfresh : mfind? o.id b.index = none)
    (hp0 : 0 < price) (hpM : price < decMAX)
    (hsz0 : 0 ≤ o.size) (hszM : o.size ≤ decMAX)
    (hnc : noCross b side price)
    (hok : b.insert side price o = (b', .ok ())) : Inv b' := by
  obtain ⟨hwf, hc1, hc2, hbp, hnx⟩ := hInv
  obtain ⟨os', hidx, hsame, hother, hseq, htime, hprod, hbest, hbesto, hcase⟩ :=
    insert_ok_spec hfresh hok
  have hsortedS : MSorted (b.getSide side) := wf_sorted hwf side
  have hsortedI : MSorted b.index := wf_index_sorted hwf
  -- facts about the new level value
  have hq' : (os'.queue ≠ [] ∧ os'.total_size = sumSizes os'.queue ∧
      os'.total_size ≤ decMAX ∧ ∀ x ∈ os'.queue, 0 ≤ x.size) := by
    rcases hcase with ⟨os, hlv, htot, hq, -, hbound⟩ | ⟨hlv, hos'⟩
    · obtain ⟨-, -, -, hsum, -, hpos⟩ := wf_level hwf (mfind?_eq_some_mem hlv)
      refine ⟨by simp [hq], ?_, htot ▸ hbound, ?_⟩
      · have hsum' : os.total_size = sumSizes os.queue := hsum
        rw [htot, hq, sumSizes_append, sumSizes_cons, hsum']
        simp [sumSizes]
      · intro x hx
        rw [hq] at hx
        rcases List.mem_append.mp hx with hx | hx
        · exact hpos x hx
        · simp at hx
          subst hx
          exact hsz0
    · subst hos'
      exact ⟨by simp [Orders.ofOrder], by simp [Orders.ofOrder, sumSizes], by
        simpa [Orders.ofOrder] using hszM, by
        intro x hx
        simp [Orders.ofOrder] at hx
        subst hx
        exact hsz0⟩
  have hcount : countId o.id os'.queue = 1 := by
    rcases hcase with ⟨os, hlv, -, hq, -⟩ | ⟨hlv, hos'⟩
    · rw [hq, countId_append, fresh_id_not_in_queue hc2 hfresh hlv,
        countId_singleton o.id o rfl]
    · subst hos'
      exact countId_singleton o.id o rfl
  have hidne : ∀ s pv, pv ∈ b.getSide s → ∀ x ∈ pv.2.queue, x.id ≠ o.id := by
    intro s pv hpv x hx hxo
    have := hc2 s pv hpv x hx
    rw [hxo, hfresh] at this
    cases this
  -- the five invariant components
  refine ⟨⟨?_, ?_, ?_, ?_⟩, ?_, ?_, ?_, ?_⟩
  · -- MSorted asks
    have : MSorted (b'.getSide .sell) := by
      by_cases hs : Side.sell = side
      · rw [← hs] at hsame
        rw [hsame, hs]
        exact msorted_minsert _ _ hsortedS
      · rw [hother _ hs]
        exact wf_sorted hwf .sell
    exact this
  · -- MSorted bids
    have : MSorted (b'.getSide .buy) := by
      by_cases hs : Side.buy = side
      · rw [← hs] at hsame
        rw [hsame, hs]
        exact msorted_minsert _ _ hsortedS
      · rw [hother _ hs]
        exact wf_sorted hwf .buy
    exact this
  · -- MSorted index
    rw [hidx]
    exact msorted_minsert _ _ hsortedI
  · -- per-level conditions
    intro s pv hpv
    by_cases hs : s = side
    · subst hs
      rw [hsame] at hpv
      rcases mem_minsert hpv with rfl | hpv
    -- new level
      · exact ⟨hp0, hpM, hq'.1, hq'.2.1, hq'.2.2.1, hq'.2.2.2⟩
      · exact wf_level hwf hpv
    · rw [hother _ hs] at hpv
      exact wf_level hwf hpv
  · -- Coherent1
    intro e he
    rw [hidx] at he
    rcases mem_minsert he with rfl | he
    · refine ⟨os', ?_, hcount⟩
      rw [hsame]
      exact mfind?_minsert_self _ _ _
    · have hne : e.1 ≠ o.id := by
        intro heq
        have := mem_mfind?_sorted hsortedI (by simpa using he)
        rw [heq, hfresh] at this
        cases this
      obtain ⟨os₀, hos₀, hcnt₀⟩ := hc1 e he
      by_cases hside : e.2.1 = side
      · rw [hside] at hos₀ ⊢
        rw [hsame]
        by_cases hpe : e.2.2 = price
        · rw [hpe] at hos₀
          rcases hcase with ⟨os, hlv, -, hq, -⟩ | ⟨hlv, -⟩
          · rw [hlv] at hos₀
            cases hos₀
            refine ⟨os', by rw [hpe]; exact mfind?_minsert_self _ _ _, ?_⟩
            rw [hq, countId_append]
            have : countId e.1 [o] = 0 := by
              rw [countId_eq_zero_iff]
              intro x hx
              simp at hx
              subst hx
              exact fun hxx => hne hxx.symm
            omega
          · rw [hlv] at hos₀
            cases hos₀
        · exact ⟨os₀, by
            rw [mfind?_minsert_ne os' (b.getSide side) hpe]
            exact hos₀, hcnt₀⟩
      · rw [hother _ hside]
        exact ⟨os₀, hos₀, hcnt₀⟩
  · -- Coherent2
    intro s pv hpv x hx
    rw [hidx]
    by_cases hs : s = side
    · subst hs
      rw [hsame] at hpv
      rcases mem_minsert hpv with rfl | hpv
      · -- the updated level
        rcases hcase with ⟨os, hlv, -, hq, -⟩ | ⟨hlv, hos'⟩
        · rw [hq] at hx
          rcases List.mem_append.mp hx with hx | hx
          · have hxne := hidne s (price, os) (mfind?_eq_some_mem hlv) x hx
            rw [mfind?_minsert_ne _ _ hxne]
            exact hc2 s (price, os) (mfind?_eq_some_mem hlv) x hx
          · simp at hx
            subst hx
            exact mfind?_minsert_self _ _ _
        · subst hos'
          simp [Orders.ofOrder] at hx
          subst hx
          exact mfind?_minsert_self _ _ _
      · have hxne := hidne s pv hpv x hx
        rw [mfind?_minsert_ne _ _ hxne]
        exact hc2 s pv hpv x hx
    · rw [hother _ hs] at hpv
      have hxne := hidne s pv hpv x hx
      rw [mfind?_minsert_ne _ _ hxne]
      exact hc2 s pv hpv x hx
  · -- BestPrices
    rw [bestPrices_iff]
    intro s
    by_cases hs : s = side
    · subst hs
      rw [hbest, hsame, bestKey?_minsert]
      have hold := (bestPrices_iff b).mp hbp s
      cases hcaseKey : bestKey? s (b.getSide s) with
      | none =>
        rw [hcaseKey] at hold
        have hnil : b.getSide s = [] := bestKey?_eq_none_iff.mp hcaseKey
        have hmin : minKey? (b.getSide s) = none := by
          rw [hnil]; rfl
        have hmax : maxKey? (b.getSide s) = none := by
          rw [hnil]; rfl
        cases s
        · simp only [hmax, Option.getD_none, Option.getD_some]
          simp only [bestFallback] at hold
          rw [hold]
          simp [improves, hp0, max_self]
        · simp only [hmin, Option.getD_none, Option.getD_some]
          simp only [bestFallback] at hold
          rw [hold]
          simp [improves, hpM, min_self]
      | some m =>
        rw [hcaseKey] at hold
        simp only [Option.getD_some] at hold
        cases s
        · simp only [bestKey?] at hcaseKey
          simp only [hcaseKey, Option.getD_some]
          rw [hold]
          simp only [improves]
          rcases le_or_lt price m with hc | hc
          · simp [not_lt.mpr hc, max_eq_right hc]
          · simp [hc, max_eq_left (le_of_lt hc)]
        · simp only [bestKey?] at hcaseKey
          simp only [hcaseKey, Option.getD_some]
          rw [hold]
          simp only [improves]
          rcases le_or_lt m price with hc | hc
          · simp [not_lt.mpr hc, min_eq_right hc]
          · simp [hc, min_eq_left (le_of_lt hc)]
    · rw [hbesto _ hs, hother _ hs]
      exact (bestPrices_iff b).mp hbp s
  · -- NotCrossed
    intro hbids hasks
    cases side
    · -- buy insert: asks untouched
      have hasks_eq : b'.asks = b.asks := hother .sell (by decide)
      have hba : b'.best_ask = b.best_ask := hbesto .sell (by decide)
      have hasks' : b.asks ≠ [] := by rwa [hasks_eq] at hasks
      have haskpos : 0 < b.best_ask := by
        cases hmk : minKey? b.asks with
        | none => exact absurd (minKey?_eq_none_iff.mp hmk) hasks'
        | some m =>
          have hbm : b.best_ask = m := by
            have h2 := hbp.2
            rw [hmk] at h2
            simpa using h2
          rw [hbm]
          exact (wf_key_bounds hwf .sell (minKey?_mem hmk)).1
      rw [hba]
      have hbb : bestOf b' .buy =
          if improves .buy price (bestOf b .buy) then price else bestOf b .buy := hbest
      simp only [bestOf] at hbb
      rw [hbb]
      have hnc' : price < b.best_ask := hnc
      split
      · exact hnc'
      · by_cases hbnil : b.bids = []
        · have hz : b.best_bid = 0 := by
            have h1 := hbp.1
            rw [hbnil] at h1
            simpa [maxKey?] using h1
          rw [hz]
          exact haskpos
        · exact hnx hbnil hasks'
    · -- sell insert: bids untouched
      have hbb : b'.best_bid = b.best_bid := hbesto .buy (by decide)
      have hbids_eq : b'.bids = b.bids := hother .buy (by decide)
      have hbids' : b.bids ≠ [] := by rwa [hbids_eq] at hbids
      have hbidlt : b.best_bid < decMAX := by
        cases hmk : maxKey? b.bids with
        | none => exact absurd (maxKey?_eq_none_iff.mp hmk) hbids'
        | some m =>
          have hbm : b.best_bid = m := by
            have h1 := hbp.1
            rw [hmk] at h1
            simpa using h1
          rw [hbm]
          exact (wf_key_bounds hwf .buy (maxKey?_mem hmk)).2
      rw [hbb]
      have hba : bestOf b' .sell =
          if improves .sell price (bestOf b .sell) then price else bestOf b .sell := hbest
      simp only [bestOf] at hba
      rw [hba]
      have hnc' : b.best_bid < price := hnc
      split
      · exact hnc'
      · by_cases hanil : b.asks = []
        · have hz : b.best_ask = decMAX := by
            have h2 := hbp.2
            rw [hanil] at h2
            simpa [minKey?] using h2
          rw [hz]
          exact hbidlt
        · exact hnx hbids' hanil

/-! ## Removal operations preserve the invariant -/

theorem minsert_minsert_self {κ ν : Type} [LinearOrder κ] (k : κ) (v v' : ν)
    (l : OMap κ ν) : minsert k v' (minsert k v l) = minsert k v' l := by
  induction l with
  | nil => simp [minsert]
  | cons hd t ih =>
    obtain ⟨q, w⟩ := hd
    rcases lt_trichotomy k q with hlt | heq | hgt
    · rw [minsert_cons_lt hlt, minsert_cons_eq, minsert_cons_lt hlt]
    · subst heq
      rw [minsert_cons_eq, minsert_cons_eq, minsert_cons_eq]
    · rw [minsert_cons_gt hgt, minsert_cons_gt hgt, minsert_cons_gt hgt, ih]

theorem mkeys_ne_nil_of_mem {κ ν : Type} [LinearOrder κ] {k : κ} {l : OMap κ ν}
    (h : k ∈ mkeys l) : l ≠ [] := by
  intro hnil
  subst hnil
  simp [mkeys] at h

theorem minKey?_minsert_mem {κ ν : Type} [LinearOrder κ] {k : κ} (v : ν)
    {l : OMap κ ν} (hmem : k ∈ mkeys l) : minKey? (minsert k v l) = minKey? l := by
  cases hmk : minKey? l with
  | none => exact absurd (minKey?_eq_none_iff.mp hmk) (mkeys_ne_nil_of_mem hmem)
  | some m =>
    rw [minKey?_minsert, hmk]
    simp [min_eq_right (minKey?_le hmk hmem)]

theorem maxKey?_minsert_mem {κ ν : Type} [LinearOrder κ] {k : κ} (v : ν)
    {l : OMap κ ν} (hmem : k ∈ mkeys l) : maxKey? (minsert k v l) = maxKey? l := by
  cases hmk : maxKey? l with
  | none => exact absurd (maxKey?_eq_none_iff.mp hmk) (mkeys_ne_nil_of_mem hmem)
  | some m =>
    rw [maxKey?_minsert, hmk]
    simp [max_eq_right (maxKey?_ge hmk hmem)]

theorem mem_minsert_sorted {κ ν : Type} [LinearOrder κ] {k : κ} {v : ν}
    {l : OMap κ ν} {x : κ × ν} (hs : MSorted l) (h : x ∈ minsert k v l) :
    x = (k, v) ∨ (x ∈ l ∧ x.1 ≠ k) := by
  have hfind : mfind? x.1 (minsert k v l) = some x.2 :=
    mem_mfind?_sorted (msorted_minsert k v hs) (by simpa using h)
  by_cases hk : x.1 = k
  · left
    rw [hk, mfind?_minsert_self] at hfind
    have : x.2 = v := (Option.some.inj hfind).symm
    calc x = (x.1, x.2) := rfl
    _ = (k, v) := by rw [hk, this]
  · right
    rw [mfind?_minsert_ne _ _ hk] at hfind
    exact ⟨mfind?_eq_some_mem hfind, hk⟩

theorem mem_merase_key_ne {κ ν : Type} [LinearOrder κ] {k : κ} {l : OMap κ ν}
    {x : κ × ν} (hs : MSorted l) (h : x ∈ merase k l) : x ∈ l ∧ x.1 ≠ k := by
  refine ⟨mem_merase h, ?_⟩
  intro hk
  have hfind : mfind? x.1 (merase k l) = some x.2 :=
    mem_mfind?_sorted (msorted_merase k hs) (by simpa using h)
  rw [hk, mfind?_merase_self k hs] at hfind
  cases hfind

theorem inv_seqTime {b : OrderBook} (h : Inv b) (n : ℕ) (t : ℤ) :
    Inv { b with sequence := n, updated_at := t } := by
  obtain ⟨⟨hsa, hsb, hsi, hlvl⟩, hc1, hc2, hbp, hnx⟩ := h
  exact ⟨⟨hsa, hsb, hsi, fun s pv hpv => hlvl s pv (by simpa using hpv)⟩,
    fun e he => by simpa using hc1 e he,
    fun s pv hpv o ho => by simpa using hc2 s pv (by simpa using hpv) o ho,
    hbp, hnx⟩

/-- Removing the (unique) order `oid` from its level preserves the invariant.
The two branches of `hshape` are the kept-level and the removed-level results
of `OrderBook::delete` / the `Match` and `Change` arms. -/
theorem erase_order_preserves_inv {b b' : OrderBook} {side : Side} {price : ℤ}
    {oid : ℕ} {os : Orders} {i : ℕ} {sz : ℤ}
    (hInv : Inv b)
    (hidx : mfind? oid b.index = some (side, price))
    (hlv : mfind? price (b.getSide side) = some os)
    (hqf : queueFind oid os.queue = some (i, sz))
    (hbI : b'.index = merase oid b.index)
    (hbO : ∀ s', s' ≠ side → b'.getSide s' = b.getSide s')
    (hshape :
      (os.queue.eraseIdx i ≠ [] ∧
        b'.getSide side =
          minsert price ⟨os.total_size - sz, os.queue.eraseIdx i⟩ (b.getSide side) ∧
        b'.best_bid = b.best_bid ∧ b'.best_ask = b.best_ask) ∨
      (os.queue.eraseIdx i = [] ∧
        b'.getSide side = merase price (b.getSide side) ∧
        bestOf b' side = (bestKey? side (b'.getSide side)).getD (bestFallback side) ∧
        ∀ s', s' ≠ side → bestOf b' s' = bestOf b s')) :
    Inv b' := by
  obtain ⟨hwf, hc1, hc2, hbp, hnx⟩ := hInv
  have hsortedS : MSorted (b.getSide side) := wf_sorted hwf side
  have hsortedI : MSorted b.index := wf_index_sorted hwf
  obtain ⟨q₁, o, q₂, hq, hi, hoid, hsz, hnoq1, hget, herase, hset⟩ := queueFind_spec hqf
  have hmemlv : (price, os) ∈ b.getSide side := mfind?_eq_some_mem hlv
  obtain ⟨hp0x, hpMx, hqnex, hsumx, htlex, hposx⟩ := wf_level hwf hmemlv
  have hp0 : 0 < price := hp0x
  have hpM : price < decMAX := hpMx
  have hqne : os.queue ≠ [] := hqnex
  have hsum : os.total_size = sumSizes os.queue := hsumx
  have htle : os.total_size ≤ decMAX := htlex
  have hpos : ∀ x ∈ os.queue, 0 ≤ x.size := hposx
  have hcnt : countId oid os.queue = 1 := by
    obtain ⟨os₀, hos₀, hcnt₀⟩ := hc1 (oid, (side, price)) (mfind?_eq_some_mem hidx)
    have hos₀b : mfind? price (b.getSide side) = some os₀ := hos₀
    rw [hlv] at hos₀b
    cases Option.some.inj hos₀b
    exact hcnt₀
  have hsz0 : 0 ≤ sz :=
    hsz ▸ hpos o (by rw [hq]; exact List.mem_append_right _ (List.mem_cons_self _ _))
  have hcnt_split : countId oid q₁ = 0 ∧ countId oid q₂ = 0 := by
    rw [hq, countId_append, countId_cons, if_pos hoid] at hcnt
    omega
  have hq'ids : ∀ x ∈ q₁ ++ q₂, x.id ≠ oid := by
    intro x hx
    rcases List.mem_append.mp hx with hx | hx
    · exact countId_eq_zero_iff.mp hcnt_split.1 x hx
    · exact countId_eq_zero_iff.mp hcnt_split.2 x hx
  have hsum' : os.total_size - sz = sumSizes (q₁ ++ q₂) := by
    rw [hq, sumSizes_append, sumSizes_cons] at hsum
    rw [sumSizes_append]
    omega
  have hmemq : ∀ x ∈ q₁ ++ q₂, x ∈ os.queue := by
    intro x hx
    rw [hq]
    rcases List.mem_append.mp hx with hx | hx
    · exact List.mem_append_left _ hx
    · exact List.mem_append_right _ (List.mem_cons_of_mem _ hx)
  have hIdxFacts : ∀ e ∈ b'.index, e ∈ b.index ∧ e.1 ≠ oid := by
    intro e he
    rw [hbI] at he
    exact mem_merase_key_ne hsortedI he
  have hidne : ∀ s pv, pv ∈ b.getSide s → ∀ x ∈ pv.2.queue, x.id = oid →
      s = side ∧ pv.1 = price := by
    intro s pv hpv x hx hxid
    have hfind := hc2 s pv hpv x hx
    rw [hxid, hidx] at hfind
    obtain ⟨h3, h4⟩ := Prod.mk.inj (Option.some.inj hfind)
    exact ⟨h3.symm, h4.symm⟩
  rcases hshape with ⟨hne, hbS, hbb, hba⟩ | ⟨hqe, hbS, hbBest, hbBestO⟩
  · -- the level keeps other orders
    rw [herase] at hne hbS
    refine ⟨⟨?_, ?_, ?_, ?_⟩, ?_, ?_, ?_, ?_⟩
    · -- MSorted asks
      have h5 : MSorted (b'.getSide .sell) := by
        by_cases hs : Side.sell = side
        · rw [← hs] at hbS
          rw [hbS, hs]
          exact msorted_minsert _ _ hsortedS
        · rw [hbO _ hs]
          exact wf_sorted hwf .sell
      exact h5
    · -- MSorted bids
      have h5 : MSorted (b'.getSide .buy) := by
        by_cases hs : Side.buy = side
        · rw [← hs] at hbS
          rw [hbS, hs]
          exact msorted_minsert _ _ hsortedS
        · rw [hbO _ hs]
          exact wf_sorted hwf .buy
      exact h5
    · -- MSorted index
      rw [hbI]
      exact msorted_merase _ hsortedI
    · -- per-level conditions
      intro s pv hpv
      by_cases hs : s = side
      · rw [hs] at hpv
        rw [hbS] at hpv
        rcases mem_minsert hpv with rfl | hpv
        · refine ⟨hp0, hpM, hne, hsum', by show os.total_size - sz ≤ decMAX; omega, ?_⟩
          intro x hx
          exact hpos x (hmemq x hx)
        · exact wf_level hwf hpv
      · rw [hbO _ hs] at hpv
        exact wf_level hwf hpv
    · -- Coherent1
      intro e he
      obtain ⟨heb, hene⟩ := hIdxFacts e he
      obtain ⟨os₀, hos₀, hcnt₀⟩ := hc1 e heb
      by_cases hside : e.2.1 = side
      · rw [hside] at hos₀ ⊢
        rw [hbS]
        by_cases hpe : e.2.2 = price
        · rw [hpe] at hos₀ ⊢
          rw [hlv] at hos₀
          cases Option.some.inj hos₀
          refine ⟨⟨os.total_size - sz, q₁ ++ q₂⟩, mfind?_minsert_self _ _ _, ?_⟩
          rw [hq, countId_append, countId_cons] at hcnt₀
          have hone : ¬ o.id = e.1 := by
            rw [hoid]
            exact fun hx => hene hx.symm
          rw [if_neg hone] at hcnt₀
          rw [countId_append]
          omega
        · refine ⟨os₀, ?_, hcnt₀⟩
          rw [mfind?_minsert_ne _ _ hpe]
          exact hos₀
      · rw [hbO _ hside]
        exact ⟨os₀, hos₀, hcnt₀⟩
    · -- Coherent2
      intro s pv hpv x hx
      rw [hbI]
      by_cases hs : s = side
      · rw [hs] at hpv ⊢
        rw [hbS] at hpv
        rcases mem_minsert_sorted hsortedS hpv with rfl | ⟨hpv, hpne⟩
        · have hxne : x.id ≠ oid := hq'ids x hx
          rw [mfind?_merase_ne _ hxne]
          exact hc2 side (price, os) hmemlv x (hmemq x hx)
        · have hxne : x.id ≠ oid := by
            intro hxid
            obtain ⟨-, hp⟩ := hidne side pv hpv x hx hxid
            exact hpne hp
          rw [mfind?_merase_ne _ hxne]
          exact hc2 side pv hpv x hx
      · rw [hbO _ hs] at hpv
        have hxne : x.id ≠ oid := by
          intro hxid
          obtain ⟨hcontra, -⟩ := hidne s pv hpv x hx hxid
          exact hs hcontra
        rw [mfind?_merase_ne _ hxne]
        exact hc2 s pv hpv x hx
    · -- BestPrices
      constructor
      · rw [hbb, hbp.1]
        by_cases hs : Side.buy = side
        · have hbids : b'.bids = minsert price ⟨os.total_size - sz, q₁ ++ q₂⟩ b.bids := by
            have h1 := hbS
            rw [← hs] at h1
            exact h1
          have hmem : price ∈ mkeys b.bids := by
            have h2 := hmemlv
            rw [← hs] at h2
            exact List.mem_map_of_mem Prod.fst h2
          rw [hbids, maxKey?_minsert_mem _ hmem]
        · have hbids : b'.bids = b.bids := hbO .buy hs
          rw [hbids]
      · rw [hba, hbp.2]
        by_cases hs : Side.sell = side
        · have hasks : b'.asks = minsert price ⟨os.total_size - sz, q₁ ++ q₂⟩ b.asks := by
            have h1 := hbS
            rw [← hs] at h1
            exact h1
          have hmem : price ∈ mkeys b.asks := by
            have h2 := hmemlv
            rw [← hs] at h2
            exact List.mem_map_of_mem Prod.fst h2
          rw [hasks, minKey?_minsert_mem _ hmem]
        · have hasks : b'.asks = b.asks := hbO .sell hs
          rw [hasks]
    · -- NotCrossed
      intro hbids hasks
      rw [hbb, hba]
      cases side
      · have h1 : b.bids ≠ [] := List.ne_nil_of_mem hmemlv
        have h2 : b.asks ≠ [] := by
          have h3 : b'.asks = b.asks := hbO .sell (by decide)
          rwa [h3] at hasks
        exact hnx h1 h2
      · have h1 : b.asks ≠ [] := List.ne_nil_of_mem hmemlv
        have h2 : b.bids ≠ [] := by
          have h3 : b'.bids = b.bids := hbO .buy (by decide)
          rwa [h3] at hbids
        exact hnx h2 h1
  · -- the level became empty and was removed
    rw [herase] at hqe
    obtain ⟨hq₁, hq₂⟩ := List.append_eq_nil.mp hqe
    subst hq₁
    subst hq₂
    have hqo : os.queue = [o] := by rw [hq]; rfl
    refine ⟨⟨?_, ?_, ?_, ?_⟩, ?_, ?_, ?_, ?_⟩
    · -- MSorted asks
      have h5 : MSorted (b'.getSide .sell) := by
        by_cases hs : Side.sell = side
        · rw [← hs] at hbS
          rw [hbS, hs]
          exact msorted_merase _ hsortedS
        · rw [hbO _ hs]
          exact wf_sorted hwf .sell
      exact h5
    · -- MSorted bids
      have h5 : MSorted (b'.getSide .buy) := by
        by_cases hs : Side.buy = side
        · rw [← hs] at hbS
          rw [hbS, hs]
          exact msorted_merase _ hsortedS
        · rw [hbO _ hs]
          exact wf_sorted hwf .buy
      exact h5
    · -- MSorted index
      rw [hbI]
      exact msorted_merase _ hsortedI
    · -- per-level conditions
      intro s pv hpv
      by_cases hs : s = side
      · rw [hs] at hpv
        rw [hbS] at hpv
        exact wf_level hwf (mem_merase hpv)
      · rw [hbO _ hs] at hpv
        exact wf_level hwf hpv
    · -- Coherent1
      intro e he
      obtain ⟨heb, hene⟩ := hIdxFacts e he
      obtain ⟨os₀, hos₀, hcnt₀⟩ := hc1 e heb
      by_cases hside : e.2.1 = side
      · rw [hside] at hos₀ ⊢
        rw [hbS]
        by_cases hpe : e.2.2 = price
        · exfalso
          rw [hpe, hlv] at hos₀
          cases Option.some.inj hos₀
          rw [hqo] at hcnt₀
          have hz : countId e.1 [o] = 0 := by
            rw [countId_eq_zero_iff]
            intro x hxx
            simp at hxx
            subst hxx
            rw [hoid]
            exact fun h => hene h.symm
          omega
        · refine ⟨os₀, ?_, hcnt₀⟩
          rw [mfind?_merase_ne _ hpe]
          exact hos₀
      · rw [hbO _ hside]
        exact ⟨os₀, hos₀, hcnt₀⟩
    · -- Coherent2
      intro s pv hpv x hx
      rw [hbI]
      by_cases hs : s = side
      · rw [hs] at hpv ⊢
        rw [hbS] at hpv
        obtain ⟨hpv2, hpne⟩ := mem_merase_key_ne hsortedS hpv
        have hxne : x.id ≠ oid := by
          intro hxid
          obtain ⟨-, hp⟩ := hidne side pv hpv2 x hx hxid
          exact hpne hp
        rw [mfind?_merase_ne _ hxne]
        exact hc2 side pv hpv2 x hx
      · rw [hbO _ hs] at hpv
        have hxne : x.id ≠ oid := by
          intro hxid
          obtain ⟨hcontra, -⟩ := hidne s pv hpv x hx hxid
          exact hs hcontra
        rw [mfind?_merase_ne _ hxne]
        exact hc2 s pv hpv x hx
    · -- BestPrices
      rw [bestPrices_iff]
      intro s
      by_cases hs : s = side
      · rw [hs]
        exact hbBest
      · rw [hbBestO _ hs, hbO _ hs]
        exact (bestPrices_iff b).mp hbp s
    · -- NotCrossed
      intro hbids hasks
      cases side
      · have hasks_eq : b'.asks = b.asks := hbO .sell (by decide)
        have hba2 : b'.best_ask = b.best_ask := hbBestO .sell (by decide)
        have hasks' : b.asks ≠ [] := by rwa [hasks_eq] at hasks
        have hbids_eq : b'.bids = merase price b.bids := hbS
        cases hmk : maxKey? b'.bids with
        | none => exact absurd (maxKey?_eq_none_iff.mp hmk) hbids
        | some m =>
          have hb'bid : b'.best_bid = m := by
            have h1 := hbBest
            simp only [bestOf, bestKey?, bestFallback, OrderBook.getSide] at h1
            rw [hmk] at h1
            simpa using h1
          have hmem2 : m ∈ mkeys b.bids := by
            have h2 := maxKey?_mem hmk
            rw [hbids_eq] at h2
            exact mem_mkeys_merase h2
          have hbnil : b.bids ≠ [] := mkeys_ne_nil_of_mem hmem2
          cases hmx : maxKey? b.bids with
          | none => exact absurd (maxKey?_eq_none_iff.mp hmx) hbnil
          | some mx =>
            have hle : m ≤ mx := maxKey?_ge hmx hmem2
            have hbb2 : b.best_bid = mx := by
              have h3 := hbp.1
              rw [hmx] at h3
              simpa using h3
            have hlt : b.best_bid < b.best_ask := hnx hbnil hasks'
            rw [hb'bid, hba2]
            omega
      · have hbids_eq2 : b'.bids = b.bids := hbO .buy (by decide)
        have hbb2 : b'.best_bid = b.best_bid := hbBestO .buy (by decide)
        have hbids' : b.bids ≠ [] := by rwa [hbids_eq2] at hbids
        cases hmk : minKey? b'.asks with
        | none => exact absurd (minKey?_eq_none_iff.mp hmk) hasks
        | some m =>
          have hb'ask : b'.best_ask = m := by
            have h1 := hbBest
            simp only [bestOf, bestKey?, bestFallback, OrderBook.getSide] at h1
            rw [hmk] at h1
            simpa using h1
          have hasks_eq2 : b'.asks = merase price b.asks := hbS
          have hmem2 : m ∈ mkeys b.asks := by
            have h2 := minKey?_mem hmk
            rw [hasks_eq2] at h2
            exact mem_mkeys_merase h2
          have hanil : b.asks ≠ [] := mkeys_ne_nil_of_mem hmem2
          cases hmx : minKey? b.asks with
          | none => exact absurd (minKey?_eq_none_iff.mp hmx) hanil
          | some mx =>
            have hle : mx ≤ m := minKey?_le hmx hmem2
            have hba3 : b.best_ask = mx := by
              have h3 := hbp.2
              rw [hmx] at h3
              simpa using h3
            have hlt : b.best_bid < b.best_ask := hnx hbids' hanil
            rw [hb'ask, hbb2]
            omega

/-- Replacing the unique order `oid` in its level by an order with the same id
and a smaller (still non-negative) size preserves the invariant. This covers
the non-deleting `Match` reduction and the in-place `Change` shrink. -/
theorem replace_order_preserves_inv {b b' : OrderBook} {side : Side} {price : ℤ}
    {oid : ℕ} {os : Orders} {i : ℕ} {sz : ℤ} (o' : Order)
    (hInv : Inv b)
    (hidx : mfind? oid b.index = some (side, price))
    (hlv : mfind? price (b.getSide side) = some os)
    (hqf : queueFind oid os.queue = some (i, sz))
    (hid' : o'.id = oid) (h0' : 0 ≤ o'.size) (hle' : o'.size ≤ sz)
    (hbI : b'.index = b.index)
    (hbS : b'.getSide side =
      minsert price ⟨os.total_size - sz + o'.size, os.queue.set i o'⟩ (b.getSide side))
    (hbO : ∀ s', s' ≠ side → b'.getSide s' = b.getSide s')
    (hbb : b'.best_bid = b.best_bid) (hba : b'.best_ask = b.best_ask) :
    Inv b' := by
  obtain ⟨hwf, hc1, hc2, hbp, hnx⟩ := hInv
  have hsortedS : MSorted (b.getSide side) := wf_sorted hwf side
  have hsortedI : MSorted b.index := wf_index_sorted hwf
  obtain ⟨q₁, o, q₂, hq, hi, hoid, hsz, hnoq1, hget, herase, hset⟩ := queueFind_spec hqf
  have hmemlv : (price, os) ∈ b.getSide side := mfind?_eq_some_mem hlv
  obtain ⟨hp0x, hpMx, hqnex, hsumx, htlex, hposx⟩ := wf_level hwf hmemlv
  have hp0 : 0 < price := hp0x
  have hpM : price < decMAX := hpMx
  have hsum : os.total_size = sumSizes os.queue := hsumx
  have htle : os.total_size ≤ decMAX := htlex
  have hpos : ∀ x ∈ os.queue, 0 ≤ x.size := hposx
  have hcnt : countId oid os.queue = 1 := by
    obtain ⟨os₀, hos₀, hcnt₀⟩ := hc1 (oid, (side, price)) (mfind?_eq_some_mem hidx)
    have hos₀b : mfind? price (b.getSide side) = some os₀ := hos₀
    rw [hlv] at hos₀b
    cases Option.some.inj hos₀b
    exact hcnt₀
  have hcnt_split : countId oid q₁ = 0 ∧ countId oid q₂ = 0 := by
    rw [hq, countId_append, countId_cons, if_pos hoid] at hcnt
    omega
  have hoo' : ({ o with size := o'.size } : Order) = o' := by
    have hids : o.id = o'.id := by rw [hoid, hid']
    cases o'
    cases o
    simp only [Order.mk.injEq]
    exact ⟨hids, trivial⟩
  have hset' : os.queue.set i o' = q₁ ++ o' :: q₂ := by
    have h1 := hset o'.size
    rw [hoo'] at h1
    exact h1
  have hsum2 : os.total_size - sz + o'.size = sumSizes (q₁ ++ o' :: q₂) := by
    rw [hq, sumSizes_append, sumSizes_cons] at hsum
    rw [sumSizes_append, sumSizes_cons]
    omega
  have hmemq : ∀ x ∈ q₁ ++ o' :: q₂, x = o' ∨ x ∈ os.queue := by
    intro x hx
    rcases List.mem_append.mp hx with hx | hx
    · exact Or.inr (by rw [hq]; exact List.mem_append_left _ hx)
    · rcases List.mem_cons.mp hx with hx | hx
      · exact Or.inl hx
      · exact Or.inr (by rw [hq]; exact List.mem_append_right _ (List.mem_cons_of_mem _ hx))
  have hidne : ∀ s pv, pv ∈ b.getSide s → ∀ x ∈ pv.2.queue, x.id = oid →
      s = side ∧ pv.1 = price := by
    intro s pv hpv x hx hxid
    have hfind := hc2 s pv hpv x hx
    rw [hxid, hidx] at hfind
    obtain ⟨h3, h4⟩ := Prod.mk.inj (Option.some.inj hfind)
    exact ⟨h3.symm, h4.symm⟩
  refine ⟨⟨?_, ?_, ?_, ?_⟩, ?_, ?_, ?_, ?_⟩
  · -- MSorted asks
    have h5 : MSorted (b'.getSide .sell) := by
      by_cases hs : Side.sell = side
      · rw [← hs] at hbS
        rw [hbS, hs]
        exact msorted_minsert _ _ hsortedS
      · rw [hbO _ hs]
        exact wf_sorted hwf .sell
    exact h5
  · -- MSorted bids
    have h5 : MSorted (b'.getSide .buy) := by
      by_cases hs : Side.buy = side
      · rw [← hs] at hbS
        rw [hbS, hs]
        exact msorted_minsert _ _ hsortedS
      · rw [hbO _ hs]
        exact wf_sorted hwf .buy
    exact h5
  · -- MSorted index
    rw [hbI]
    exact hsortedI
  · -- per-level conditions
    intro s pv hpv
    by_cases hs : s = side
    · rw [hs] at hpv
      rw [hbS, hset'] at hpv
      rcases mem_minsert hpv with rfl | hpv
      · refine ⟨hp0, hpM, by simp, hsum2,
          by show os.total_size - sz + o'.size ≤ decMAX; omega, ?_⟩
        intro x hx
        rcases hmemq x hx with rfl | hx
        · exact h0'
        · exact hpos x hx
      · exact wf_level hwf hpv
    · rw [hbO _ hs] at hpv
      exact wf_level hwf hpv
  · -- Coherent1
    intro e he
    rw [hbI] at he
    obtain ⟨os₀, hos₀, hcnt₀⟩ := hc1 e he
    by_cases hside : e.2.1 = side
    · rw [hside] at hos₀ ⊢
      rw [hbS, hset']
      by_cases hpe : e.2.2 = price
      · rw [hpe] at hos₀ ⊢
        rw [hlv] at hos₀
        cases Option.some.inj hos₀
        refine ⟨⟨os.total_size - sz + o'.size, q₁ ++ o' :: q₂⟩,
          mfind?_minsert_self _ _ _, ?_⟩
        rw [hq, countId_append, countId_cons] at hcnt₀
        rw [countId_append, countId_cons]
        simp only [hid']
        simp only [hoid] at hcnt₀
        exact hcnt₀
      · refine ⟨os₀, ?_, hcnt₀⟩
        rw [mfind?_minsert_ne _ _ hpe]
        exact hos₀
    · rw [hbO _ hside]
      exact ⟨os₀, hos₀, hcnt₀⟩
  · -- Coherent2
    intro s pv hpv x hx
    rw [hbI]
    by_cases hs : s = side
    · rw [hs] at hpv ⊢
      rw [hbS, hset'] at hpv
      rcases mem_minsert hpv with rfl | hpv
      · rcases hmemq x hx with rfl | hx2
        · rw [hid']
          exact hidx
        · exact hc2 side (price, os) hmemlv x hx2
      · exact hc2 side pv hpv x hx
    · rw [hbO _ hs] at hpv
      exact hc2 s pv hpv x hx
  · -- BestPrices
    constructor
    · rw [hbb, hbp.1]
      by_cases hs : Side.buy = side
      · have hbids : b'.bids =
            minsert price ⟨os.total_size - sz + o'.size, os.queue.set i o'⟩ b.bids := by
          have h1 := hbS
          rw [← hs] at h1
          exact h1
        have hmem : price ∈ mkeys b.bids := by
          have h2 := hmemlv
          rw [← hs] at h2
          exact List.mem_map_of_mem Prod.fst h2
        rw [hbids, maxKey?_minsert_mem _ hmem]
      · have hbids : b'.bids = b.bids := hbO .buy hs
        rw [hbids]
    · rw [hba, hbp.2]
      by_cases hs : Side.sell = side
      · have hasks : b'.asks =
            minsert price ⟨os.total_size - sz + o'.size, os.queue.set i o'⟩ b.asks := by
          have h1 := hbS
          rw [← hs] at h1
          exact h1
        have hmem : price ∈ mkeys b.asks := by
          have h2 := hmemlv
          rw [← hs] at h2
          exact List.mem_map_of_mem Prod.fst h2
        rw [hasks, minKey?_minsert_mem _ hmem]
      · have hasks : b'.asks = b.asks := hbO .sell hs
        rw [hasks]
  · -- NotCrossed
    intro hbids hasks
    rw [hbb, hba]
    cases side
    · have h1 : b.bids ≠ [] := List.ne_nil_of_mem hmemlv
      have h2 : b.asks ≠ [] := by
        have h3 : b'.asks = b.asks := hbO .sell (by decide)
        rwa [h3] at hasks
      exact hnx h1 h2
    · have h1 : b.asks ≠ [] := List.ne_nil_of_mem hmemlv
      have h2 : b.bids ≠ [] := by
        have h3 : b'.bids = b.bids := hbO .buy (by decide)
        rwa [h3] at hbids
      exact hnx h2 h1

@[simp]
theorem getSide_indexSet (b : OrderBook) (l : OMap ℕ (Side × ℤ)) (s : Side) :
    OrderBook.getSide { b with index := l } s = b.getSide s := by
  cases s <;> rfl

theorem setSide_best_bid (b : OrderBook) (s : Side) (hb : OMap ℤ Orders) :
    (b.setSide s hb).best_bid = b.best_bid := by
  cases s <;> rfl

theorem setSide_best_ask (b : OrderBook) (s : Side) (hb : OMap ℤ Orders) :
    (b.setSide s hb).best_ask = b.best_ask := by
  cases s <;> rfl

theorem refreshBest_sequence (b : OrderBook) (s : Side) :
    (b.refreshBest s).sequence = b.sequence := by
  cases s <;> rfl

theorem refreshBest_updated_at (b : OrderBook) (s : Side) :
    (b.refreshBest s).updated_at = b.updated_at := by
  cases s <;> rfl

theorem refreshBest_product (b : OrderBook) (s : Side) :
    (b.refreshBest s).product = b.product := by
  cases s <;> rfl

theorem size_le_sumSizes {q : List Order} {o : Order} (ho : o ∈ q)
    (h : ∀ x ∈ q, 0 ≤ x.size) : o.size ≤ sumSizes q := by
  obtain ⟨q₁, q₂, rfl⟩ := List.append_of_mem ho
  rw [sumSizes_append, sumSizes_cons]
  have h1 := sumSizes_nonneg (fun x hx => h x (List.mem_append_left _ hx))
  have h2 := sumSizes_nonneg (fun x hx =>
    h x (List.mem_append_right _ (List.mem_cons_of_mem _ hx)))
  omega

theorem queueFind_isSome_of_countId_one {oid : ℕ} {q : List Order}
    (h : countId oid q = 1) : ∃ i sz, queueFind oid q = some (i, sz) := by
  cases hqf : queueFind oid q with
  | none =>
    rw [queueFind_eq_none_iff] at hqf
    have h0 := countId_eq_zero_iff.mpr hqf
    omega
  | some p =>
    obtain ⟨i, sz⟩ := p
    exact ⟨i, sz, rfl⟩

/-- Under the invariant, `OrderBook::delete` either fails with
`OrderDoesNotExist` leaving the book unchanged (unknown id), or succeeds and
preserves the invariant (and the scalar fields). -/
theorem delete_spec {b : OrderBook} (hInv : Inv b) (oid : ℕ) :
    (mfind? oid b.index = none ∧ b.delete oid = (b, .error .orderDoesNotExist)) ∨
    (∃ side price b', mfind? oid b.index = some (side, price) ∧
      b.delete oid = (b', .ok side) ∧ Inv b' ∧
      b'.sequence = b.sequence ∧ b'.updated_at = b.updated_at ∧
      b'.product = b.product) := by
  cases hfound : mfind? oid b.index with
  | none =>
    left
    refine ⟨rfl, ?_⟩
    simp only [OrderBook.delete, hfound]
  | some sp =>
    obtain ⟨side, price⟩ := sp
    right
    have hwf : WellFormedBook b := hInv.1
    have hc1 : Coherent1 b := hInv.2.1
    obtain ⟨os₀, hos₀, hcnt₀⟩ := hc1 (oid, (side, price)) (mfind?_eq_some_mem hfound)
    have hlv : mfind? price (b.getSide side) = some os₀ := hos₀
    have hcnt : countId oid os₀.queue = 1 := hcnt₀
    obtain ⟨i, sz, hqf⟩ := queueFind_isSome_of_countId_one hcnt
    obtain ⟨q₁, o, q₂, hq, hi, hoid, hsz, hnoq1, hget, herase, hset⟩ := queueFind_spec hqf
    obtain ⟨hp0x, hpMx, hqnex, hsumx, htlex, hposx⟩ := wf_level hwf (mfind?_eq_some_mem hlv)
    have hsum : os₀.total_size = sumSizes os₀.queue := hsumx
    have htle : os₀.total_size ≤ decMAX := htlex
    have hpos : ∀ x ∈ os₀.queue, 0 ≤ x.size := hposx
    have homem : o ∈ os₀.queue := by
      rw [hq]
      exact List.mem_append_right _ (List.mem_cons_self _ _)
    have hole : o.size ≤ os₀.total_size := by
      rw [hsum]
      exact size_le_sumSizes homem hpos
    have ho0 : 0 ≤ o.size := hpos o homem
    have htot0 : 0 ≤ os₀.total_size := by
      rw [hsum]
      exact sumSizes_nonneg hpos
    have hdM : (0 : ℤ) < decMAX := by decide
    have hsub : checkedSub os₀.total_size o.size = some (os₀.total_size - o.size) := by
      unfold checkedSub
      rw [if_pos]
      constructor
      · omega
      · omega
    have hodel : os₀.delete oid =
        (⟨os₀.total_size - o.size, os₀.queue.eraseIdx i⟩, .ok ()) := by
      simp only [Orders.delete, hqf, hget, hsub]
    -- evaluate `OrderBook.delete`
    by_cases hemp : os₀.queue.eraseIdx i = []
    · -- the level is removed and the best price refreshed
      have hdel : b.delete oid =
          ((({ b with index := merase oid b.index }|>.setSide side
              (minsert price ⟨os₀.total_size - o.size, os₀.queue.eraseIdx i⟩
                (b.getSide side))) |>.setSide side
              (merase price (({ b with index := merase oid b.index }|>.setSide side
                (minsert price ⟨os₀.total_size - o.size, os₀.queue.eraseIdx i⟩
                  (b.getSide side))).getSide side))).refreshBest side, .ok side) := by
        simp only [OrderBook.delete, hfound, getSide_indexSet, hlv, hodel]
        rw [if_pos (by simp [hemp])]
      refine ⟨side, price, _, rfl, hdel, ?_, ?_, ?_, ?_⟩
      · refine erase_order_preserves_inv hInv hfound hlv hqf ?_ ?_ (Or.inr ⟨hemp, ?_, ?_, ?_⟩)
        · rw [refreshBest_index, setSide_index, setSide_index]
        · intro s' hs'
          rw [refreshBest_getSide, getSide_setSide_ne _ _ hs', getSide_setSide_ne _ _ hs',
            getSide_indexSet]
        · rw [refreshBest_getSide, getSide_setSide_same, getSide_setSide_same,
            merase_minsert_self _ _ (wf_sorted hwf side)]
        · rw [refreshBest_getSide]
          exact refreshBest_spec _ side (by
            rw [getSide_setSide_same, getSide_setSide_same,
              merase_minsert_self _ _ (wf_sorted hwf side)]
            exact msorted_merase _ (wf_sorted hwf side))
        · intro s' hs'
          rw [refreshBest_other _ hs', setSide_bestOf, setSide_bestOf]
          cases s' <;> rfl
      · rw [refreshBest_sequence, setSide_sequence, setSide_sequence]
      · rw [refreshBest_updated_at, setSide_updated_at, setSide_updated_at]
      · rw [refreshBest_product, setSide_product, setSide_product]
    · -- the level keeps other orders
      have hdel : b.delete oid =
          ({ b with index := merase oid b.index }|>.setSide side
            (minsert price ⟨os₀.total_size - o.size, os₀.queue.eraseIdx i⟩
              (b.getSide side)), .ok side) := by
        simp only [OrderBook.delete, hfound, getSide_indexSet, hlv, hodel]
        rw [if_neg (by simp [hemp])]
      refine ⟨side, price, _, rfl, hdel, ?_, ?_, ?_, ?_⟩
      · refine erase_order_preserves_inv hInv hfound hlv hqf ?_ ?_
          (Or.inl ⟨hemp, ?_, ?_, ?_⟩)
        · rw [setSide_index]
        · intro s' hs'
          rw [getSide_setSide_ne _ _ hs', getSide_indexSet]
        · rw [getSide_setSide_same, hsz]
        · rw [setSide_best_bid]
        · rw [setSide_best_ask]
      · rw [setSide_sequence]
      · rw [setSide_updated_at]
      · rw [setSide_product]

/-! ## Per-arm invariant preservation for `update_with` -/

theorem update_with_noop_preserves {b b' : OrderBook} {msg : Message}
    {pid seq : ℕ} {time : ℤ}
    (hok : b.update_with (.Noop pid seq time) = (b', .ok msg)) (hInv : Inv b) :
    Inv b' ∧ b'.sequence = u64Succ b.sequence := by
  simp only [OrderBook.update_with] at hok
  split at hok
  · obtain ⟨h1, h2⟩ := Prod.mk.inj hok
    cases h2
  · obtain ⟨h1, h2⟩ := Prod.mk.inj hok
    subst h1
    exact ⟨inv_seqTime hInv _ _, rfl⟩

theorem update_with_open_preserves {b b' : OrderBook} {msg : Message}
    {pid seq oid : ℕ} {side : Side} {price size time2 : ℤ}
    (hInv : Inv b)
    (hwfm : msgWFb b (.Open pid seq oid side price size time2) = true)
    (hok : b.update_with (.Open pid seq oid side price size time2) = (b', .ok msg)) :
    Inv b' ∧ b'.sequence = u64Succ b.sequence := by
  simp only [msgWFb, Bool.and_eq_true, decide_eq_true_eq, Option.isNone_iff_eq_none]
    at hwfm
  obtain ⟨⟨⟨⟨⟨hfresh, hp0⟩, hpM⟩, hsz0⟩, hszM⟩, hcross⟩ := hwfm
  simp only [OrderBook.update_with] at hok
  split at hok
  · obtain ⟨h1, h2⟩ := Prod.mk.inj hok
    cases h2
  · rcases hins : OrderBook.insert
        { b with sequence := u64Succ b.sequence, updated_at := time2 }
        side price ⟨oid, size⟩ with ⟨b₂, r⟩
    simp only [hins] at hok
    cases r with
    | error e =>
      obtain ⟨h1, h2⟩ := Prod.mk.inj hok
      cases h2
    | ok u =>
      obtain ⟨h1, h2⟩ := Prod.mk.inj hok
      subst h1
      have hfresh₁ : mfind? oid
          (OrderBook.index { b with sequence := u64Succ b.sequence, updated_at := time2 }) =
          none := hfresh
      have hnc : noCross { b with sequence := u64Succ b.sequence, updated_at := time2 }
          side price := by
        cases side
        · show price < b.best_ask
          exact of_decide_eq_true hcross
        · show b.best_bid < price
          exact of_decide_eq_true hcross
      have hInv₂ := insert_preserves_inv (inv_seqTime hInv (u64Succ b.sequence) time2)
        hfresh₁ hp0 hpM hsz0 hszM hnc hins
      refine ⟨hInv₂, ?_⟩
      obtain ⟨os', hidx, hsame, hother, hseq2, htime2, hprod2, hbest, hbesto, hcase⟩ :=
        insert_ok_spec hfresh₁ hins
      rw [hseq2]

theorem update_with_done_preserves {b b' : OrderBook} {msg : Message}
    {pid seq oid : ℕ} {time2 : ℤ}
    (hInv : Inv b)
    (hok : b.update_with (.Done pid seq oid time2) = (b', .ok msg)) :
    Inv b' ∧ b'.sequence = u64Succ b.sequence := by
  simp only [OrderBook.update_with] at hok
  split at hok
  · obtain ⟨h1, h2⟩ := Prod.mk.inj hok
    cases h2
  · have hInv₁ : Inv { b with sequence := u64Succ b.sequence, updated_at := time2 } :=
      inv_seqTime hInv _ _
    rcases delete_spec hInv₁ oid with ⟨hfound, hdel⟩ |
      ⟨side, price, b₂, hfound, hdel, hInv₂, hseq₂, htime₂, hprod₂⟩
    · simp only [hdel] at hok
      obtain ⟨h1, h2⟩ := Prod.mk.inj hok
      subst h1
      exact ⟨hInv₁, rfl⟩
    · simp only [hdel] at hok
      obtain ⟨h1, h2⟩ := Prod.mk.inj hok
      subst h1
      exact ⟨hInv₂, hseq₂⟩

/-- Success characterisation of `Orders::reduce_or_delete`. -/
theorem reduce_or_delete_ok_spec {os : Orders} {oid : ℕ} {size : ℤ} {os' : Orders}
    {deleted : Bool} (h : os.reduce_or_delete oid size = .ok (os', deleted)) :
    ∃ i o, queueFind oid os.queue = some (i, o.size) ∧
      os.queue.get? i = some o ∧ o.id = oid ∧
      -decMAX ≤ o.size - size ∧ o.size - size ≤ decMAX ∧
      -decMAX ≤ os.total_size - size ∧ os.total_size - size ≤ decMAX ∧
      ((o.size = size ∧ deleted = true ∧
          os' = ⟨os.total_size - size, os.queue.eraseIdx i⟩) ∨
        (o.size ≠ size ∧ deleted = false ∧
          os' = ⟨os.total_size - size,
            os.queue.set i { o with size := o.size - size }⟩)) := by
  unfold Orders.reduce_or_delete at h
  cases hqf : queueFind oid os.queue with
  | none =>
    simp only [hqf] at h
    cases h
  | some p =>
    obtain ⟨i, sz⟩ := p
    simp only [hqf] at h
    cases hget2 : os.queue.get? i with
    | none =>
      simp only [hget2] at h
      cases h
    | some o =>
      simp only [hget2] at h
      cases hcs : checkedSub o.size size with
      | none =>
        simp only [hcs] at h
        cases h
      | some osize =>
        simp only [hcs] at h
        cases hcs2 : checkedSub os.total_size size with
        | none =>
          simp only [hcs2] at h
          cases h
        | some total =>
          simp only [hcs2] at h
          unfold checkedSub at hcs hcs2
          split at hcs
          case isTrue hb1 =>
            split at hcs2
            case isTrue hb2 =>
              have hosize : osize = o.size - size := (Option.some.inj hcs).symm
              have htotal : total = os.total_size - size := (Option.some.inj hcs2).symm
              obtain ⟨q₁, o₀, q₂, hq, hi, hoid₀, hsz₀, hno, hget₀, herase₀, hset₀⟩ :=
                queueFind_spec hqf
              have hoo : o = o₀ := by
                rw [hget₀] at hget2
                exact (Option.some.inj hget2).symm
              subst hoo
              subst hosize
              subst htotal
              have herase2 : (os.queue.set i { o with size := o.size - size }).eraseIdx i
                  = q₁ ++ q₂ := by
                rw [hset₀, hi, eraseIdx_at_append]
              refine ⟨i, o, by rw [hsz₀], hget2, hoid₀,
                hb1.1, hb1.2, hb2.1, hb2.2, ?_⟩
              split at h
              case isTrue h0 =>
                obtain ⟨h1, h2⟩ := Prod.mk.inj (Except.ok.inj h)
                refine Or.inl ⟨by omega, h2.symm, ?_⟩
                rw [← h1, herase2, ← herase₀]
              case isFalse h0 =>
                obtain ⟨h1, h2⟩ := Prod.mk.inj (Except.ok.inj h)
                refine Or.inr ⟨by omega, h2.symm, ?_⟩
                rw [← h1]
            case isFalse => cases hcs2
          case isFalse => cases hcs

theorem update_with_match_preserves {b b' : OrderBook} {msg : Message}
    {pid seq maker taker : ℕ} {price size time2 : ℤ}
    (hInv : Inv b)
    (hwfm : msgWFb b (.Match pid seq maker taker price size time2) = true)
    (hok : b.update_with (.Match pid seq maker taker price size time2) = (b', .ok msg)) :
    Inv b' ∧ b'.sequence = u64Succ b.sequence := by
  simp only [OrderBook.update_with] at hok
  split at hok
  · obtain ⟨h1, h2⟩ := Prod.mk.inj hok
    cases h2
  · cases hfound : mfind? maker b.index with
    | none =>
      simp only [hfound] at hok
      obtain ⟨h1, h2⟩ := Prod.mk.inj hok
      cases h2
    | some sp =>
      obtain ⟨side, p⟩ := sp
      cases hlvq : mfind? price (b.getSide side) with
      | none =>
        simp only [hfound, getSide_seqTime, hlvq] at hok
        obtain ⟨h1, h2⟩ := Prod.mk.inj hok
        cases h2
      | some os =>
        rcases hred : os.reduce_or_delete maker size with e | pr
        · simp only [hfound, getSide_seqTime, hlvq, hred] at hok
          obtain ⟨h1, h2⟩ := Prod.mk.inj hok
          cases h2
        · obtain ⟨os', deleted⟩ := pr
          obtain ⟨i, o, hqf, hget, hoid, hbo1, hbo2, hbt1, hbt2, hcase⟩ :=
            reduce_or_delete_ok_spec hred
          have homem : o ∈ os.queue := List.get?_mem hget
          have hpp : p = price := by
            have h2 := hInv.2.2.1 side (price, os) (mfind?_eq_some_mem hlvq) o homem
            rw [hoid, hfound] at h2
            exact (Prod.mk.inj (Option.some.inj h2)).2
          subst hpp
          simp only [msgWFb, Bool.and_eq_true, decide_eq_true_eq] at hwfm
          obtain ⟨hsz0, hrest⟩ := hwfm
          simp only [hfound, hlvq, hqf, decide_eq_true_eq] at hrest
          have hInv₁ : Inv { b with sequence := u64Succ b.sequence, updated_at := time2 } :=
            inv_seqTime hInv _ _
          have hfound₁ : mfind? maker
              (OrderBook.index
                { b with sequence := u64Succ b.sequence, updated_at := time2 }) =
              some (side, p) := hfound
          have hlvq₁ : mfind? p
              (OrderBook.getSide
                { b with sequence := u64Succ b.sequence, updated_at := time2 } side) =
              some os := hlvq
          rcases hcase with ⟨hosz, hdel, hos'⟩ | ⟨hosz, hdel, hos'⟩
          · -- the maker order is deleted
            subst hdel
            subst hos'
            by_cases hemp : os.queue.eraseIdx i = []
            · have hie : (os.queue.eraseIdx i).isEmpty = true := by rw [hemp]; rfl
              simp only [hfound, getSide_seqTime, hlvq, hred, eq_self_iff_true, if_true,
                getSide_setSide_same, getSide_indexSet, hie] at hok
              obtain ⟨h1, h2⟩ := Prod.mk.inj hok
              subst h1
              constructor
              · refine erase_order_preserves_inv hInv₁ hfound₁ hlvq₁ hqf ?_ ?_
                  (Or.inr ⟨hemp, ?_, ?_, ?_⟩)
                · rw [refreshBest_index, setSide_index, setSide_index]
                · intro s' hs'
                  rw [refreshBest_getSide, getSide_setSide_ne _ _ hs',
                    getSide_setSide_ne _ _ hs']
                  cases s' <;> rfl
                · rw [refreshBest_getSide, getSide_setSide_same,
                    show OrderBook.getSide { b with sequence := u64Succ b.sequence, updated_at := time2, index := merase maker b.index } side = b.getSide side by cases side <;> rfl,
                    merase_minsert_self _ _ (wf_sorted hInv.1 side)]
                  cases side <;> rfl
                · rw [refreshBest_getSide]
                  refine refreshBest_spec _ side ?_
                  rw [getSide_setSide_same,
                    show OrderBook.getSide { b with sequence := u64Succ b.sequence, updated_at := time2, index := merase maker b.index } side = b.getSide side by cases side <;> rfl,
                    merase_minsert_self _ _ (wf_sorted hInv.1 side)]
                  exact msorted_merase _ (wf_sorted hInv.1 side)
                · intro s' hs'
                  rw [refreshBest_other _ hs', setSide_bestOf, setSide_bestOf]
                  cases s' <;> rfl
              · rw [refreshBest_sequence, setSide_sequence, setSide_sequence]
            · have hie : (os.queue.eraseIdx i).isEmpty = false := by
                cases hL : os.queue.eraseIdx i with
                | nil => exact absurd hL hemp
                | cons a t => rfl
              simp only [hfound, getSide_seqTime, hlvq, hred, eq_self_iff_true, if_true,
                getSide_setSide_same, getSide_indexSet, hie, Bool.false_eq_true,
                if_false] at hok
              obtain ⟨h1, h2⟩ := Prod.mk.inj hok
              subst h1
              constructor
              · refine erase_order_preserves_inv hInv₁ hfound₁ hlvq₁ hqf ?_ ?_
                  (Or.inl ⟨hemp, ?_, ?_, ?_⟩)
                · rw [setSide_index]
                · intro s' hs'
                  rw [getSide_setSide_ne _ _ hs']
                  cases s' <;> rfl
                · rw [getSide_setSide_same,
                    show OrderBook.getSide { b with sequence := u64Succ b.sequence, updated_at := time2, index := merase maker b.index } side = b.getSide side by cases side <;> rfl,
                    hosz]
                  cases side <;> rfl
                · rw [setSide_best_bid]
                · rw [setSide_best_ask]
              · rw [setSide_sequence]
          · -- the maker order shrinks in place
            subst hdel
            subst hos'
            have hqnil : os.queue ≠ [] := List.ne_nil_of_mem homem
            have hie : (os.queue.set i { o with size := o.size - size }).isEmpty
                = false := by
              cases hL : os.queue.set i { o with size := o.size - size } with
              | nil =>
                exfalso
                have hlen := congrArg List.length hL
                rw [List.length_set] at hlen
                exact hqnil (List.eq_nil_of_length_eq_zero hlen)
              | cons a t => rfl
            simp only [hfound, getSide_seqTime, hlvq, hred, Bool.false_eq_true, if_false,
              hie] at hok
            obtain ⟨h1, h2⟩ := Prod.mk.inj hok
            subst h1
            constructor
            · refine replace_order_preserves_inv { o with size := o.size - size }
                  hInv₁ hfound₁ hlvq₁ hqf hoid ?_ ?_ ?_ ?_ ?_ ?_ ?_
              · show 0 ≤ o.size - size
                omega
              · show o.size - size ≤ o.size
                omega
              · rw [setSide_index]
              · rw [getSide_setSide_same]
                congr 1
                have hv : os.total_size - size =
                    os.total_size - o.size + (o.size - size) := by omega
                show (⟨os.total_size - size, os.queue.set i _⟩ : Orders) = _
                simp only [Orders.mk.injEq]
                exact ⟨hv, trivial⟩
              · intro s' hs'
                rw [getSide_setSide_ne _ _ hs']
              · rw [setSide_best_bid]
              · rw [setSide_best_ask]
            · rw [setSide_sequence]

@[simp]
theorem getSide_seqTimeIndex (b : OrderBook) (n : ℕ) (t : ℤ)
    (l : OMap ℕ (Side × ℤ)) (s : Side) :
    OrderBook.getSide { b with sequence := n, updated_at := t, index := l } s =
      b.getSide s := by
  cases s <;> rfl

theorem insert_fst_sequence (b : OrderBook) (s : Side) (p : ℤ) (o : Order) :
    (b.insert s p o).1.sequence = b.sequence := by
  rw [insert_eq]
  dsimp only
  repeat' split
  all_goals simp only [updateBestWith_sequence, setSide_sequence]

theorem insert_fst_updated_at (b : OrderBook) (s : Side) (p : ℤ) (o : Order) :
    (b.insert s p o).1.updated_at = b.updated_at := by
  rw [insert_eq]
  dsimp only
  repeat' split
  all_goals simp only [updateBestWith_updated_at, setSide_updated_at]

theorem update_with_change_preserves {b b' : OrderBook} {msg : Message}
    {pid seq oid : ℕ} {price size time2 : ℤ}
    (hInv : Inv b)
    (hwfm : msgWFb b (.Change pid seq oid price size time2) = true)
    (hok : b.update_with (.Change pid seq oid price size time2) = (b', .ok msg)) :
    Inv b' ∧ b'.sequence = u64Succ b.sequence := by
  have hsortedI : MSorted b.index := wf_index_sorted hInv.1
  simp only [OrderBook.update_with] at hok
  split at hok
  · obtain ⟨h1, h2⟩ := Prod.mk.inj hok
    cases h2
  · cases hfound : mfind? oid b.index with
    | none =>
      simp only [hfound] at hok
      obtain ⟨h1, h2⟩ := Prod.mk.inj hok
      subst h1
      exact ⟨inv_seqTime hInv _ _, rfl⟩
    | some sp =>
      obtain ⟨old_side, old_price⟩ := sp
      cases hlvq : mfind? old_price (b.getSide old_side) with
      | none =>
        simp only [hfound, getSide_seqTime, hlvq] at hok
        obtain ⟨h1, h2⟩ := Prod.mk.inj hok
        cases h2
      | some os =>
        cases hqf0 : queueFind oid os.queue with
        | none =>
          simp only [hfound, getSide_seqTime, hlvq, hqf0] at hok
          obtain ⟨h1, h2⟩ := Prod.mk.inj hok
          cases h2
        | some iw =>
          obtain ⟨old_index, old_size⟩ := iw
          obtain ⟨q₁, o, q₂, hq, hi, hoid, hsz, hnoq1, hget, herase, hset⟩ :=
            queueFind_spec hqf0
          have hmemlv : (old_price, os) ∈ b.getSide old_side := mfind?_eq_some_mem hlvq
          obtain ⟨hp0x, hpMx, hqnex, hsumx, htlex, hposx⟩ := wf_level hInv.1 hmemlv
          have hsum : os.total_size = sumSizes os.queue := hsumx
          have htle : os.total_size ≤ decMAX := htlex
          have hpos : ∀ x ∈ os.queue, 0 ≤ x.size := hposx
          have homem : o ∈ os.queue := by
            rw [hq]
            exact List.mem_append_right _ (List.mem_cons_self _ _)
          have hole : o.size ≤ os.total_size := by
            rw [hsum]
            exact size_le_sumSizes homem hpos
          have ho0 : 0 ≤ o.size := hpos o homem
          have htot0 : 0 ≤ os.total_size := by
            rw [hsum]
            exact sumSizes_nonneg hpos
          have hdM : (0 : ℤ) < decMAX := by decide
          have hsub : checkedSub os.total_size old_size =
              some (os.total_size - old_size) := by
            unfold checkedSub
            rw [if_pos]
            constructor
            · omega
            · omega
          simp only [msgWFb, hfound, Bool.and_eq_true, decide_eq_true_eq] at hwfm
          obtain ⟨⟨⟨⟨hp0, hpM⟩, hsz0⟩, hszM⟩, hcross⟩ := hwfm
          have hInv₁ : Inv { b with sequence := u64Succ b.sequence, updated_at := time2 } :=
            inv_seqTime hInv _ _
          have hfound₁ : mfind? oid
              (OrderBook.index
                { b with sequence := u64Succ b.sequence, updated_at := time2 }) =
              some (old_side, old_price) := hfound
          have hlvq₁ : mfind? old_price
              (OrderBook.getSide
                { b with sequence := u64Succ b.sequence, updated_at := time2 } old_side) =
              some os := hlvq
          simp only [hfound, getSide_seqTime, hlvq, hqf0] at hok
          by_cases hbr : old_price ≠ price ∨ old_size < size
          · -- the order is deleted and reinserted
            rw [if_pos hbr] at hok
            simp only [hfound, Option.isNone_some, Bool.false_eq_true, if_false,
              getSide_seqTime, getSide_seqTimeIndex, hlvq, hget, hsub,
              getSide_setSide_same, minsert_minsert_self] at hok
            by_cases hemp : os.queue.eraseIdx old_index = []
            · have hie : (os.queue.eraseIdx old_index).isEmpty = true := by
                rw [hemp]; rfl
              simp only [hie, eq_self_iff_true, if_true] at hok
              split at hok
              · obtain ⟨h1, h2⟩ := Prod.mk.inj hok
                cases h2
              · rename_i b₆ heq
                obtain ⟨h1, h2⟩ := Prod.mk.inj hok
                subst h1
                constructor
                · refine insert_preserves_inv
                    (erase_order_preserves_inv hInv₁ hfound₁ hlvq₁ hqf0 ?_ ?_
                      (Or.inr ⟨hemp, ?_, ?_, ?_⟩))
                    ?_ hp0 hpM hsz0 hszM ?_ heq
                  · rw [refreshBest_index, setSide_index, setSide_index, setSide_index]
                  · intro s' hs'
                    rw [refreshBest_getSide, getSide_setSide_ne _ _ hs',
                      getSide_setSide_ne _ _ hs', getSide_setSide_ne _ _ hs']
                    cases s' <;> rfl
                  · rw [refreshBest_getSide, getSide_setSide_same,
                      merase_minsert_self _ _ (wf_sorted hInv.1 old_side)]
                    cases old_side <;> rfl
                  · rw [refreshBest_getSide]
                    refine refreshBest_spec _ old_side ?_
                    rw [getSide_setSide_same,
                      merase_minsert_self _ _ (wf_sorted hInv.1 old_side)]
                    exact msorted_merase _ (wf_sorted hInv.1 old_side)
                  · intro s' hs'
                    rw [refreshBest_other _ hs', setSide_bestOf, setSide_bestOf,
                      setSide_bestOf]
                    cases s' <;> rfl
                  · rw [refreshBest_index, setSide_index, setSide_index, setSide_index]
                    exact mfind?_merase_self oid hsortedI
                  · cases old_side
                    · show price < _
                      exact of_decide_eq_true hcross
                    · show _ < price
                      exact of_decide_eq_true hcross
                · have h3 := congrArg Prod.fst heq
                  dsimp only at h3
                  rw [← h3, insert_fst_sequence, refreshBest_sequence, setSide_sequence,
                    setSide_sequence, setSide_sequence]
            · have hie : (os.queue.eraseIdx old_index).isEmpty = false := by
                cases hL : os.queue.eraseIdx old_index with
                | nil => exact absurd hL hemp
                | cons a t => rfl
              simp only [hie, Bool.false_eq_true, if_false] at hok
              split at hok
              · obtain ⟨h1, h2⟩ := Prod.mk.inj hok
                cases h2
              · rename_i b₆ heq
                obtain ⟨h1, h2⟩ := Prod.mk.inj hok
                subst h1
                constructor
                · refine insert_preserves_inv
                    (erase_order_preserves_inv hInv₁ hfound₁ hlvq₁ hqf0 ?_ ?_
                      (Or.inl ⟨hemp, ?_, ?_, ?_⟩))
                    ?_ hp0 hpM hsz0 hszM ?_ heq
                  · rw [setSide_index, setSide_index]
                  · intro s' hs'
                    rw [getSide_setSide_ne _ _ hs', getSide_setSide_ne _ _ hs']
                    cases s' <;> rfl
                  · rw [getSide_setSide_same]
                    cases old_side <;> rfl
                  · rw [setSide_best_bid, setSide_best_bid]
                  · rw [setSide_best_ask, setSide_best_ask]
                  · rw [setSide_index, setSide_index]
                    exact mfind?_merase_self oid hsortedI
                  · cases old_side
                    · show price < _
                      exact of_decide_eq_true hcross
                    · show _ < price
                      exact of_decide_eq_true hcross
                · have h3 := congrArg Prod.fst heq
                  dsimp only at h3
                  rw [← h3, insert_fst_sequence, setSide_sequence, setSide_sequence]
          · -- only the size decreases: in-place update
            rw [if_neg hbr] at hok
            push_neg at hbr
            obtain ⟨hpe, hsle⟩ := hbr
            have hadd : checkedAdd (os.total_size - old_size) size =
                some (os.total_size - old_size + size) := by
              unfold checkedAdd
              rw [if_pos]
              constructor
              · omega
              · omega
            simp only [getSide_seqTime, hlvq, hget, hsub, hadd] at hok
            obtain ⟨h1, h2⟩ := Prod.mk.inj hok
            subst h1
            constructor
            · refine replace_order_preserves_inv { o with size := size }
                  hInv₁ hfound₁ hlvq₁ hqf0 hoid hsz0 ?_ ?_ ?_ ?_ ?_ ?_
              · show size ≤ old_size
                exact hsle
              · rw [setSide_index]
              · rw [getSide_setSide_same]
                congr 1
              · intro s' hs'
                rw [getSide_setSide_ne _ _ hs']
              · rw [setSide_best_bid]
              · rw [setSide_best_ask]
            · rw [setSide_sequence]

/-- A single accepted, well-formed event preserves the invariant and advances
the sequence by exactly one (wrapping). -/
theorem update_with_preserves_inv {b : OrderBook} {m : LevelThreeMessage}
    {b' : OrderBook} {msg : Message} (hInv : Inv b) (hwfm : msgWFb b m = true)
    (hok : b.update_with m = (b', .ok msg)) :
    Inv b' ∧ b'.sequence = u64Succ b.sequence := by
  cases m with
  | Open pid seq oid side price size time => exact update_with_open_preserves hInv hwfm hok
  | Change pid seq oid price size time => exact update_with_change_preserves hInv hwfm hok
  | Match pid seq maker taker price size time =>
    exact update_with_match_preserves hInv hwfm hok
  | Noop pid seq time => exact update_with_noop_preserves hok hInv
  | Done pid seq oid time => exact update_with_done_preserves hInv hok

theorem chain_preserves_inv (es : List LevelThreeMessage) :
    ∀ b b' : OrderBook, Inv b → b.sequence < 2 ^ 64 → chainWF b es = true →
      applyChain b es = some b' →
      Inv b' ∧ b'.sequence = (b.sequence + es.length) % 2 ^ 64 := by
  induction es with
  | nil =>
    intro b b' hInv hlt hwf happ
    simp only [applyChain] at happ
    cases Option.some.inj happ
    refine ⟨hInv, ?_⟩
    simp only [List.length_nil, Nat.add_zero]
    exact (Nat.mod_eq_of_lt hlt).symm
  | cons m t ih =>
    intro b b' hInv hlt hwf happ
    simp only [chainWF, Bool.and_eq_true] at hwf
    obtain ⟨hwfm, hrest⟩ := hwf
    simp only [applyChain] at happ
    rcases hu : b.update_with m with ⟨b₂, r⟩
    cases r with
    | error e =>
      simp only [hu] at happ
      cases happ
    | ok msg2 =>
      simp only [hu] at hrest happ
      obtain ⟨hInv₂, hseq₂⟩ := update_with_preserves_inv hInv hwfm hu
      have hlt₂ : b₂.sequence < 2 ^ 64 := by
        rw [hseq₂]
        exact Nat.mod_lt _ (by norm_num)
      obtain ⟨hi1, hi2⟩ := ih b₂ b' hInv₂ hlt₂ hrest happ
      refine ⟨hi1, ?_⟩
      rw [hi2, hseq₂]
      simp only [u64Succ, List.length_cons]
      rw [Nat.mod_add_mod]
      congr 1
      omega

theorem inv_emptyBook (p : Product) (s0 : ℕ) (t0 : ℤ) : Inv (emptyBook p s0 t0) := by
  refine ⟨⟨?_, ?_, ?_, ?_⟩, ?_, ?_, ?_, ?_⟩
  · exact List.Pairwise.nil
  · exact List.Pairwise.nil
  · exact List.Pairwise.nil
  · intro s pv hpv
    cases s <;> cases hpv
  · intro e he
    cases he
  · intro s pv hpv
    cases s <;> cases hpv
  · exact ⟨rfl, rfl⟩
  · intro hb ha
    exact absurd rfl hb

/-! ## Round-trip of the compact projection -/

theorem minsert_append {κ ν : Type} [LinearOrder κ] {k : κ} (v : ν)
    {l : OMap κ ν} (h : ∀ k' ∈ mkeys l, k' < k) : minsert k v l = l ++ [(k, v)] := by
  induction l with
  | nil => rfl
  | cons hd t ih =>
    obtain ⟨q, w⟩ := hd
    have hq : q < k := h q (by simp [mkeys])
    rw [minsert_cons_gt hq, ih]
    · rfl
    · intro k' hk'
      exact h k' (by simp [mkeys] at hk' ⊢; exact Or.inr hk')

theorem pairwise_ids_of_count {q : List Order}
    (h : ∀ o ∈ q, countId o.id q = 1) :
    q.Pairwise (fun a b => a.id ≠ b.id) := by
  induction q with
  | nil => exact List.Pairwise.nil
  | cons o t ih =>
    have h1 : countId o.id (o :: t) = 1 := h o (List.mem_cons_self _ _)
    rw [countId_cons, if_pos rfl] at h1
    have h2 : countId o.id t = 0 := by omega
    have h3 : ∀ x ∈ t, x.id ≠ o.id := countId_eq_zero_iff.mp h2
    refine List.Pairwise.cons (fun x hx => fun hc => h3 x hx hc.symm) (ih ?_)
    intro x hx
    have h4 := h x (List.mem_cons_of_mem _ hx)
    rw [countId_cons] at h4
    have h5 : ¬ o.id = x.id := fun hc => h3 x hx hc.symm
    rw [if_neg h5] at h4
    omega

/-- The level price at which an id occurs in a compact side. -/
def findIdPrice (i : ℕ) : List (ℤ × List Order) → Option ℤ
  | [] => none
  | (price, q) :: t =>
    if (q.map Order.id).contains i then some price else findIdPrice i t

theorem orderBook_fields_eq {x y : OrderBook}
    (h1 : x.product = y.product) (h2 : x.best_ask = y.best_ask)
    (h3 : x.best_bid = y.best_bid) (h4 : x.asks = y.asks) (h5 : x.bids = y.bids)
    (h6 : x.sequence = y.sequence) (h7 : x.updated_at = y.updated_at)
    (h8 : x.index = y.index) : x = y := by
  cases x
  cases y
  simp_all

theorem bestOf_indexSet (b : OrderBook) (l : OMap ℕ (Side × ℤ)) (s : Side) :
    bestOf { b with index := l } s = bestOf b s := by
  cases s <;> rfl

theorem improves_self_false (s : Side) (p : ℤ) : improves s p p = false := by
  cases s <;> simp [improves]

/-- The inner rebuild loop: inserting a block of fresh, distinct orders into an
existing level at `price`. -/
theorem tryFromLevel_go {side : Side} {price : ℤ} :
    ∀ (q : List Order) (B : OrderBook) (t₀ : ℤ) (q₀ : List Order),
      MSorted B.index → MSorted (B.getSide side) →
      mfind? price (B.getSide side) = some ⟨t₀, q₀⟩ →
      (∀ o ∈ q, mfind? o.id B.index = none) →
      List.Pairwise (fun a b => a.id ≠ b.id) q →
      (∀ o ∈ q, 0 ≤ o.size) →
      0 ≤ t₀ → t₀ + sumSizes q ≤ decMAX →
      improves side price (bestOf B side) = false →
      ∃ B', tryFromLevel side price B q = (B', .ok ()) ∧
        B'.getSide side = minsert price ⟨t₀ + sumSizes q, q₀ ++ q⟩ (B.getSide side) ∧
        (∀ s', s' ≠ side → B'.getSide s' = B.getSide s') ∧
        B'.sequence = B.sequence ∧ B'.updated_at = B.updated_at ∧
        B'.product = B.product ∧ MSorted B'.index ∧
        (∀ i : ℕ, mfind? i B'.index =
          if (q.map Order.id).contains i then some (side, price)
          else mfind? i B.index) ∧
        (∀ s', bestOf B' s' = bestOf B s') := by
  intro q
  induction q with
  | nil =>
    intro B t₀ q₀ hsI hsS hlv hfresh hdis hpos ht0 hbound himp
    refine ⟨B, rfl, ?_, fun s' _ => rfl, rfl, rfl, rfl, hsI, ?_, fun s' => rfl⟩
    · have hv : (⟨t₀ + sumSizes [], q₀ ++ []⟩ : Orders) = ⟨t₀, q₀⟩ := by
        simp [sumSizes]
      rw [hv, minsert_mfind?_unchanged hsS hlv]
    · intro i
      simp [List.contains]
  | cons o t ih =>
    intro B t₀ q₀ hsI hsS hlv hfresh hdis hpos ht0 hbound himp
    have hofresh : mfind? o.id B.index = none := hfresh o (List.mem_cons_self _ _)
    have hsumt : 0 ≤ sumSizes t :=
      sumSizes_nonneg fun x hx => hpos x (List.mem_cons_of_mem _ hx)
    have ho0 : 0 ≤ o.size := hpos o (List.mem_cons_self _ _)
    have hst : sumSizes (o :: t) = o.size + sumSizes t := sumSizes_cons o t
    have hdM : (0 : ℤ) < decMAX := by decide
    have hca : checkedAdd t₀ o.size = some (t₀ + o.size) := by
      unfold checkedAdd
      rw [if_pos]
      constructor
      · omega
      · omega
    have hins : B.insert side price o =
        (updateBestWith
          (OrderBook.setSide { B with index := minsert o.id (side, price) B.index } side
            (minsert price ⟨t₀ + o.size, q₀ ++ [o]⟩ (B.getSide side)))
          side price, .ok ()) := by
      rw [insert_eq]
      simp only [hofresh, Option.isSome_none, Bool.false_eq_true, if_false,
        getSide_indexSet, hlv, Orders.insert, hca]
    -- step through the loop
    simp only [tryFromLevel, hins]
    obtain ⟨hpo, hpt⟩ := List.pairwise_cons.mp hdis
    have hB₁I : (updateBestWith
        (OrderBook.setSide { B with index := minsert o.id (side, price) B.index } side
          (minsert price ⟨t₀ + o.size, q₀ ++ [o]⟩ (B.getSide side)))
        side price).index = minsert o.id (side, price) B.index := by
      rw [updateBestWith_index, setSide_index]
    have hB₁S : (updateBestWith
        (OrderBook.setSide { B with index := minsert o.id (side, price) B.index } side
          (minsert price ⟨t₀ + o.size, q₀ ++ [o]⟩ (B.getSide side)))
        side price).getSide side =
        minsert price ⟨t₀ + o.size, q₀ ++ [o]⟩ (B.getSide side) := by
      rw [updateBestWith_getSide, getSide_setSide_same]
    have hB₁best : ∀ s', bestOf (updateBestWith
        (OrderBook.setSide { B with index := minsert o.id (side, price) B.index } side
          (minsert price ⟨t₀ + o.size, q₀ ++ [o]⟩ (B.getSide side)))
        side price) s' = bestOf B s' := by
      intro s'
      by_cases hs : s' = side
      · subst hs
        rw [updateBestWith_bestOf_same, setSide_bestOf, bestOf_indexSet]
        rw [if_neg]
        intro hc
        rw [himp] at hc
        cases hc
      · rw [updateBestWith_bestOf_ne _ _ hs, setSide_bestOf, bestOf_indexSet]
    obtain ⟨B', hrun, hS, hO, hseq, htime, hprod, hsI', hidx', hbest'⟩ :=
      ih (updateBestWith
        (OrderBook.setSide { B with index := minsert o.id (side, price) B.index } side
          (minsert price ⟨t₀ + o.size, q₀ ++ [o]⟩ (B.getSide side)))
        side price) (t₀ + o.size) (q₀ ++ [o])
        (by rw [hB₁I]; exact msorted_minsert _ _ hsI)
        (by rw [hB₁S]; exact msorted_minsert _ _ hsS)
        (by rw [hB₁S]; exact mfind?_minsert_self _ _ _)
        (by
          intro x hx
          rw [hB₁I, mfind?_minsert_ne _ _ (hpo x hx).symm]
          exact hfresh x (List.mem_cons_of_mem _ hx))
        hpt
        (fun x hx => hpos x (List.mem_cons_of_mem _ hx))
        (by omega)
        (by omega)
        (by rw [hB₁best side]; exact himp)
    refine ⟨B', hrun, ?_, ?_, ?_, ?_, ?_, hsI', ?_, ?_⟩
    · rw [hS, hB₁S, minsert_minsert_self]
      have hv : (⟨t₀ + o.size + sumSizes t, (q₀ ++ [o]) ++ t⟩ : Orders) =
          ⟨t₀ + sumSizes (o :: t), q₀ ++ o :: t⟩ := by
        simp only [Orders.mk.injEq, List.append_assoc, List.singleton_append]
        constructor
        · omega
        · trivial
      rw [hv]
    · intro s' hs'
      rw [hO s' hs', updateBestWith_getSide, getSide_setSide_ne _ _ hs', getSide_indexSet]
    · rw [hseq, updateBestWith_sequence, setSide_sequence]
    · rw [htime, updateBestWith_updated_at, setSide_updated_at]
    · rw [hprod, updateBestWith_product, setSide_product]
    · intro i
      rw [hidx' i, hB₁I, List.map_cons, List.contains_cons]
      by_cases hio : i = o.id
      · subst hio
        simp [mfind?_minsert_self]
      · rw [mfind?_minsert_ne _ _ hio]
        simp [hio]
    · intro s'
      rw [hbest' s', hB₁best s']

/-- Rebuilding one fresh level from a non-empty queue. -/
theorem tryFromLevel_ok {side : Side} {price : ℤ} (B : OrderBook)
    (o₁ : Order) (t : List Order)
    (hsI : MSorted B.index) (hsS : MSorted (B.getSide side))
    (hnone : mfind? price (B.getSide side) = none)
    (hfresh : ∀ o ∈ o₁ :: t, mfind? o.id B.index = none)
    (hdis : List.Pairwise (fun a b => a.id ≠ b.id) (o₁ :: t))
    (hpos : ∀ o ∈ o₁ :: t, 0 ≤ o.size)
    (hbound : sumSizes (o₁ :: t) ≤ decMAX) :
    ∃ B', tryFromLevel side price B (o₁ :: t) = (B', .ok ()) ∧
      B'.getSide side =
        minsert price ⟨sumSizes (o₁ :: t), o₁ :: t⟩ (B.getSide side) ∧
      (∀ s', s' ≠ side → B'.getSide s' = B.getSide s') ∧
      B'.sequence = B.sequence ∧ B'.updated_at = B.updated_at ∧
      B'.product = B.product ∧ MSorted B'.index ∧
      (∀ i : ℕ, mfind? i B'.index =
        if ((o₁ :: t).map Order.id).contains i then some (side, price)
        else mfind? i B.index) ∧
      bestOf B' side =
        (if improves side price (bestOf B side) then price else bestOf B side) ∧
      (∀ s', s' ≠ side → bestOf B' s' = bestOf B s') := by
  have hofresh := hfresh o₁ (List.mem_cons_self _ _)
  have hsumt : 0 ≤ sumSizes t :=
    sumSizes_nonneg fun x hx => hpos x (List.mem_cons_of_mem _ hx)
  have ho0 : 0 ≤ o₁.size := hpos o₁ (List.mem_cons_self _ _)
  have hst : sumSizes (o₁ :: t) = o₁.size + sumSizes t := sumSizes_cons o₁ t
  have hins : B.insert side price o₁ =
      (updateBestWith
        (OrderBook.setSide { B with index := minsert o₁.id (side, price) B.index } side
          (minsert price (Orders.ofOrder o₁) (B.getSide side)))
        side price, .ok ()) := by
    rw [insert_eq]
    simp only [hofresh, Option.isSome_none, Bool.false_eq_true, if_false,
      getSide_indexSet, hnone]
  simp only [tryFromLevel, hins]
  obtain ⟨hpo, hpt⟩ := List.pairwise_cons.mp hdis
  have hB₁I : (updateBestWith
      (OrderBook.setSide { B with index := minsert o₁.id (side, price) B.index } side
        (minsert price (Orders.ofOrder o₁) (B.getSide side)))
      side price).index = minsert o₁.id (side, price) B.index := by
    rw [updateBestWith_index, setSide_index]
  have hB₁S : (updateBestWith
      (OrderBook.setSide { B with index := minsert o₁.id (side, price) B.index } side
        (minsert price (Orders.ofOrder o₁) (B.getSide side)))
      side price).getSide side =
      minsert price (Orders.ofOrder o₁) (B.getSide side) := by
    rw [updateBestWith_getSide, getSide_setSide_same]
  have hB₁best : bestOf (updateBestWith
      (OrderBook.setSide { B with index := minsert o₁.id (side, price) B.index } side
        (minsert price (Orders.ofOrder o₁) (B.getSide side)))
      side price) side =
      (if improves side price (bestOf B side) then price else bestOf B side) := by
    rw [updateBestWith_bestOf_same, setSide_bestOf, bestOf_indexSet]
  have hB₁bestO : ∀ s', s' ≠ side → bestOf (updateBestWith
      (OrderBook.setSide { B with index := minsert o₁.id (side, price) B.index } side
        (minsert price (Orders.ofOrder o₁) (B.getSide side)))
      side price) s' = bestOf B s' := by
    intro s' hs'
    rw [updateBestWith_bestOf_ne _ _ hs', setSide_bestOf, bestOf_indexSet]
  obtain ⟨B', hrun, hS, hO, hseq, htime, hprod, hsI', hidx', hbest'⟩ :=
    tryFromLevel_go t (updateBestWith
      (OrderBook.setSide { B with index := minsert o₁.id (side, price) B.index } side
        (minsert price (Orders.ofOrder o₁) (B.getSide side)))
      side price) o₁.size [o₁]
      (by rw [hB₁I]; exact msorted_minsert _ _ hsI)
      (by rw [hB₁S]; exact msorted_minsert _ _ hsS)
      (by rw [hB₁S]; exact mfind?_minsert_self _ _ _)
      (by
        intro x hx
        rw [hB₁I, mfind?_minsert_ne _ _ (hpo x hx).symm]
        exact hfresh x (List.mem_cons_of_mem _ hx))
      hpt
      (fun x hx => hpos x (List.mem_cons_of_mem _ hx))
      ho0
      (by omega)
      (by
        rw [hB₁best]
        by_cases himp2 : improves side price (bestOf B side) = true
        · rw [if_pos himp2]
          exact improves_self_false side price
        · rw [if_neg himp2]
          exact Bool.not_eq_true _ ▸ himp2)
  refine ⟨B', hrun, ?_, ?_, ?_, ?_, ?_, hsI', ?_, ?_, ?_⟩
  · rw [hS, hB₁S, minsert_minsert_self]
    have hv : (⟨o₁.size + sumSizes t, [o₁] ++ t⟩ : Orders) =
        ⟨sumSizes (o₁ :: t), o₁ :: t⟩ := by
      simp only [Orders.mk.injEq, List.singleton_append]
      constructor
      · omega
      · trivial
    rw [hv]
  · intro s' hs'
    rw [hO s' hs', updateBestWith_getSide, getSide_setSide_ne _ _ hs', getSide_indexSet]
  · rw [hseq, updateBestWith_sequence, setSide_sequence]
  · rw [htime, updateBestWith_updated_at, setSide_updated_at]
  · rw [hprod, updateBestWith_product, setSide_product]
  · intro i
    rw [hidx' i, hB₁I, List.map_cons, List.contains_cons]
    by_cases hio : i = o₁.id
    · subst hio
      simp [mfind?_minsert_self]
    · rw [mfind?_minsert_ne _ _ hio]
      simp [hio]
  · rw [hbest' side, hB₁best]
  · intro s' hs'
    rw [hbest' s', hB₁bestO s' hs']

theorem findIdPrice_eq_none {i : ℕ} {L : List (ℤ × List Order)}
    (h : ∀ pq ∈ L, ∀ o ∈ pq.2, o.id ≠ i) : findIdPrice i L = none := by
  induction L with
  | nil => rfl
  | cons pq T ih =>
    obtain ⟨price, q⟩ := pq
    simp only [findIdPrice]
    rw [if_neg, ih]
    · intro pq' hpq' o ho
      exact h pq' (List.mem_cons_of_mem _ hpq') o ho
    · intro hc
      simp only [List.contains_iff_exists_mem_beq] at hc
      obtain ⟨a, ha, hab⟩ := hc
      obtain ⟨o, ho, rfl⟩ := List.mem_map.mp ha
      have hio : i = o.id := eq_of_beq hab
      exact h (price, q) (List.mem_cons_self _ _) o ho hio.symm

/-- The per-side rebuild loop: inserting a block of fresh levels with strictly
ascending prices above all existing keys. -/
theorem tryFromSide_ok (side : Side) :
    ∀ (L : List (ℤ × List Order)) (B : OrderBook),
      MSorted B.index → MSorted (B.getSide side) →
      List.Pairwise (fun a b => a.1 < b.1) L →
      (∀ pq ∈ L, ∀ k ∈ mkeys (B.getSide side), k < pq.1) →
      (∀ pq ∈ L, 0 < pq.1 ∧ pq.1 < decMAX) →
      (∀ pq ∈ L, pq.2 ≠ [] ∧ (∀ o ∈ pq.2, 0 ≤ o.size) ∧ sumSizes pq.2 ≤ decMAX) →
      (∀ pq ∈ L, ∀ o ∈ pq.2, mfind? o.id B.index = none) →
      (∀ pq ∈ L, List.Pairwise (fun a b => a.id ≠ b.id) pq.2) →
      List.Pairwise (fun a b => ∀ x ∈ a.2, ∀ y ∈ b.2, x.id ≠ y.id) L →
      bestOf B side = (bestKey? side (B.getSide side)).getD (bestFallback side) →
      ∃ B', tryFromSide side B L = .ok B' ∧
        B'.getSide side =
          B.getSide side ++ L.map (fun pq => (pq.1, ⟨sumSizes pq.2, pq.2⟩)) ∧
        (∀ s', s' ≠ side → B'.getSide s' = B.getSide s') ∧
        B'.sequence = B.sequence ∧ B'.updated_at = B.updated_at ∧
        B'.product = B.product ∧ MSorted B'.index ∧
        (∀ i : ℕ, mfind? i B'.index =
          (match findIdPrice i L with
           | some p => some (side, p)
           | none => mfind? i B.index)) ∧
        bestOf B' side = (bestKey? side (B'.getSide side)).getD (bestFallback side) ∧
        (∀ s', s' ≠ side → bestOf B' s' = bestOf B s') := by
  intro L
  induction L with
  | nil =>
    intro B hsI hsS hLs hgt hpb hlv hfr hdq hdL hbp
    exact ⟨B, rfl, by simp, fun s' _ => rfl, rfl, rfl, rfl, hsI,
      fun i => rfl, hbp, fun s' _ => rfl⟩
  | cons pq T ih =>
    intro B hsI hsS hLs hgt hpb hlv hfr hdq hdL hbp
    obtain ⟨price, q⟩ := pq
    obtain ⟨hqne, hqpos, hqbound⟩ := hlv (price, q) (List.mem_cons_self _ _)
    obtain ⟨hp0, hpM⟩ := hpb (price, q) (List.mem_cons_self _ _)
    cases hq : q with
    | nil => exact absurd hq hqne
    | cons o₁ t =>
      subst hq
      have hnone : mfind? price (B.getSide side) = none := by
        cases hm : mfind? price (B.getSide side) with
        | none => rfl
        | some os =>
          have hmem : price ∈ mkeys (B.getSide side) :=
            List.mem_map_of_mem Prod.fst (mfind?_eq_some_mem hm)
          exact absurd (hgt (price, o₁ :: t) (List.mem_cons_self _ _) price hmem)
            (lt_irrefl price)
      obtain ⟨B₁, hrun1, hS1, hO1, hseq1, htime1, hprod1, hsI1, hidx1, hbest1,
          hbestO1⟩ :=
        tryFromLevel_ok B o₁ t hsI hsS hnone
          (hfr (price, o₁ :: t) (List.mem_cons_self _ _))
          (hdq (price, o₁ :: t) (List.mem_cons_self _ _)) hqpos hqbound
      simp only [tryFromSide, hrun1]
      obtain ⟨hdLhead, hdLtail⟩ := List.pairwise_cons.mp hdL
      obtain ⟨hLhead, hLtail⟩ := List.pairwise_cons.mp hLs
      have hbp1 : bestOf B₁ side =
          (bestKey? side (B₁.getSide side)).getD (bestFallback side) := by
        rw [hbest1, hS1, bestKey?_minsert]
        cases hbk : bestKey? side (B.getSide side) with
        | none =>
          have hnil : B.getSide side = [] := bestKey?_eq_none_iff.mp hbk
          rw [hbk] at hbp
          cases side
          · simp only [bestKey?] at hbk ⊢
            rw [hnil] at hbk ⊢
            simp only [maxKey?, Option.getD_none, Option.getD_some]
            rw [hbp]
            simp only [bestFallback, improves]
            simp [hp0]
          · simp only [bestKey?] at hbk ⊢
            rw [hnil] at hbk ⊢
            simp only [minKey?, Option.getD_none, Option.getD_some]
            rw [hbp]
            simp only [bestFallback, improves]
            simp [hpM]
        | some m =>
          rw [hbk] at hbp
          simp only [Option.getD_some] at hbp
          have hmlt : m < price := by
            have hmm : m ∈ mkeys (B.getSide side) := by
              cases side
              · exact maxKey?_mem hbk
              · exact minKey?_mem hbk
            exact hgt (price, o₁ :: t) (List.mem_cons_self _ _) m hmm
          cases side
          · simp only [bestKey?] at hbk ⊢
            rw [hbk]
            simp only [Option.getD_some]
            rw [hbp]
            simp only [improves]
            simp [hmlt, max_eq_left (le_of_lt hmlt)]
          · simp only [bestKey?] at hbk ⊢
            rw [hbk]
            simp only [Option.getD_some]
            rw [hbp]
            simp only [improves]
            simp [not_lt.mpr (le_of_lt hmlt), min_eq_right (le_of_lt hmlt)]
      obtain ⟨B₂, hrun2, hS2, hO2, hseq2, htime2, hprod2, hsI2, hidx2, hbest2,
          hbestO2⟩ :=
        ih B₁ hsI1 (by rw [hS1]; exact msorted_minsert _ _ hsS) hLtail
          (by
            intro pq' hpq' k hk
            rw [hS1] at hk
            rcases mem_mkeys_minsert.mp hk with rfl | hk
            · exact hLhead pq' hpq'
            · exact hgt pq' (List.mem_cons_of_mem _ hpq') k hk)
          (fun pq' hpq' => hpb pq' (List.mem_cons_of_mem _ hpq'))
          (fun pq' hpq' => hlv pq' (List.mem_cons_of_mem _ hpq'))
          (by
            intro pq' hpq' o ho
            rw [hidx1 o.id]
            rw [if_neg, ]
            · exact hfr pq' (List.mem_cons_of_mem _ hpq') o ho
            · intro hc
              simp only [List.contains_iff_exists_mem_beq] at hc
              obtain ⟨a, ha, hab⟩ := hc
              obtain ⟨x, hx, rfl⟩ := List.mem_map.mp ha
              have hxo : o.id = x.id := eq_of_beq hab
              exact hdLhead pq' hpq' x hx o ho hxo.symm )
          (fun pq' hpq' => hdq pq' (List.mem_cons_of_mem _ hpq'))
          hdLtail hbp1
      refine ⟨B₂, hrun2, ?_, ?_, ?_, ?_, ?_, hsI2, ?_, hbest2, ?_⟩
      · rw [hS2, hS1, minsert_append _ (fun k hk =>
          hgt (price, o₁ :: t) (List.mem_cons_self _ _) k hk)]
        simp only [List.map_cons, List.append_assoc, List.singleton_append]
      · intro s' hs'
        rw [hO2 s' hs', hO1 s' hs']
      · rw [hseq2, hseq1]
      · rw [htime2, htime1]
      · rw [hprod2, hprod1]
      · intro i
        rw [hidx2 i]
        simp only [findIdPrice]
        by_cases hiq : (((o₁ :: t).map Order.id).contains i) = true
        · rw [if_pos hiq]
          have hnoneT : findIdPrice i T = none := by
            refine findIdPrice_eq_none ?_
            intro pq' hpq' o ho hoi
            simp only [List.contains_iff_exists_mem_beq] at hiq
            obtain ⟨a, ha, hab⟩ := hiq
            obtain ⟨x, hx, rfl⟩ := List.mem_map.mp ha
            have hxi : i = x.id := eq_of_beq hab
            exact hdLhead pq' hpq' x hx o ho (hxi.symm.trans hoi.symm)
          rw [hnoneT]
          rw [hidx1 i, if_pos hiq]
        · rw [if_neg hiq]
          cases hf : findIdPrice i T with
          | none =>
            rw [hidx1 i, if_neg hiq]
          | some p => rfl
      · intro s' hs'
        rw [hbestO2 s' hs', hbestO1 s' hs']

theorem findIdPrice_some_mem {i : ℕ} {L : List (ℤ × List Order)} {p : ℤ}
    (h : findIdPrice i L = some p) : ∃ q, (p, q) ∈ L ∧ ∃ o ∈ q, o.id = i := by
  induction L with
  | nil => cases h
  | cons pq T ih =>
    obtain ⟨price, q⟩ := pq
    simp only [findIdPrice] at h
    split at h
    case isTrue hc =>
      cases Option.some.inj h
      refine ⟨q, List.mem_cons_self _ _, ?_⟩
      simp only [List.contains_iff_exists_mem_beq] at hc
      obtain ⟨a, ha, hab⟩ := hc
      obtain ⟨o, ho, rfl⟩ := List.mem_map.mp ha
      exact ⟨o, ho, (eq_of_beq hab).symm⟩
    case isFalse hc =>
      obtain ⟨q', hq', ho⟩ := ih h
      exact ⟨q', List.mem_cons_of_mem _ hq', ho⟩

/-- Under the invariant, an order id fixes its side and price level. -/
theorem inv_id_unique {b : OrderBook} (hInv : Inv b) :
    ∀ s : Side, ∀ pv ∈ b.getSide s, ∀ o ∈ pv.2.queue,
      ∀ s' : Side, ∀ pv' ∈ b.getSide s', ∀ o' ∈ pv'.2.queue,
        o.id = o'.id → s = s' ∧ pv.1 = pv'.1 := by
  intro s pv hpv o ho s' pv' hpv' o' ho' hid
  have h1 := hInv.2.2.1 s pv hpv o ho
  have h2 := hInv.2.2.1 s' pv' hpv' o' ho'
  rw [← hid] at h2
  rw [h1] at h2
  obtain ⟨h3, h4⟩ := Prod.mk.inj (Option.some.inj h2)
  exact ⟨h3, h4⟩

/-- Under the invariant, each level queue holds each of its ids exactly once. -/
theorem inv_level_count {b : OrderBook} (hInv : Inv b) :
    ∀ s : Side, ∀ pv ∈ b.getSide s, ∀ o ∈ pv.2.queue,
      countId o.id pv.2.queue = 1 := by
  intro s pv hpv o ho
  have h1 := hInv.2.2.1 s pv hpv o ho
  obtain ⟨os₀, hos₀, hcnt₀⟩ := hInv.2.1 (o.id, (s, pv.1)) (mfind?_eq_some_mem h1)
  have hfind : mfind? pv.1 (b.getSide s) = some pv.2 :=
    mem_mfind?_sorted (wf_sorted hInv.1 s) (by simpa using hpv)
  have hos : mfind? pv.1 (b.getSide s) = some os₀ := hos₀
  rw [hfind] at hos
  cases Option.some.inj hos
  exact hcnt₀

theorem findIdPrice_eq_some_of {i : ℕ} {L : List (ℤ × List Order)} {p : ℤ}
    {q : List Order}
    (hd : List.Pairwise (fun a b => ∀ x ∈ a.2, ∀ y ∈ b.2, x.id ≠ y.id) L)
    (hmem : (p, q) ∈ L) {o : Order} (ho : o ∈ q) (hoid : o.id = i) :
    findIdPrice i L = some p := by
  induction L with
  | nil => cases hmem
  | cons pq T ih =>
    obtain ⟨p₀, q₀⟩ := pq
    obtain ⟨hdh, hdt⟩ := List.pairwise_cons.mp hd
    simp only [findIdPrice]
    rcases List.mem_cons.mp hmem with heq | hmem'
    · obtain ⟨he1, he2⟩ := Prod.mk.inj heq.symm
      subst he1
      subst he2
      rw [if_pos]
      simp only [List.contains_iff_exists_mem_beq]
      exact ⟨o.id, List.mem_map_of_mem Order.id ho, by rw [hoid]; exact beq_self_eq_true i⟩
    · rw [if_neg, ih hdt hmem']
      intro hc
      simp only [List.contains_iff_exists_mem_beq] at hc
      obtain ⟨a, ha, hab⟩ := hc
      obtain ⟨x, hx, rfl⟩ := List.mem_map.mp ha
      have hxi : i = x.id := eq_of_beq hab
      exact hdh (p, q) hmem' x hx o ho (by rw [hxi.symm, hoid])

/-- Round trip: rebuilding a coherent book from its compact projection is the
identity. -/
theorem try_from_to_compact_id (b : OrderBook) (hInv : Inv b) :
    OrderBook.try_from b.to_compact = .ok b := by
  have hwf : WellFormedBook b := hInv.1
  have hbpB : BestPrices b := hInv.2.2.2.1
  have hLmem : ∀ (s : Side) (pq : ℤ × List Order),
      pq ∈ (b.getSide s).map (fun pv => (pv.1, pv.2.queue)) →
      ∃ pv ∈ b.getSide s, pq = (pv.1, pv.2.queue) := by
    intro s pq hpq
    obtain ⟨pv, hpv, rfl⟩ := List.mem_map.mp hpq
    exact ⟨pv, hpv, rfl⟩
  have hLsorted : ∀ s : Side, List.Pairwise (fun a b => a.1 < b.1)
      ((b.getSide s).map fun pv => (pv.1, pv.2.queue)) := by
    intro s
    have h1 : List.Pairwise (· < ·) (List.map Prod.fst (b.getSide s)) := wf_sorted hwf s
    rw [List.pairwise_map] at h1
    rw [List.pairwise_map]
    exact h1
  have hplv : ∀ s : Side, ∀ pq ∈ (b.getSide s).map (fun pv => (pv.1, pv.2.queue)),
      (0 < pq.1 ∧ pq.1 < decMAX) ∧ pq.2 ≠ [] ∧ (∀ o ∈ pq.2, 0 ≤ o.size) ∧
        sumSizes pq.2 ≤ decMAX := by
    intro s pq hpq
    obtain ⟨pv, hpv, rfl⟩ := hLmem s _ hpq
    obtain ⟨h1, h2, h3, h4, h5, h6⟩ := wf_level hwf hpv
    refine ⟨⟨h1, h2⟩, h3, h6, ?_⟩
    have h4' : pv.2.total_size = sumSizes pv.2.queue := h4
    have h5' : pv.2.total_size ≤ decMAX := h5
    show sumSizes pv.2.queue ≤ decMAX
    omega
  have hdq : ∀ s : Side, ∀ pq ∈ (b.getSide s).map (fun pv => (pv.1, pv.2.queue)),
      List.Pairwise (fun a b => a.id ≠ b.id) pq.2 := by
    intro s pq hpq
    obtain ⟨pv, hpv, rfl⟩ := hLmem s _ hpq
    exact pairwise_ids_of_count fun o ho => inv_level_count hInv s pv hpv o ho
  have hdL : ∀ s : Side, List.Pairwise
      (fun a b => ∀ x ∈ a.2, ∀ y ∈ b.2, x.id ≠ y.id)
      ((b.getSide s).map fun pv => (pv.1, pv.2.queue)) := by
    intro s
    have h1 : List.Pairwise (fun a b : ℤ × Orders => a.1 < b.1) (b.getSide s) := by
      have h2 : List.Pairwise (· < ·) (List.map Prod.fst (b.getSide s)) := wf_sorted hwf s
      rw [List.pairwise_map] at h2
      exact h2
    rw [List.pairwise_map]
    refine h1.imp_of_mem ?_
    intro a c ha hc hlt x hx y hy hxy
    obtain ⟨-, hp⟩ := inv_id_unique hInv s a ha x hx s c hc y hy hxy
    exact absurd (hp ▸ hlt) (lt_irrefl _)
  obtain ⟨B₁, hrun1, hS1, hO1, hseq1, htime1, hprod1, hsI1, hidx1, hbest1, hbestO1⟩ :=
    tryFromSide_ok .sell ((b.asks).map fun pv => (pv.1, pv.2.queue))
      { product := b.product, best_ask := decMAX, best_bid := 0, asks := [], bids := [], sequence := b.sequence, updated_at := b.updated_at, index := [] }
      List.Pairwise.nil List.Pairwise.nil (hLsorted .sell)
      (fun pq _ k hk => absurd hk (List.not_mem_nil k))
      (fun pq hpq => (hplv .sell pq hpq).1)
      (fun pq hpq => (hplv .sell pq hpq).2)
      (fun pq _ o _ => rfl)
      (hdq .sell) (hdL .sell) rfl
  obtain ⟨B₂, hrun2, hS2, hO2, hseq2, htime2, hprod2, hsI2, hidx2, hbest2, hbestO2⟩ :=
    tryFromSide_ok .buy ((b.bids).map fun pv => (pv.1, pv.2.queue)) B₁
      hsI1
      (by
        rw [hO1 .buy (by decide)]
        exact List.Pairwise.nil)
      (hLsorted .buy)
      (by
        intro pq _ k hk
        rw [hO1 .buy (by decide)] at hk
        exact absurd hk (List.not_mem_nil k))
      (fun pq hpq => (hplv .buy pq hpq).1)
      (fun pq hpq => (hplv .buy pq hpq).2)
      (by
        intro pq hpq o ho
        rw [hidx1 o.id]
        cases hf : findIdPrice o.id ((b.asks).map fun pv => (pv.1, pv.2.queue)) with
        | none => rfl
        | some p =>
          exfalso
          obtain ⟨q', hq', x, hx, hxid⟩ := findIdPrice_some_mem hf
          obtain ⟨pv', hpv', heq'⟩ := hLmem .sell (p, q') hq'
          obtain ⟨pv, hpv, heq⟩ := hLmem .buy pq hpq
          obtain ⟨-, he2⟩ := Prod.mk.inj heq'
          obtain ⟨-, he4⟩ := Prod.mk.inj heq
          have hx' : x ∈ pv'.2.queue := by rw [← he2]; exact hx
          have ho' : o ∈ pv.2.queue := by
            rw [he4] at ho
            exact ho
          obtain ⟨hside, -⟩ :=
            inv_id_unique hInv .sell pv' hpv' x hx' .buy pv hpv o ho' (by rw [hxid])
          cases hside)
      (hdq .buy) (hdL .buy)
      (by
        rw [hbestO1 .buy (by decide), hO1 .buy (by decide)]
        rfl)
  -- the rebuilt sides coincide with the original ones
  have hsideId : ∀ s : Side,
      ((b.getSide s).map fun pv => (pv.1, pv.2.queue)).map
        (fun pq => (pq.1, (⟨sumSizes pq.2, pq.2⟩ : Orders))) = b.getSide s := by
    intro s
    rw [List.map_map]
    refine (List.map_congr_left ?_).trans (List.map_id _)
    intro pv hpv
    obtain ⟨p, os⟩ := pv
    obtain ⟨tot, qq⟩ := os
    have h4 : tot = sumSizes qq := (wf_level hwf hpv).2.2.2.1
    show (p, (⟨sumSizes qq, qq⟩ : Orders)) = (p, ⟨tot, qq⟩)
    rw [h4]
  have hA1 : B₁.getSide .sell = b.asks := by
    rw [hS1]
    have h5 : (b.asks.map fun pv => (pv.1, pv.2.queue)).map
        (fun pq => (pq.1, (⟨sumSizes pq.2, pq.2⟩ : Orders))) = b.asks := hsideId .sell
    calc _ = ([] : OMap ℤ Orders) ++
        ((b.asks.map fun pv => (pv.1, pv.2.queue)).map
          fun pq => (pq.1, (⟨sumSizes pq.2, pq.2⟩ : Orders))) := rfl
    _ = (b.asks.map fun pv => (pv.1, pv.2.queue)).map
        (fun pq => (pq.1, (⟨sumSizes pq.2, pq.2⟩ : Orders))) := List.nil_append _
    _ = b.asks := h5
  have hB2buy : B₂.getSide .buy = b.bids := by
    rw [hS2]
    have h5 : (b.bids.map fun pv => (pv.1, pv.2.queue)).map
        (fun pq => (pq.1, (⟨sumSizes pq.2, pq.2⟩ : Orders))) = b.bids := hsideId .buy
    calc _ = (B₁.getSide .buy) ++
        ((b.bids.map fun pv => (pv.1, pv.2.queue)).map
          fun pq => (pq.1, (⟨sumSizes pq.2, pq.2⟩ : Orders))) := rfl
    _ = ([] : OMap ℤ Orders) ++
        ((b.bids.map fun pv => (pv.1, pv.2.queue)).map
          fun pq => (pq.1, (⟨sumSizes pq.2, pq.2⟩ : Orders))) := by
        rw [hO1 .buy (by decide)]
        rfl
    _ = (b.bids.map fun pv => (pv.1, pv.2.queue)).map
        (fun pq => (pq.1, (⟨sumSizes pq.2, pq.2⟩ : Orders))) := List.nil_append _
    _ = b.bids := h5
  have hB2sell : B₂.getSide .sell = b.asks := by
    rw [hO2 .sell (by decide)]
    exact hA1
  -- the rebuilt index coincides with the original one
  have hIdx : B₂.index = b.index := by
    refine mext hsI2 (wf_index_sorted hwf) ?_
    intro i
    rw [hidx2 i]
    cases hfb : findIdPrice i ((b.bids).map fun pv => (pv.1, pv.2.queue)) with
    | some p =>
      obtain ⟨q', hq', o, ho, hoid⟩ := findIdPrice_some_mem hfb
      obtain ⟨pv, hpv, heq⟩ := hLmem .buy (p, q') hq'
      obtain ⟨he1, he2⟩ := Prod.mk.inj heq
      have ho' : o ∈ pv.2.queue := by rw [← he2]; exact ho
      have h6 := hInv.2.2.1 .buy pv hpv o ho'
      rw [hoid] at h6
      rw [h6, he1]
    | none =>
      rw [hidx1 i]
      cases hfa : findIdPrice i ((b.asks).map fun pv => (pv.1, pv.2.queue)) with
      | some p =>
        obtain ⟨q', hq', o, ho, hoid⟩ := findIdPrice_some_mem hfa
        obtain ⟨pv, hpv, heq⟩ := hLmem .sell (p, q') hq'
        obtain ⟨he1, he2⟩ := Prod.mk.inj heq
        have ho' : o ∈ pv.2.queue := by rw [← he2]; exact ho
        have h6 := hInv.2.2.1 .sell pv hpv o ho'
        rw [hoid] at h6
        rw [h6, he1]
      | none =>
        cases hmf : mfind? i b.index with
        | none => rfl
        | some sp =>
          exfalso
          obtain ⟨s, pp⟩ := sp
          obtain ⟨os₀, hos₀, hcnt₀⟩ := hInv.2.1 (i, (s, pp)) (mfind?_eq_some_mem hmf)
          have hos₀' : mfind? pp (b.getSide s) = some os₀ := hos₀
          have hcnt₀' : countId i os₀.queue = 1 := hcnt₀
          have hex : ∃ o ∈ os₀.queue, o.id = i := by
            by_contra hno
            push_neg at hno
            have h0 := countId_eq_zero_iff.mpr hno
            omega
          obtain ⟨o, ho, hoid⟩ := hex
          have hmm : (pp, os₀.queue) ∈ (b.getSide s).map
              (fun pv => (pv.1, pv.2.queue)) := by
            have := mfind?_eq_some_mem hos₀'
            exact List.mem_map.mpr ⟨(pp, os₀), this, rfl⟩
          cases s
          · have hmm' : (pp, os₀.queue) ∈ b.bids.map (fun pv => (pv.1, pv.2.queue)) := hmm
            have hdL' : List.Pairwise
                (fun a b => ∀ x ∈ a.2, ∀ y ∈ b.2, x.id ≠ y.id)
                (b.bids.map fun pv => (pv.1, pv.2.queue)) := hdL .buy
            rw [findIdPrice_eq_some_of hdL' hmm' ho hoid] at hfb
            cases hfb
          · have hmm' : (pp, os₀.queue) ∈ b.asks.map (fun pv => (pv.1, pv.2.queue)) := hmm
            have hdL' : List.Pairwise
                (fun a b => ∀ x ∈ a.2, ∀ y ∈ b.2, x.id ≠ y.id)
                (b.asks.map fun pv => (pv.1, pv.2.queue)) := hdL .sell
            rw [findIdPrice_eq_some_of hdL' hmm' ho hoid] at hfa
            cases hfa
  -- best prices
  have hAsk : B₂.best_ask = b.best_ask := by
    have e1 : bestOf B₂ .sell = bestOf B₁ .sell := hbestO2 .sell (by decide)
    have e2 : bestOf B₁ .sell =
        (bestKey? .sell (B₁.getSide .sell)).getD (bestFallback .sell) := hbest1
    have e3 : B₂.best_ask =
        (bestKey? .sell b.asks).getD (bestFallback .sell) := by
      rw [← hA1]
      exact e1.trans e2
    rw [e3, hbpB.2]
    rfl
  have hBid : B₂.best_bid = b.best_bid := by
    have e2 : bestOf B₂ .buy =
        (bestKey? .buy (B₂.getSide .buy)).getD (bestFallback .buy) := hbest2
    have e3 : B₂.best_bid = (bestKey? .buy b.bids).getD (bestFallback .buy) := by
      rw [← hB2buy]
      exact e2
    rw [e3, hbpB.1]
    rfl
  -- assemble
  have hfinal : B₂ = b := by
    refine orderBook_fields_eq ?_ hAsk hBid hB2sell hB2buy ?_ ?_ hIdx
    · rw [hprod2, hprod1]
    · rw [hseq2, hseq1]
    · rw [htime2, htime1]
  simp only [OrderBook.try_from, OrderBook.to_compact, hrun1, hrun2, hfinal]

/-! ## Claim theorems (part 1) -/

/-- C2: `update_with` rejects every event (of any variant) whose `sequence`
field differs from the book's current sequence plus one (wrapping `u64`
arithmetic, as computed by the source) with `OutOfSequence`, and returns the
book completely unchanged — same sequence, `updated_at`, half-books, index
and best prices. -/
theorem update_with_rejects_out_of_sequence (b : OrderBook) (m : LevelThreeMessage)
    (h : m.sequence ≠ u64Succ b.sequence) :
    b.update_with m = (b, .error .outOfSequence) := by
  cases m <;>
    simp only [LevelThreeMessage.sequence] at h <;>
    simp only [OrderBook.update_with] <;>
    rw [if_pos h]

/-- Witness for C2 at the spec's scenario 6: empty book at sequence 1000,
`Open` with sequence 1002. -/
theorem update_with_rejects_out_of_sequence_witness :
    (emptyBook ⟨0⟩ 1000 0).update_with (.Open 0 1002 1 .buy 9900 1 0) =
      (emptyBook ⟨0⟩ 1000 0, .error .outOfSequence) :=
  update_with_rejects_out_of_sequence _ _ (by decide)

/-- C6: an in-sequence `Change` or `Done` whose order id is not in the index
succeeds, sets `sequence` to the event's sequence and `updated_at` to its
time, and leaves the half-books, the index and the best prices unchanged. -/
theorem change_done_unknown_id_succeeds (b : OrderBook) (pid seq oid : ℕ)
    (price size t : ℤ) (hseq : seq = u64Succ b.sequence)
    (hid : mfind? oid b.index = none) :
    b.update_with (.Change pid seq oid price size t) =
      ({ b with sequence := seq, updated_at := t },
        .ok (.Change seq t oid price size)) ∧
    b.update_with (.Done pid seq oid t) =
      ({ b with sequence := seq, updated_at := t },
        .ok (.Done seq t oid)) := by
  subst hseq
  constructor
  · simp [OrderBook.update_with, hid]
  · simp [OrderBook.update_with, OrderBook.delete, hid]

/-- Witness for C6 at the spec's scenario 5: `Done(1001, unknown id)` on an
empty book at sequence 1000 succeeds and leaves the book empty. -/
theorem change_done_unknown_id_succeeds_witness :
    (emptyBook ⟨0⟩ 1000 0).update_with (.Done 0 1001 77 3) =
      ({ emptyBook ⟨0⟩ 1000 0 with sequence := 1001, updated_at := 3 },
        .ok (.Done 1001 3 77)) :=
  (change_done_unknown_id_succeeds (emptyBook ⟨0⟩ 1000 0) 0 1001 77 0 0 3
    (by decide) (by decide)).2

/-- C9: an in-sequence `Open` on an id already present in the index returns
`OrderAlreadyExists`, yet the book has been mutated: `sequence` advanced,
`updated_at` set, and the index entry overwritten with the event's side and
price while the queues and best prices are untouched. When the overwritten
location has no price level, invariant 1 (index/queue coherence) no longer
holds. -/
theorem open_duplicate_id_mutates (b : OrderBook) (pid seq oid : ℕ)
    (side : Side) (price size t : ℤ) (prev : Side × ℤ)
    (hseq : seq = u64Succ b.sequence)
    (hdup : mfind? oid b.index = some prev) :
    b.update_with (.Open pid seq oid side price size t) =
      ({ b with
          sequence := seq
          updated_at := t
          index := minsert oid (side, price) b.index },
        .error .orderAlreadyExists) ∧
    (mfind? price (b.getSide side) = none →
      ¬ Coherent1 { b with
          sequence := seq
          updated_at := t
          index := minsert oid (side, price) b.index }) := by
  subst hseq
  constructor
  · simp [OrderBook.update_with, OrderBook.insert, hdup]
  · intro hnone hcoh
    have hmem : (oid, (side, price)) ∈ minsert oid (side, price) b.index :=
      mfind?_eq_some_mem (mfind?_minsert_self oid (side, price) b.index)
    obtain ⟨os, hos, -⟩ := hcoh (oid, (side, price)) hmem
    have : mfind? price (b.getSide side) = some os := by
      cases side <;> exact hos
    rw [hnone] at this
    cases this

/-- Witness for C9: a book holding bid `X` at 9900 receives an in-sequence
duplicate `Open` for `X` on the sell side at 10100 (no such ask level). -/
theorem open_duplicate_id_mutates_witness :
    (⟨⟨0⟩, decMAX, 9900, [], [(9900, ⟨10, [⟨1, 10⟩]⟩)], 1000, 0,
        [(1, (.buy, 9900))]⟩ : OrderBook).update_with
        (.Open 0 1001 1 .sell 10100 1 3) =
      (⟨⟨0⟩, decMAX, 9900, [], [(9900, ⟨10, [⟨1, 10⟩]⟩)], 1001, 3,
          [(1, (.sell, 10100))]⟩, .error .orderAlreadyExists) ∧
    ¬ Coherent1 ⟨⟨0⟩, decMAX, 9900, [], [(9900, ⟨10, [⟨1, 10⟩]⟩)], 1001, 3,
        [(1, (.sell, 10100))]⟩ := by
  have h := open_duplicate_id_mutates
    (⟨⟨0⟩, decMAX, 9900, [], [(9900, ⟨10, [⟨1, 10⟩]⟩)], 1000, 0,
        [(1, (.buy, 9900))]⟩ : OrderBook) 0 1001 1 .sell 10100 1 3 (.buy, 9900)
    (by decide) (by decide)
  exact ⟨h.1, h.2 (by decide)⟩

/-- C4 (code bug, failing input): building the initial book from a snapshot
whose ask side is empty yields `best_ask = 0` — the source's
`asks.keys().next().unwrap_or(&Decimal::ZERO)` fallback — instead of the
`Decimal::MAX` (+∞) sentinel required by §3 and by every other code path. -/
theorem build_snapshot_empty_asks_best_ask_zero :
    ∃ book, buildSnapshotBook ⟨0⟩ ⟨[], [(9900, 1, 1)], 1000, 0⟩ = .ok book ∧
      book.asks = [] ∧ book.best_ask = 0 ∧ book.best_ask ≠ decMAX ∧
      ¬ BestPrices book := by
  refine ⟨_, rfl, rfl, rfl, by decide, by decide⟩

theorem mkeys_minsert_mem {κ ν : Type} [LinearOrder κ] {k : κ} (v : ν)
    {l : OMap κ ν} (hs : MSorted l) (hmem : k ∈ mkeys l) :
    mkeys (minsert k v l) = mkeys l := by
  induction l with
  | nil => simp [mkeys] at hmem
  | cons hd tl ih =>
    obtain ⟨q, w⟩ := hd
    obtain ⟨hq, ht⟩ := msorted_cons.mp hs
    simp only [mkeys, List.map_cons, List.mem_cons] at hmem
    rcases hmem with rfl | hmem
    · rw [minsert_cons_eq]
      simp [mkeys]
    · rw [minsert_cons_gt (hq k hmem)]
      simp only [mkeys, List.map_cons]
      rw [show List.map Prod.fst (minsert k v tl) = mkeys (minsert k v tl) from rfl,
        ih ht hmem]
      rfl

/-- C5: an in-sequence `Change` on an indexed order, at the same price and
with a size that has not increased, is applied in place: the order keeps its
queue position with its size overwritten, the level total is adjusted by the
difference, and the index, the best prices, the other half-book and the set
of price levels are all unchanged. -/
theorem change_shrink_in_place (b : OrderBook) (pid seq oid : ℕ)
    (side : Side) (price size t : ℤ) (os : Orders) (i : ℕ) (oldsize : ℤ)
    (hseq : seq = u64Succ b.sequence)
    (hidx : mfind? oid b.index = some (side, price))
    (hlvl : mfind? price (b.getSide side) = some os)
    (hfind : queueFind oid os.queue = some (i, oldsize))
    (hle : size ≤ oldsize) (h0 : 0 ≤ size)
    (hold : oldsize ≤ os.total_size) (htot : os.total_size ≤ decMAX)
    (htot0 : 0 ≤ os.total_size)
    (hsorted : MSorted (b.getSide side)) :
    b.update_with (.Change pid seq oid price size t) =
      (OrderBook.setSide { b with sequence := seq, updated_at := t } side
        (minsert price ⟨os.total_size - oldsize + size, os.queue.set i ⟨oid, size⟩⟩
          (b.getSide side)),
        .ok (.Change seq t oid price size)) ∧
    ∀ b', b' = OrderBook.setSide { b with sequence := seq, updated_at := t } side
        (minsert price ⟨os.total_size - oldsize + size, os.queue.set i ⟨oid, size⟩⟩
          (b.getSide side)) →
      b'.index = b.index ∧ b'.best_bid = b.best_bid ∧ b'.best_ask = b.best_ask ∧
      mkeys (b'.getSide side) = mkeys (b.getSide side) ∧
      (∀ s', s' ≠ side → b'.getSide s' = b.getSide s') := by
  subst hseq
  obtain ⟨q₁, o, q₂, hsplit, hlen, hoid, hsz, hnn, hget, herase, hset⟩ :=
    queueFind_spec hfind
  have ho : o = ⟨oid, oldsize⟩ := by
    cases o
    simp only [Order.mk.injEq]
    exact ⟨hoid, hsz⟩
  have hsub : checkedSub os.total_size oldsize = some (os.total_size - oldsize) := by
    have hdm : (0 : ℤ) < decMAX := by decide
    unfold checkedSub
    rw [if_pos]
    constructor <;> omega
  have hadd : checkedAdd (os.total_size - oldsize) size =
      some (os.total_size - oldsize + size) := by
    have hdm : (0 : ℤ) < decMAX := by decide
    unfold checkedAdd
    rw [if_pos]
    constructor <;> omega
  constructor
  · simp only [OrderBook.update_with, ne_eq, not_true_eq_false, if_false,
      index_seqTime, hidx, getSide_seqTime, hlvl, hfind, hget, hsub, hadd, ho]
    rw [if_neg (by simp [not_lt.mpr hle])]
  · intro b' hb'
    subst hb'
    refine ⟨?_, ?_, ?_, ?_, ?_⟩
    · cases side <;> rfl
    · cases side <;> rfl
    · cases side <;> rfl
    · rw [getSide_setSide_same]
      exact mkeys_minsert_mem _ hsorted (mfind?_isSome_iff.mp (by rw [hlvl]; rfl))
    · intro s' hs'
      rw [getSide_setSide_ne _ _ hs']
      cases s' <;> rfl

/-- Witness for C5 at the spec's scenario 4 (decimals in 0.01 increments):
bids `{99.00: [X:10, Y:5]}`, `Change(X, 99.00, 7)` yields queue `[X:7, Y:5]`
with `total_size = 12`, everything else unchanged. -/
theorem change_shrink_in_place_witness :
    (⟨⟨0⟩, decMAX, 9900, [], [(9900, ⟨15, [⟨1, 10⟩, ⟨2, 5⟩]⟩)], 1000, 0,
        [(1, (.buy, 9900)), (2, (.buy, 9900))]⟩ : OrderBook).update_with
        (.Change 0 1001 1 9900 7 3) =
      (⟨⟨0⟩, decMAX, 9900, [], [(9900, ⟨12, [⟨1, 7⟩, ⟨2, 5⟩]⟩)], 1001, 3,
          [(1, (.buy, 9900)), (2, (.buy, 9900))]⟩,
        .ok (.Change 1001 3 1 9900 7)) := by
  have h := change_shrink_in_place
    (⟨⟨0⟩, decMAX, 9900, [], [(9900, ⟨15, [⟨1, 10⟩, ⟨2, 5⟩]⟩)], 1000, 0,
        [(1, (.buy, 9900)), (2, (.buy, 9900))]⟩ : OrderBook)
    0 1001 1 .buy 9900 7 3 ⟨15, [⟨1, 10⟩, ⟨2, 5⟩]⟩ 0 10
    (by decide) (by decide) (by decide) (by decide) (by decide) (by decide)
    (by decide) (by decide) (by decide) (by decide)
  rw [h.1]
  decide

/-- C8: the `Channel::next` decode loop returns the decoded `T` of the first
frame whose payload decodes as `T`, silently dropping every earlier frame
that decodes as a heartbeat but not as `T`; a frame that decodes as neither
fails with the dependency (invalid JSON) error instead of returning a
value. -/
theorem channel_next_first_decodable {Frame T HB : Type}
    (decodeT : Frame → Option T) (decodeHB : Frame → Option HB)
    (pre : List Frame) (f : Frame) (rest : List Frame)
    (hpre : ∀ g ∈ pre, decodeT g = none ∧ (decodeHB g).isSome) :
    (∀ v, decodeT f = some v →
      channelNext decodeT decodeHB (pre ++ f :: rest) = .ok (v, rest)) ∧
    (decodeT f = none → decodeHB f = none →
      channelNext decodeT decodeHB (pre ++ f :: rest) =
        .error (.dependency "Json error")) := by
  induction pre with
  | nil =>
    constructor
    · intro v hv
      simp [channelNext, hv]
    · intro h1 h2
      simp [channelNext, h1, h2]
  | cons g tl ih =>
    obtain ⟨hg1, hg2⟩ := hpre g (List.mem_cons_self _ _)
    obtain ⟨hb, hhb⟩ := Option.isSome_iff_exists.mp hg2
    have ih' := ih fun x hx => hpre x (List.mem_cons_of_mem _ hx)
    constructor
    · intro v hv
      rw [List.cons_append]
      simp only [channelNext, hg1, hhb]
      exact ih'.1 v hv
    · intro h1 h2
      rw [List.cons_append]
      simp only [channelNext, hg1, hhb]
      exact ih'.2 h1 h2

/-- Witness for C8: one heartbeat frame is dropped before a `T` frame is
returned; a frame decoding as neither fails. -/
theorem channel_next_first_decodable_witness :
    channelNext (fun n : ℕ => if n = 1 then some n else none)
        (fun n : ℕ => if n = 0 then some 0 else none) [0, 1, 5] = .ok (1, [5]) ∧
    channelNext (fun n : ℕ => if n = 1 then some n else none)
        (fun n : ℕ => if n = 0 then some 0 else none) [0, 7] =
      .error (.dependency "Json error") :=
  ⟨(channel_next_first_decodable _ _ [0] 1 [5] (by decide)).1 1 (by decide),
   (channel_next_first_decodable _ _ [0] 7 [] (by decide)).2 (by decide) (by decide)⟩

/-! ## Claim theorems (part 2) -/

/-- The book produced by the concrete four-event chain used to witness the
invariant-preservation theorem. -/
def chainWitnessBook : OrderBook :=
  { product := ⟨0⟩
    best_ask := decMAX
    best_bid := 10050
    asks := []
    bids := [(9900, ⟨1, [⟨2, 1⟩]⟩), (10050, ⟨1, [⟨3, 1⟩]⟩)]
    sequence := 1004
    updated_at := 4
    index := [(2, (Side.buy, 9900)), (3, (Side.buy, 10050))] }

/-- C1: for every finite sequence of well-formed, in-order events, each
accepted by `update_with`, applied to an empty order book, the resulting book
satisfies invariants 1–5 of the data model: the index and the level queues are
coherent views of each other (every index entry's level holds the id exactly
once, and every queued order is indexed at its own side and price), the best
prices equal the key extrema of the half-books with the `0` / `Decimal::MAX`
sentinels on empty sides, the book is not crossed, and the sequence has
advanced by exactly one per accepted event (wrapping `u64` arithmetic). -/
theorem update_with_chain_invariants (p : Product) (s0 : ℕ) (t0 : ℤ)
    (es : List LevelThreeMessage) (b' : OrderBook) (hs0 : s0 < 2 ^ 64)
    (hwf : chainWF (emptyBook p s0 t0) es = true)
    (happ : applyChain (emptyBook p s0 t0) es = some b') :
    Coherent1 b' ∧ Coherent2 b' ∧ BestPrices b' ∧ NotCrossed b' ∧
      b'.sequence = (s0 + es.length) % 2 ^ 64 := by
  obtain ⟨hInv', hseq'⟩ :=
    chain_preserves_inv es _ b' (inv_emptyBook p s0 t0) hs0 hwf happ
  exact ⟨hInv'.2.1, hInv'.2.2.1, hInv'.2.2.2.1, hInv'.2.2.2.2, hseq'⟩

theorem update_with_chain_invariants_witness :
    1000 < 2 ^ 64 ∧
    chainWF (emptyBook ⟨0⟩ 1000 0)
      [.Open 0 1001 1 .sell 10000 1 1, .Open 0 1002 2 .buy 9900 1 2,
       .Match 0 1003 1 99 10000 1 3, .Open 0 1004 3 .buy 10050 1 4] = true ∧
    applyChain (emptyBook ⟨0⟩ 1000 0)
      [.Open 0 1001 1 .sell 10000 1 1, .Open 0 1002 2 .buy 9900 1 2,
       .Match 0 1003 1 99 10000 1 3, .Open 0 1004 3 .buy 10050 1 4] =
      some chainWitnessBook ∧
    (Coherent1 chainWitnessBook ∧ Coherent2 chainWitnessBook ∧
      BestPrices chainWitnessBook ∧ NotCrossed chainWitnessBook ∧
      chainWitnessBook.sequence = (1000 + 4) % 2 ^ 64) :=
  ⟨by decide, by decide, by decide,
    update_with_chain_invariants ⟨0⟩ 1000 0
      [.Open 0 1001 1 .sell 10000 1 1, .Open 0 1002 2 .buy 9900 1 2,
       .Match 0 1003 1 99 10000 1 3, .Open 0 1004 3 .buy 10050 1 4]
      chainWitnessBook (by decide) (by decide) (by decide)⟩

/-- Spec scenario 2's initial book: one bid level at 99.00, one ask level at
100.00 (prices in hundredths), sequence 1000. -/
def scenario2Book : OrderBook :=
  { product := ⟨0⟩
    best_ask := 10000
    best_bid := 9900
    asks := [(10000, ⟨1, [⟨1, 1⟩]⟩)]
    bids := [(9900, ⟨1, [⟨2, 1⟩]⟩)]
    sequence := 1000
    updated_at := 0
    index := [(1, (Side.sell, 10000)), (2, (Side.buy, 9900))] }

/-- The book after scenario 2's `Match` empties the only ask level. -/
def scenario2AfterMatch : OrderBook :=
  { product := ⟨0⟩
    best_ask := decMAX
    best_bid := 9900
    asks := []
    bids := [(9900, ⟨1, [⟨2, 1⟩]⟩)]
    sequence := 1001
    updated_at := 1
    index := [(2, (Side.buy, 9900))] }

/-- C3: after any accepted, well-formed event (in particular a `Match`, `Done`
or price-moving `Change` that removes the last order of a price level) the
book holds no empty levels — an emptied level is removed from its half-book —
and both best prices equal the key extrema of the post-removal half-books with
the `0` / `Decimal::MAX` sentinel fallbacks; and in spec scenario 2, after the
`Match` empties the only ask level at 100.00 and an `Open` adds a bid at
100.50, the ask side is empty, `best_bid = 100.50`, `best_ask = Decimal::MAX`
(the +∞ sentinel), and the book is not crossed. -/
theorem level_removal_refreshes_best :
    (∀ (b b' : OrderBook) (m : LevelThreeMessage) (msg : Message),
        Inv b → msgWFb b m = true → b.update_with m = (b', .ok msg) →
        BestPrices b' ∧ ∀ s : Side, ∀ pv ∈ b'.getSide s, pv.2.queue ≠ []) ∧
    (∃ b₂ : OrderBook,
      applyChain scenario2Book
        [.Match 0 1001 1 99 10000 1 1, .Open 0 1002 3 .buy 10050 1 2] = some b₂ ∧
      b₂.asks = [] ∧ b₂.best_bid = 10050 ∧ b₂.best_ask = decMAX ∧
      b₂.best_bid < b₂.best_ask) := by
  constructor
  · intro b b' m msg hInv hwfm hok
    obtain ⟨hInv', -⟩ := update_with_preserves_inv hInv hwfm hok
    refine ⟨hInv'.2.2.2.1, ?_⟩
    intro s pv hpv
    exact (wf_level hInv'.1 hpv).2.2.1
  · exact ⟨_, rfl, rfl, rfl, rfl, by decide⟩

theorem level_removal_refreshes_best_witness :
    Inv scenario2Book ∧
    msgWFb scenario2Book (.Match 0 1001 1 99 10000 1 1) = true ∧
    scenario2Book.update_with (.Match 0 1001 1 99 10000 1 1) =
      (scenario2AfterMatch, .ok (.Match 1001 1 1 99 .sell 10000 1)) ∧
    (BestPrices scenario2AfterMatch ∧
      ∀ s : Side, ∀ pv ∈ scenario2AfterMatch.getSide s, pv.2.queue ≠ []) :=
  ⟨by decide, by decide, by decide,
    level_removal_refreshes_best.1 scenario2Book scenario2AfterMatch
      (.Match 0 1001 1 99 10000 1 1) (.Match 1001 1 1 99 .sell 10000 1)
      (by decide) (by decide) (by decide)⟩

/-- A small two-sided book used to witness the compact round trip. -/
def roundTripWitnessBook : OrderBook :=
  { product := ⟨7⟩
    best_ask := 10100
    best_bid := 9900
    asks := [(10100, ⟨2, [⟨5, 2⟩]⟩)]
    bids := [(9900, ⟨3, [⟨6, 1⟩, ⟨8, 2⟩]⟩)]
    sequence := 42
    updated_at := 9
    index := [(5, (Side.sell, 10100)), (6, (Side.buy, 9900)), (8, (Side.buy, 9900))] }

/-- C10: for every order book satisfying the data-model invariants (best
prices equal to the half-book extrema or sentinels, level totals equal to the
sum of their queue sizes, index coherent with the queues), converting to the
compact projection and back is the identity: `OrderBook::try_from` returns
`Ok` of a book equal to the original in `product`, `asks`, `bids`, `index`,
`best_ask`, `best_bid`, `sequence` and `updated_at`. -/
theorem to_compact_try_from_round_trip (b : OrderBook) (hInv : Inv b) :
    OrderBook.try_from b.to_compact = .ok b :=
  try_from_to_compact_id b hInv

theorem to_compact_try_from_round_trip_witness :
    Inv roundTripWitnessBook ∧
    OrderBook.try_from roundTripWitnessBook.to_compact = .ok roundTripWitnessBook :=
  ⟨by decide, to_compact_try_from_round_trip roundTripWitnessBook (by decide)⟩

end Coinbase

